import Mathlib

/-!
# HNSW index-scan plan rewrite (`src/hnsw/hnsw_plan_index_scan.cpp`)

A shallow embedding of `HNSWIndexScanOptimizer` (`TryOptimize`, `OptimizeChildren`,
`MergeProjections`, `Optimize`) together with the part of the DuckDB plan and expression
model these functions read and write.

Conventions of the embedding:

* the plan is a value; an in-place mutation of `plan` becomes the returned plan;
* a bounds-checked `vector::operator[]` outside its range, the dereference of an unset
  `optional_ptr` and `ArrayValue::GetChildren` on a NULL value raise an exception in the
  engine; here they are the `Except.error` outcomes (`Fault`);
* single precision floats are only copied by this code, never computed with; they are
  kept as bit patterns (`float32`).
-/

namespace duckdb

/-! ## Values and types -/

/-- A single precision float, identified by its IEEE-754 bit pattern. -/
structure float32 where
  bits : Nat
deriving DecidableEq, Repr

/-- The logical types the pass can meet (`LogicalTypeId` plus the array child type and size). -/
inductive LogicalType where
  | TINYINT
  | INTEGER
  | FLOAT
  | DOUBLE
  | VARCHAR
  | LIST (child : LogicalType)
  | ARRAY (child : LogicalType) (size : Nat)
deriving DecidableEq, Repr

/-- A constant `Value`: a typed NULL (`Value(LogicalType)`), a non-null scalar with its
payload, or a non-null nested value (LIST / ARRAY) with its children. -/
inductive Value where
  | null (type : LogicalType)
  | scalar (type : LogicalType) (payload : Nat)
  | nested (type : LogicalType) (children : List Value)
deriving Repr

/-- The exceptions the engine raises on the accesses this file performs. -/
inductive Fault where
  | IndexOutOfBounds
  | NullDereference
  | NullValue
  | InvalidCast
  | OutOfFuel
deriving DecidableEq, Repr

/-- The type of a value: `Value::type()`. -/
def Value.type : Value → LogicalType
  | .null t => t
  | .scalar t _ => t
  | .nested t _ => t

/-- The children of an array value: `ArrayValue::GetChildren`, which raises on a NULL value. -/
def ArrayValue.GetChildren : Value → Except Fault (List Value)
  | .null _ => .error .NullValue
  | .scalar _ _ => .error .NullDereference
  | .nested _ children => .ok children

/-! ## Expressions -/

/-- A positional address: `ColumnBinding(table_index, column_index)`. -/
structure ColumnBinding where
  table_index : Nat
  column_index : Nat
deriving DecidableEq, Repr

/-- Bound expressions, by `ExpressionType`: `BOUND_COLUMN_REF`, `VALUE_CONSTANT`,
`BOUND_FUNCTION`, and any other expression with its child expressions. -/
inductive Expression where
  | BoundColumnRef (binding : ColumnBinding)
  | BoundConstant (value : Value)
  | BoundFunction (function_name : String) (children : List Expression)
  | Other (kind : Nat) (children : List Expression)
deriving Repr

/-- The direction of an ordering key: `OrderType`. -/
inductive OrderType where
  | INVALID
  | ORDER_DEFAULT
  | ASCENDING
  | DESCENDING
deriving DecidableEq, Repr

/-- One ordering key of a TopN node: `BoundOrderByNode`. -/
structure BoundOrderByNode where
  type : OrderType
  expression : Expression
deriving Repr

/-! ## Catalog and index metadata -/

/-- Modelled from the spec: the index descriptor of `HNSWIndex` (declared in
`hnsw/hnsw_index.hpp`): a fixed vector dimensionality and the set of distance-function
names the index supports. -/
structure HNSWIndex where
  name : String
  vector_size : Nat
  metrics : List String
deriving DecidableEq, Repr

/-- Modelled from the spec: `HNSWIndex::GetVectorSize`, the dimensionality of the index. -/
def HNSWIndex.GetVectorSize (index : HNSWIndex) : Nat :=
  index.vector_size

/-- Modelled from the spec: `HNSWIndex::MatchesDistanceFunction`, membership of the function
name in the supported-metric set of the index. -/
def HNSWIndex.MatchesDistanceFunction (index : HNSWIndex) (function_name : String) : Bool :=
  index.metrics.contains function_name

/-- A table of the catalog with what the pass reads from it: whether it is a native
(duck) table, and the HNSW indexes of its storage in enumeration order
(`table.GetStorage().GetDataTableInfo()->GetIndexes()`). -/
structure TableCatalogEntry where
  name : String
  is_duck_table : Bool
  indexes : List HNSWIndex
deriving DecidableEq, Repr

/-- The check `TableCatalogEntry::IsDuckTable`. -/
def TableCatalogEntry.IsDuckTable (table : TableCatalogEntry) : Bool :=
  table.is_duck_table

/-- The bind parameters of the index scan: `HNSWIndexScanBindData(table, index, limit,
query)`. -/
structure HNSWIndexScanBindData where
  table : TableCatalogEntry
  index : HNSWIndex
  limit : Nat
  query : List float32
deriving DecidableEq, Repr

/-- The bind data a scan node can own. -/
inductive FunctionData where
  | TableScanBindData (table : TableCatalogEntry)
  | HNSWIndexScan (data : HNSWIndexScanBindData)
  | Other
deriving DecidableEq, Repr

/-- A table function, identified by its name. -/
structure TableFunction where
  name : String
deriving DecidableEq, Repr

/-- The cardinality estimate a table function reports: `NodeStatistics`. -/
structure NodeStatistics where
  has_estimated_cardinality : Bool
  estimated_cardinality : Nat
deriving DecidableEq, Repr

/-! ## Operators -/

/-- The fields of a `LogicalGet` the pass reads and writes. -/
structure LogicalGet where
  function : TableFunction
  bind_data : FunctionData
  has_estimated_cardinality : Bool
  estimated_cardinality : Nat
deriving DecidableEq, Repr

/-- The table a scan reads, `LogicalGet::GetTable`: taken from the bind data, unset for a
table function that scans no table. -/
def LogicalGet.GetTable (get : LogicalGet) : Option TableCatalogEntry :=
  match get.bind_data with
  | .TableScanBindData table => some table
  | .HNSWIndexScan data => some data.table
  | .Other => none

/-- The operator kinds the pass does not look into. -/
inductive OtherOperatorType where
  | LOGICAL_FILTER
  | LOGICAL_LIMIT
  | LOGICAL_ORDER_BY
  | LOGICAL_AGGREGATE_AND_GROUP_BY
  | LOGICAL_COMPARISON_JOIN
  | LOGICAL_CROSS_PRODUCT
  | LOGICAL_UNION
  | LOGICAL_DUMMY_SCAN
deriving DecidableEq, Repr

/-- The type-specific part of an operator node: `LOGICAL_TOP_N`, `LOGICAL_PROJECTION`,
`LOGICAL_GET`, or another operator type. -/
inductive OperatorNode where
  | LogicalTopN (orders : List BoundOrderByNode) (limit : Nat) (offset : Nat)
  | LogicalProjection (table_index : Nat) (expressions : List Expression)
  | LogicalGet (get : LogicalGet)
  | Other (type : OtherOperatorType)
deriving Repr

/-- A node of the logical plan: its type-specific part and its owned, ordered children. -/
inductive LogicalOperator where
  | mk (node : OperatorNode) (children : List LogicalOperator)
deriving Repr

/-- The type-specific part of a node. -/
def LogicalOperator.node : LogicalOperator → OperatorNode
  | .mk node _ => node

/-- The children of a node. -/
def LogicalOperator.children : LogicalOperator → List LogicalOperator
  | .mk _ children => children

/-- Everything the pass reads from outside `hnsw_plan_index_scan.cpp`:
* `IsDistanceFunction`: `HNSWIndex::IsDistanceFunction`, the recognised distance functions;
* `DefaultTryCastAs`: `Value::DefaultTryCastAs(target_type, strict)`, `none` when the cast
  fails and the cast value otherwise;
* `GetValueFloat`: `Value::GetValue<float>`, `none` when it raises;
* `cardinality`: the cardinality estimator of `HNSWIndexScanFunction::GetFunction()`. -/
structure ClientContext where
  IsDistanceFunction : String → Bool
  DefaultTryCastAs : Value → LogicalType → Bool → Option Value
  GetValueFloat : Value → Option float32
  cardinality : HNSWIndexScanBindData → NodeStatistics

/-- The table function `HNSWIndexScanFunction::GetFunction()` installs; its name is the
one `MergeProjections` looks for. -/
def HNSWIndexScanFunction.GetFunction : TableFunction :=
  ⟨"hnsw_index_scan"⟩

/-! ## The rewrite: `TryOptimize` -/

/-- Lines 75-84, "Figure out the query vector": the value of the first argument when it is
a constant, else of the second when that one is a constant, else nothing. -/
def targetValue (arguments : List Expression) : Except Fault (Option Value) :=
  match arguments[0]? with
  | none => .error .IndexOutOfBounds
  | some (Expression.BoundConstant value) => .ok (some value)
  | some _ =>
    match arguments[1]? with
    | none => .error .IndexOutOfBounds
    | some (Expression.BoundConstant value) => .ok (some value)
    | some _ => .ok none

/-- Lines 89-103: the constant has to be an array; `array_size` is the declared size of its
type; an array whose child type is not FLOAT is cast (on a copy, `target_value`) to
`ARRAY(FLOAT, array_size)`. Yields `array_size` and the value the vector is read from. -/
def castTarget (context : ClientContext) (target_value : Value) : Option (Nat × Value) :=
  match target_value.type with
  | .ARRAY array_inner_type array_size =>
    if array_inner_type ≠ LogicalType.FLOAT then
      match context.DefaultTryCastAs target_value (.ARRAY .FLOAT array_size) true with
      | none => none
      | some cast_value => some (array_size, cast_value)
    else some (array_size, target_value)
  | _ => none

/-- Lines 105-114, "find any direct child or grandchild that is a get": follow single-child
nodes down to the first `LOGICAL_GET`; a node with zero or several children ends the search. -/
def findGet : LogicalOperator → Option LogicalGet
  | .mk (.LogicalGet get) _ => some get
  | .mk _ [child] => findGet child
  | .mk _ _ => none

/-- The plan after the scan node `findGet` reaches has been overwritten in place. -/
def replaceGet (new_get : LogicalGet) : LogicalOperator → LogicalOperator
  | .mk (.LogicalGet _) children => .mk (.LogicalGet new_get) children
  | .mk node [child] => .mk node [replaceGet new_get child]
  | .mk node children => .mk node children

/-- Lines 150-155: `query_vector[i] = vector_elements[i].GetValue<float>()` for `i` from
`i` up to `i + count`. -/
def queryVector (context : ClientContext) (vector_elements : List Value) :
    Nat → Nat → Except Fault (List float32)
  | _, 0 => .ok []
  | i, count + 1 =>
    match vector_elements[i]? with
    | none => .error .IndexOutOfBounds
    | some element =>
      match context.GetValueFloat element with
      | none => .error .InvalidCast
      | some x =>
        match queryVector context vector_elements (i + 1) count with
        | .error e => .error e
        | .ok rest => .ok (x :: rest)

/-- Lines 137-161, the callback given to `BindAndScan`: `some bind_data` when it sets
`bind_data` and returns true, `none` when it returns false. -/
def indexCallback (context : ClientContext) (duck_table : TableCatalogEntry)
    (function_name : String) (array_size : Nat) (target_value : Value) (limit : Nat)
    (hnsw_index : HNSWIndex) : Except Fault (Option HNSWIndexScanBindData) :=
  if hnsw_index.GetVectorSize ≠ array_size then .ok none
  else if !hnsw_index.MatchesDistanceFunction function_name then .ok none
  else
    match ArrayValue.GetChildren target_value with
    | .error e => .error e
    | .ok vector_elements =>
      match queryVector context vector_elements 0 array_size with
      | .error e => .error e
      | .ok query_vector => .ok (some ⟨duck_table, hnsw_index, limit, query_vector⟩)

/-- Modelled from the spec: `TableIndexList::BindAndScan<HNSWIndex>` (engine code) calls the
callback on the indexes in enumeration order and stops at the first one for which the
callback returns true. -/
def BindAndScan {β : Type} (callback : HNSWIndex → Except Fault (Option β)) :
    List HNSWIndex → Except Fault (Option β)
  | [] => .ok none
  | index_entry :: rest =>
    match callback index_entry with
    | .error e => .error e
    | .ok (some found) => .ok (some found)
    | .ok none => BindAndScan callback rest

/-- The scan node after lines 170-174: function, cardinality estimate and bind data
overwritten. -/
def indexScanGet (context : ClientContext) (bind_data : HNSWIndexScanBindData) : LogicalGet :=
  ⟨HNSWIndexScanFunction.GetFunction, .HNSWIndexScan bind_data,
    (context.cardinality bind_data).has_estimated_cardinality,
    (context.cardinality bind_data).estimated_cardinality⟩

/-- Lines 105-183 of `TryOptimize`: locate the scan, check it, resolve the index, overwrite
the scan and promote the child of the TopN. -/
def rewriteScan (context : ClientContext) (plan : LogicalOperator) (limit : Nat)
    (immediate_child : LogicalOperator) (function_name : String) (array_size : Nat)
    (target_value : Value) : Except Fault (Bool × LogicalOperator) :=
  match findGet immediate_child with
  | none => .ok (false, plan)
  | some get =>
    if get.function.name ≠ "seq_scan" then .ok (false, plan)
    else
      match get.GetTable with
      | none => .error .NullDereference
      | some table =>
        if !table.IsDuckTable then .ok (false, plan)
        else
          match BindAndScan
              (indexCallback context table function_name array_size target_value limit)
              table.indexes with
          | .error e => .error e
          | .ok none => .ok (false, plan)
          | .ok (some bind_data) =>
            .ok (true, replaceGet (indexScanGet context bind_data) immediate_child)

/-- The function `HNSWIndexScanOptimizer::TryOptimize`: the flag it returns and the plan
it leaves in the slot. -/
def TryOptimize (context : ClientContext) (plan : LogicalOperator) :
    Except Fault (Bool × LogicalOperator) :=
  match plan with
  | .mk (.LogicalTopN orders limit _) children =>
    match orders with
    | [order] =>
      if order.type ≠ OrderType.ASCENDING then .ok (false, plan)
      else
        match order.expression with
        | .BoundColumnRef binding =>
          match children[0]? with
          | none => .error .IndexOutOfBounds
          | some immediate_child =>
            match immediate_child.node with
            | .LogicalProjection _ expressions =>
              match expressions[binding.column_index]? with
              | none => .error .IndexOutOfBounds
              | some (Expression.BoundFunction function_name arguments) =>
                if !context.IsDistanceFunction function_name then .ok (false, plan)
                else
                  match targetValue arguments with
                  | .error e => .error e
                  | .ok none => .ok (false, plan)
                  | .ok (some constant) =>
                    match castTarget context constant with
                    | none => .ok (false, plan)
                    | some (array_size, target_value) =>
                      rewriteScan context plan limit immediate_child function_name
                        array_size target_value
              | some _ => .ok (false, plan)
            | _ => .ok (false, plan)
        | _ => .ok (false, plan)
    | _ => .ok (false, plan)
  | _ => .ok (false, plan)

/-! ## The walker: `OptimizeChildren` -/

mutual
/-- The number of nodes on the longest path from a node down to a leaf. -/
def LogicalOperator.height : LogicalOperator → Nat
  | .mk _ children => heightList children + 1
/-- The largest height in a list of nodes. -/
def heightList : List LogicalOperator → Nat
  | [] => 0
  | child :: rest => max child.height (heightList rest)
end

/-- The loop of lines 190-192 over the children, for a given recursive call: the flags
are or-ed and every child slot receives its rewritten child. -/
def forEachChild (recurse : LogicalOperator → Except Fault (Bool × LogicalOperator)) :
    List LogicalOperator → Except Fault (Bool × List LogicalOperator)
  | [] => .ok (false, [])
  | child :: rest =>
    match recurse child with
    | .error e => .error e
    | .ok (ok, child1) =>
      match forEachChild recurse rest with
      | .error e => .error e
      | .ok (ok_rest, rest1) => .ok (ok || ok_rest, child1 :: rest1)

/-- The recursion of `OptimizeChildren`, bounded by a recursion depth. -/
def OptimizeChildrenFuel (context : ClientContext) :
    Nat → LogicalOperator → Except Fault (Bool × LogicalOperator)
  | 0, _ => .error .OutOfFuel
  | fuel + 1, plan =>
    match TryOptimize context plan with
    | .error e => .error e
    | .ok (ok, plan1) =>
      match forEachChild (OptimizeChildrenFuel context fuel) plan1.children with
      | .error e => .error e
      | .ok (ok_children, children1) => .ok (ok || ok_children, .mk plan1.node children1)

/-- The function `HNSWIndexScanOptimizer::OptimizeChildren`; the height of the plan is
enough depth for the recursion. -/
def OptimizeChildren (context : ClientContext) (plan : LogicalOperator) :
    Except Fault (Bool × LogicalOperator) :=
  OptimizeChildrenFuel context plan.height plan

/-! ## The pruner: `MergeProjections` -/

mutual
/-- The column bindings `ExpressionIterator::EnumerateExpression` meets in an expression
tree: the expression itself and, recursively, all its children. -/
def Expression.referenced : Expression → List ColumnBinding
  | .BoundColumnRef binding => [binding]
  | .BoundConstant _ => []
  | .BoundFunction _ children => referencedList children
  | .Other _ children => referencedList children
/-- The column bindings met in a list of expression trees. -/
def referencedList : List Expression → List ColumnBinding
  | [] => []
  | expr :: rest => expr.referenced ++ referencedList rest
end

/-- The output bindings of a projection, `LogicalProjection::GetColumnBindings`:
`(table_index, i)` for every expression position `i`. -/
def GetColumnBindings (table_index : Nat) (expressions : List Expression) : List ColumnBinding :=
  (List.range expressions.length).map (ColumnBinding.mk table_index)

/-- The placeholder of line 223: `BoundConstantExpression(Value(LogicalType::TINYINT))`. -/
def placeholder : Expression :=
  .BoundConstant (.null .TINYINT)

/-- Lines 205-225: every expression of the child projection whose outgoing binding is not
among the bindings the parent projection references becomes the placeholder. -/
def pruneExpressions (parent_expressions : List Expression) (child_index : Nat)
    (child_expressions : List Expression) : List Expression :=
  List.zipWith
    (fun expr outgoing_binding =>
      if (referencedList parent_expressions).contains outgoing_binding then expr
      else placeholder)
    child_expressions (GetColumnBindings child_index child_expressions)

/-- Lines 197-228: at a projection over a projection over a scan named "hnsw_index_scan",
the node with the child projection pruned; `none` when the node is no such triple. -/
def pruneTriple (node : OperatorNode) (children : List LogicalOperator) :
    Except Fault (Option LogicalOperator) :=
  match node with
  | .LogicalProjection _ parent_expressions =>
    match children with
    | [] => .error .IndexOutOfBounds
    | child :: siblings =>
      match child with
      | .mk (.LogicalProjection child_index child_expressions) grandchildren =>
        match grandchildren with
        | [] => .error .IndexOutOfBounds
        | grandchild :: _ =>
          match grandchild.node with
          | .LogicalGet get =>
            if get.function.name = "hnsw_index_scan" then
              .ok (some (.mk node
                (.mk (.LogicalProjection child_index
                    (pruneExpressions parent_expressions child_index child_expressions))
                  grandchildren :: siblings)))
            else .ok none
          | _ => .ok none
      | _ => .ok none
  | _ => .ok none

mutual
/-- The function `HNSWIndexScanOptimizer::MergeProjections`. -/
def MergeProjections : LogicalOperator → Except Fault LogicalOperator
  | .mk node children =>
    match pruneTriple node children with
    | .error e => .error e
    | .ok (some pruned) => .ok pruned
    | .ok none =>
      match MergeProjectionsChildren children with
      | .error e => .error e
      | .ok children1 => .ok (.mk node children1)
/-- The loop of lines 230-232 over the children. -/
def MergeProjectionsChildren : List LogicalOperator → Except Fault (List LogicalOperator)
  | [] => .ok []
  | child :: rest =>
    match MergeProjections child with
    | .error e => .error e
    | .ok child1 =>
      match MergeProjectionsChildren rest with
      | .error e => .error e
      | .ok rest1 => .ok (child1 :: rest1)
end

/-- The function `HNSWIndexScanOptimizer::Optimize`: the plan the pass leaves. -/
def Optimize (context : ClientContext) (plan : LogicalOperator) : Except Fault LogicalOperator :=
  match OptimizeChildren context plan with
  | .error e => .error e
  | .ok (did_use_hnsw_scan, plan1) =>
    if did_use_hnsw_scan then MergeProjections plan1 else .ok plan1

mutual
/-- Every node of a plan: the node itself and the nodes below it. -/
def LogicalOperator.subtrees : LogicalOperator → List LogicalOperator
  | .mk node children => .mk node children :: subtreesList children
/-- Every node of a list of plans. -/
def subtreesList : List LogicalOperator → List LogicalOperator
  | [] => []
  | child :: rest => child.subtrees ++ subtreesList rest
end

/-! ## Predicates used to state the properties -/

/-- The resolver's test on one index (spec, Index Resolver): the dimensionality of the
index equals the length of the vector and the index supports the function name. -/
def compatible (function_name : String) (array_size : Nat) (index : HNSWIndex) : Bool :=
  index.GetVectorSize == array_size && index.MatchesDistanceFunction function_name

/-- The predicates of lines 31-73 hold for `plan`: it is a TopN of limit `limit` with a
single ascending key that is a column reference, its first child `child` is a projection,
and the expression at the referenced position is a call of the distance function
`function_name` with the arguments `arguments`. -/
def DistanceCall (context : ClientContext) (plan : LogicalOperator) (limit : Nat)
    (child : LogicalOperator) (function_name : String) (arguments : List Expression) : Prop :=
  ∃ order offset rest table_index expressions binding,
    plan = .mk (.LogicalTopN [order] limit offset) (child :: rest) ∧
    order.type = OrderType.ASCENDING ∧
    order.expression = .BoundColumnRef binding ∧
    child.node = .LogicalProjection table_index expressions ∧
    expressions[binding.column_index]? = some (.BoundFunction function_name arguments) ∧
    context.IsDistanceFunction function_name = true

/-- The predicates of lines 31-103 hold for `plan`: a distance call whose constant argument
is an array of declared size `array_size`, read (after the cast, if one was needed) from
`target_value`. -/
def QueryVectorFound (context : ClientContext) (plan : LogicalOperator) (limit : Nat)
    (child : LogicalOperator) (function_name : String) (array_size : Nat)
    (target_value : Value) : Prop :=
  ∃ arguments constant,
    DistanceCall context plan limit child function_name arguments ∧
    targetValue arguments = .ok (some constant) ∧
    castTarget context constant = some (array_size, target_value)

/-- The predicates of lines 31-130 hold for `plan`: everything the match asks for except a
compatible index; `table` is the native table the sequential scan reads. -/
def ShapeMatch (context : ClientContext) (plan : LogicalOperator) (limit : Nat)
    (child : LogicalOperator) (function_name : String) (array_size : Nat)
    (target_value : Value) (table : TableCatalogEntry) : Prop :=
  QueryVectorFound context plan limit child function_name array_size target_value ∧
  ∃ get,
    findGet child = some get ∧ get.function.name = "seq_scan" ∧
    get.GetTable = some table ∧ table.IsDuckTable = true

/-- The chain walk in the spec's words: from the node, following nodes that are not scans
and have exactly one child, the first scan node met is `get`. -/
inductive ReachesScan : LogicalOperator → LogicalGet → Prop where
  | scan (get : LogicalGet) (children : List LogicalOperator) :
      ReachesScan (.mk (.LogicalGet get) children) get
  | step (node : OperatorNode) (child : LogicalOperator) (get : LogicalGet) :
      (∀ g, node ≠ .LogicalGet g) → ReachesScan child get →
      ReachesScan (.mk node [child]) get

/-- The chain walk in the spec's words: following single-child nodes from the node, a node
with zero or with several children is met before any scan node. -/
inductive BranchesBeforeScan : LogicalOperator → Prop where
  | branch (node : OperatorNode) (children : List LogicalOperator) :
      (∀ g, node ≠ .LogicalGet g) → children.length ≠ 1 →
      BranchesBeforeScan (.mk node children)
  | step (node : OperatorNode) (child : LogicalOperator) :
      (∀ g, node ≠ .LogicalGet g) → BranchesBeforeScan child →
      BranchesBeforeScan (.mk node [child])

/-! ## Sample plans -/

/-- The float constant with the given bit pattern. -/
def exFloat (bits : Nat) : Value :=
  .scalar .FLOAT bits

/-- The bit patterns of 1.0, 2.0, 3.0 and 4.0. -/
def exBits : List Nat :=
  [0x3F800000, 0x40000000, 0x40400000, 0x40800000]

/-- The constant `[1.0, 2.0, 3.0, 4.0]::FLOAT[4]`. -/
def exVector : Value :=
  .nested (.ARRAY .FLOAT 4) (exBits.map exFloat)

/-- The query vector `[1.0, 2.0, 3.0, 4.0]` of the bind data. -/
def exQuery : List float32 :=
  exBits.map float32.mk

/-- The constant `[1, 2, 3, 4]::INTEGER[4]`. -/
def exIntVector : Value :=
  .nested (.ARRAY .INTEGER 4) [.scalar .INTEGER 1, .scalar .INTEGER 2, .scalar .INTEGER 3,
    .scalar .INTEGER 4]

/-- The constant `NULL::INTEGER[4]`. -/
def exNullIntVector : Value :=
  .null (.ARRAY .INTEGER 4)

/-- The constant `[1, NULL, 3, 4]::INTEGER[4]`. -/
def exNullElementVector : Value :=
  .nested (.ARRAY .INTEGER 4) [.scalar .INTEGER 1, .null .INTEGER, .scalar .INTEGER 3,
    .scalar .INTEGER 4]

/-- The constant `['a', 'b', 'c', 'd']::VARCHAR[4]`. -/
def exTextVector : Value :=
  .nested (.ARRAY .VARCHAR 4) [.scalar .VARCHAR 97, .scalar .VARCHAR 98, .scalar .VARCHAR 99,
    .scalar .VARCHAR 100]

/-- A sample cast of one small integer to the float of the same value, and of the NULL
integer to the NULL float. -/
def exCastElement : Value → Option Value
  | .scalar .INTEGER 1 => some (exFloat 0x3F800000)
  | .scalar .INTEGER 2 => some (exFloat 0x40000000)
  | .scalar .INTEGER 3 => some (exFloat 0x40400000)
  | .scalar .INTEGER 4 => some (exFloat 0x40800000)
  | .null .INTEGER => some (.null .FLOAT)
  | _ => none

/-- A sample cast to a float array: integer arrays of small values are cast element by
element, a NULL integer array or element is cast to the NULL of the target type (the cast
of a NULL succeeds), everything else fails. -/
def exCast (value : Value) (target : LogicalType) (_strict : Bool) : Option Value :=
  match value with
  | .nested (.ARRAY .INTEGER _) children =>
    match children.mapM exCastElement with
    | some cast_children => some (.nested target cast_children)
    | none => none
  | .null (.ARRAY .INTEGER _) => some (.null target)
  | _ => none

/-- A sample environment: the distance functions are "dist" and "array_distance", a FLOAT
scalar yields its float, the index scan estimates its limit as cardinality. -/
def exContext : ClientContext :=
  ⟨fun function_name => ["dist", "array_distance"].contains function_name,
   exCast,
   fun value => match value with
     | .scalar .FLOAT bits => some ⟨bits⟩
     | _ => none,
   fun bind_data => ⟨true, bind_data.limit⟩⟩

/-- An index of dimensionality 4 supporting "dist". -/
def exIndex : HNSWIndex :=
  ⟨"idx", 4, ["dist"]⟩

/-- A native table with the single index `exIndex`. -/
def exTable : TableCatalogEntry :=
  ⟨"T", true, [exIndex]⟩

/-- A sequential scan of a table. -/
def exSeqScan (table : TableCatalogEntry) : LogicalOperator :=
  .mk (.LogicalGet ⟨⟨"seq_scan"⟩, .TableScanBindData table, false, 0⟩) []

/-- The call `function_name(vec_col, constant)`. -/
def exDistance (function_name : String) (constant : Value) : Expression :=
  .BoundFunction function_name [.BoundColumnRef ⟨0, 0⟩, .BoundConstant constant]

/-- The projection `[dist(vec_col, constant) as col0, id as col1]` over `source`. -/
def exProjection (constant : Value) (source : LogicalOperator) : LogicalOperator :=
  .mk (.LogicalProjection 1 [exDistance "dist" constant, .BoundColumnRef ⟨0, 1⟩]) [source]

/-- A TopN with limit 5 and the single key `column` of its child, in the given direction. -/
def exTopN (type : OrderType) (column : Nat) (child : LogicalOperator) : LogicalOperator :=
  .mk (.LogicalTopN [⟨type, .BoundColumnRef ⟨1, column⟩⟩] 5 0) [child]

/-- The plan of the example scenario, with the ordering key at position `column`. -/
def exPlan (column : Nat) : LogicalOperator :=
  exTopN .ASCENDING column (exProjection exVector (exSeqScan exTable))

/-- The plan of the example scenario with the query constant `constant`, the ordering key
at the position of the distance call. -/
def exPlanOn (constant : Value) : LogicalOperator :=
  exTopN .ASCENDING 0 (exProjection constant (exSeqScan exTable))

/-- The index scan of `table` through `index`, limit 5, vector `[1.0, 2.0, 3.0, 4.0]`. -/
def exIndexScan (table : TableCatalogEntry) (index : HNSWIndex) : LogicalOperator :=
  .mk (.LogicalGet ⟨⟨"hnsw_index_scan"⟩, .HNSWIndexScan ⟨table, index, 5, exQuery⟩, true, 5⟩) []

/-- The plan the example scenario expects: the projection over the index scan. -/
def exRewritten : LogicalOperator :=
  exProjection exVector (exIndexScan exTable exIndex)

/-- A plan without TopN that holds a projection over a projection over an index scan; the
outer projection selects only `id`. -/
def exTriple : LogicalOperator :=
  .mk (.LogicalProjection 2 [.BoundColumnRef ⟨1, 1⟩])
    [exProjection exVector (exIndexScan exTable exIndex)]

/-- A native table with four indexes: wrong dimensionality, wrong metric, and two
compatible ones. -/
def exTableFour : TableCatalogEntry :=
  ⟨"T4", true, [⟨"dim3", 3, ["dist"]⟩, ⟨"cosine", 4, ["array_cosine_similarity"]⟩,
    ⟨"first", 4, ["dist"]⟩, ⟨"second", 4, ["dist", "array_distance"]⟩]⟩

/-- A native table whose indexes are all incompatible with a "dist" query of size 4. -/
def exTableNone : TableCatalogEntry :=
  ⟨"T0", true, [⟨"dim3", 3, ["dist"]⟩, ⟨"cosine", 4, ["array_cosine_similarity"]⟩]⟩

/-- A table that is not a native table. -/
def exForeignTable : TableCatalogEntry :=
  ⟨"F", false, [exIndex]⟩

/-- A projection whose distance call has two constant arguments. -/
def exBothConstant : LogicalOperator :=
  .mk (.LogicalProjection 1
      [.BoundFunction "dist" [.BoundConstant exVector, .BoundConstant exIntVector],
       .BoundColumnRef ⟨0, 1⟩])
    [exSeqScan exTable]

/-- A projection whose distance call has no constant argument. -/
def exNoConstant : LogicalOperator :=
  .mk (.LogicalProjection 1
      [.BoundFunction "dist" [.BoundColumnRef ⟨0, 0⟩, .BoundColumnRef ⟨0, 2⟩],
       .BoundColumnRef ⟨0, 1⟩])
    [exSeqScan exTable]

/-- A join of two sequential scans. -/
def exJoin : LogicalOperator :=
  .mk (.Other .LOGICAL_COMPARISON_JOIN) [exSeqScan exTable, exSeqScan exTable]

/-- A filter over a source. -/
def exFilter (source : LogicalOperator) : LogicalOperator :=
  .mk (.Other .LOGICAL_FILTER) [source]

/-! ## Predicates on the pruner -/

/-- In the spec's words: a column reference to `binding` occurs somewhere inside the
expression tree, at the top or nested in the arguments of a call. -/
inductive Expression.Mentions : Expression → ColumnBinding → Prop where
  | ref (binding : ColumnBinding) : Expression.Mentions (.BoundColumnRef binding) binding
  | call (function_name : String) (children : List Expression) (child : Expression)
      (binding : ColumnBinding) :
      child ∈ children → Expression.Mentions child binding →
      Expression.Mentions (.BoundFunction function_name children) binding
  | other (kind : Nat) (children : List Expression) (child : Expression)
      (binding : ColumnBinding) :
      child ∈ children → Expression.Mentions child binding →
      Expression.Mentions (.Other kind children) binding

/-- In the spec's words: the node is a projection whose first child is a projection whose
first child is a scan with the function name "hnsw_index_scan". -/
def IsTriple (plan : LogicalOperator) : Prop :=
  ∃ outer_index outer_expressions inner_index inner_expressions get scan_children
    inner_rest siblings,
    plan = .mk (.LogicalProjection outer_index outer_expressions)
      (.mk (.LogicalProjection inner_index inner_expressions)
        (.mk (.LogicalGet get) scan_children :: inner_rest) :: siblings) ∧
    get.function.name = "hnsw_index_scan"

/-- The frame of the pruner in the spec's words: the second plan is the first one except
that, at a triple, the expression list of the inner projection may hold other expressions
(as many as before) while the subtrees of the triple are the same; everywhere else the
node is the same and the children are related position by position. -/
inductive PrunedFrom : LogicalOperator → LogicalOperator → Prop where
  | triple (outer : OperatorNode) (inner_index : Nat)
      (inner_expressions pruned_expressions : List Expression)
      (grandchildren siblings : List LogicalOperator) :
      IsTriple (.mk outer
        (.mk (.LogicalProjection inner_index inner_expressions) grandchildren :: siblings)) →
      pruned_expressions.length = inner_expressions.length →
      PrunedFrom
        (.mk outer
          (.mk (.LogicalProjection inner_index inner_expressions) grandchildren :: siblings))
        (.mk outer
          (.mk (.LogicalProjection inner_index pruned_expressions) grandchildren :: siblings))
  | other (node : OperatorNode) (children children1 : List LogicalOperator) :
      ¬ IsTriple (.mk node children) →
      children1.length = children.length →
      (∀ (i : Nat) (child child1 : LogicalOperator),
        children[i]? = some child → children1[i]? = some child1 →
        PrunedFrom child child1) →
      PrunedFrom (.mk node children) (.mk node children1)

/-- The node without the expressions of a projection. -/
def OperatorNode.withoutExpressions : OperatorNode → OperatorNode
  | .LogicalProjection table_index _ => .LogicalProjection table_index []
  | node => node

mutual
/-- The plan without the expressions of its projections: its shape, its node kinds, its
TopN nodes and its scan nodes. -/
def LogicalOperator.skeleton : LogicalOperator → LogicalOperator
  | .mk node children => .mk node.withoutExpressions (skeletonList children)
/-- The skeletons of a list of plans. -/
def skeletonList : List LogicalOperator → List LogicalOperator
  | [] => []
  | child :: rest => child.skeleton :: skeletonList rest
end

/-! ## More sample plans -/

/-- The example triple after pruning: the inner projection is `[placeholder, id]`. -/
def exTriplePruned : LogicalOperator :=
  .mk (.LogicalProjection 2 [.BoundColumnRef ⟨1, 1⟩])
    [.mk (.LogicalProjection 1 [placeholder, .BoundColumnRef ⟨0, 1⟩])
      [exIndexScan exTable exIndex]]

/-- A triple whose outer projection references slot 0 of the inner one inside a call. -/
def exTripleNested : LogicalOperator :=
  .mk (.LogicalProjection 2 [.BoundFunction "sqrt" [.BoundColumnRef ⟨1, 0⟩]])
    [exProjection exVector (exIndexScan exTable exIndex)]

/-- A filter over a projection directly above an index scan. -/
def exFilterOverProjection : LogicalOperator :=
  exFilter (exProjection exVector (exIndexScan exTable exIndex))

/-- A projection over a projection over a sequential scan. -/
def exPairOverSeqScan : LogicalOperator :=
  .mk (.LogicalProjection 2 [.BoundColumnRef ⟨1, 1⟩])
    [exProjection exVector (exSeqScan exTable)]

/-- A triple whose outer projection has a second child that is a triple itself. -/
def exTripleWithSibling : LogicalOperator :=
  .mk (.LogicalProjection 2 [.BoundColumnRef ⟨1, 1⟩])
    [exProjection exVector (exIndexScan exTable exIndex), exTriple]

/-! ## Plans that differ in one operand of the distance call -/

/-- The two arguments of a distance call: the constant `value` and the operand `other`, in
either order. -/
def distanceArguments (constant_first : Bool) (value : Value) (other : Expression) :
    List Expression :=
  if constant_first then [.BoundConstant value, other] else [other, .BoundConstant value]

/-- A projection with a call of `function_name` on the constant `value` and the operand
`other` between the expressions `before` and `after`. -/
def operandChild (table_index : Nat) (before after : List Expression) (function_name : String)
    (constant_first : Bool) (value : Value) (children : List LogicalOperator)
    (other : Expression) : LogicalOperator :=
  .mk (.LogicalProjection table_index
      (before ++ .BoundFunction function_name (distanceArguments constant_first value other)
        :: after))
    children

/-- A TopN over `operandChild`; two such plans with another `other` differ only in that
operand. -/
def operandPlan (orders : List BoundOrderByNode) (limit offset : Nat) (table_index : Nat)
    (before after : List Expression) (function_name : String) (constant_first : Bool)
    (value : Value) (children rest : List LogicalOperator) (other : Expression) :
    LogicalOperator :=
  .mk (.LogicalTopN orders limit offset)
    (operandChild table_index before after function_name constant_first value children other
      :: rest)

/-! ## Predicates on the accesses of `TryOptimize` -/

/-- The traversal in the spec's words: the nodes on which the walker, started on a plan,
makes an attempt: the plan itself and, once the attempt on it has returned, the nodes
visited from every child of the node that is then in the slot. -/
inductive Visits (context : ClientContext) : LogicalOperator → LogicalOperator → Prop where
  | root (plan : LogicalOperator) : Visits context plan plan
  | child (plan plan1 : LogicalOperator) (ok : Bool) (child node : LogicalOperator) :
      TryOptimize context plan = .ok (ok, plan1) → child ∈ plan1.children →
      Visits context child node → Visits context plan node

/-- The nodes on the single-child chain that `findGet` follows, from the node down to the
first scan or to the node at which the chain ends. -/
def chainNodes : LogicalOperator → List OperatorNode
  | .mk (.LogicalGet get) _ => [.LogicalGet get]
  | .mk node [child] => node :: chainNodes child
  | .mk node _ => [node]

/-! ## Sample plans for the walker -/

/-- A union of two TopN plans over the scans of two tables. -/
def exUnion : LogicalOperator :=
  .mk (.Other .LOGICAL_UNION)
    [exPlan 0, exTopN .ASCENDING 0 (exProjection exVector (exSeqScan exTableFour))]

/-- The union after the pass: both TopN nodes gone, both scans index scans. -/
def exUnionRewritten : LogicalOperator :=
  .mk (.Other .LOGICAL_UNION)
    [exRewritten, exProjection exVector (exIndexScan exTableFour ⟨"first", 4, ["dist"]⟩)]

/-- Two TopN nodes on one chain above one sequential scan: limit 7 over limit 5. -/
def exStacked : LogicalOperator :=
  .mk (.LogicalTopN [⟨.ASCENDING, .BoundColumnRef ⟨1, 0⟩⟩] 7 0)
    [exProjection exVector (exPlan 0)]

/-- The stacked plan after the pass: the outer TopN gone, the inner TopN still there, the
scan an index scan with the limit 7 of the outer TopN. -/
def exStackedRewritten : LogicalOperator :=
  exProjection exVector
    (exTopN .ASCENDING 0
      (exProjection exVector
        (.mk (.LogicalGet ⟨⟨"hnsw_index_scan"⟩,
          .HNSWIndexScan ⟨exTable, exIndex, 7, exQuery⟩, true, 7⟩) [])))

/-! ## Counting nodes -/

/-- The node is a TopN. -/
def OperatorNode.isTopN : OperatorNode → Bool
  | .LogicalTopN _ _ _ => true
  | _ => false

/-- The node is a scan whose function is named "hnsw_index_scan". -/
def OperatorNode.isIndexScan : OperatorNode → Bool
  | .LogicalGet get => get.function.name == "hnsw_index_scan"
  | _ => false

mutual
/-- The number of nodes of a plan that satisfy a test. -/
def countNodes (test : OperatorNode → Bool) : LogicalOperator → Nat
  | .mk node children => (if test node then 1 else 0) + countNodesList test children
/-- The number of nodes of a list of plans that satisfy a test. -/
def countNodesList (test : OperatorNode → Bool) : List LogicalOperator → Nat
  | [] => 0
  | child :: rest => countNodes test child + countNodesList test rest
end

/-! ## Lemmas on `TryOptimize` -/

theorem TryOptimize_of_distanceCall {context : ClientContext} {plan : LogicalOperator}
    {limit : Nat} {child : LogicalOperator} {function_name : String}
    {arguments : List Expression}
    (h : DistanceCall context plan limit child function_name arguments) :
    TryOptimize context plan =
      match targetValue arguments with
      | .error e => .error e
      | .ok none => .ok (false, plan)
      | .ok (some constant) =>
        match castTarget context constant with
        | none => .ok (false, plan)
        | some (array_size, target_value) =>
          rewriteScan context plan limit child function_name array_size target_value := by
  obtain ⟨order, offset, rest, table_index, expressions, binding, rfl, h1, h2, h3, h4, h5⟩ := h
  simp only [TryOptimize, h1, h2, h3, h4, h5, List.getElem?_cons_zero, ne_eq, not_true_eq_false, if_false, Bool.not_true]
  rfl

theorem rewriteScan_false {context : ClientContext} {plan : LogicalOperator} {limit : Nat}
    {child : LogicalOperator} {function_name : String} {array_size : Nat}
    {target_value : Value} {plan1 : LogicalOperator}
    (h : rewriteScan context plan limit child function_name array_size target_value
      = .ok (false, plan1)) : plan1 = plan := by
  unfold rewriteScan at h
  split at h
  · cases h; rfl
  · split at h
    · cases h; rfl
    · split at h
      · cases h
      · split at h
        · cases h; rfl
        · split at h
          · cases h
          · cases h; rfl
          · cases h

theorem TryOptimize_false {context : ClientContext} {plan plan1 : LogicalOperator}
    (h : TryOptimize context plan = .ok (false, plan1)) : plan1 = plan := by
  unfold TryOptimize at h
  repeat' split at h
  all_goals first
    | (cases h; rfl)
    | (cases h)
    | exact rewriteScan_false h

theorem rewriteScan_true {context : ClientContext} {plan : LogicalOperator} {limit : Nat}
    {child : LogicalOperator} {function_name : String} {array_size : Nat}
    {target_value : Value} {plan1 : LogicalOperator}
    (h : rewriteScan context plan limit child function_name array_size target_value
      = .ok (true, plan1)) :
    ∃ get table bind_data,
      findGet child = some get ∧ get.function.name = "seq_scan" ∧
      get.GetTable = some table ∧ table.IsDuckTable = true ∧
      BindAndScan (indexCallback context table function_name array_size target_value limit)
        table.indexes = .ok (some bind_data) ∧
      plan1 = replaceGet (indexScanGet context bind_data) child := by
  unfold rewriteScan at h
  cases hg : findGet child with
  | none => simp [hg] at h
  | some get =>
    simp only [hg] at h
    by_cases hn : get.function.name = "seq_scan"
    · simp only [hn, ne_eq, not_true_eq_false, if_false] at h
      cases ht : get.GetTable with
      | none => simp [ht] at h
      | some table =>
        simp only [ht] at h
        cases hd : table.IsDuckTable with
        | false => simp [hd] at h
        | true =>
          simp only [hd, Bool.not_true, Bool.false_eq_true, if_false] at h
          cases hb : BindAndScan
              (indexCallback context table function_name array_size target_value limit)
              table.indexes with
          | error e => simp [hb] at h
          | ok found =>
            cases found with
            | none => simp [hb] at h
            | some bind_data =>
              simp only [hb, Except.ok.injEq, Prod.mk.injEq, true_and] at h
              exact ⟨get, table, bind_data, rfl, hn, ht, hd, hb, h.symm⟩
    · simp [hn] at h

theorem TryOptimize_true {context : ClientContext} {plan plan1 : LogicalOperator}
    (h : TryOptimize context plan = .ok (true, plan1)) :
    ∃ limit child function_name arguments constant array_size target_value,
      DistanceCall context plan limit child function_name arguments ∧
      targetValue arguments = .ok (some constant) ∧
      castTarget context constant = some (array_size, target_value) ∧
      rewriteScan context plan limit child function_name array_size target_value
        = .ok (true, plan1) := by
  rcases plan with ⟨node, children⟩
  rcases node with ⟨orders, limit, offset⟩ | _ | _ | _
  · rcases orders with _ | ⟨order, _ | _⟩
    · simp [TryOptimize] at h
    · rcases order with ⟨type, expression⟩
      by_cases hty : type = OrderType.ASCENDING
      · subst hty
        cases expression with
        | BoundColumnRef binding =>
          rcases children with _ | ⟨child, rest⟩
          · simp [TryOptimize] at h
          · rcases child with ⟨cnode, cchildren⟩
            cases cnode with
            | LogicalProjection table_index expressions =>
              cases he : expressions[binding.column_index]? with
              | none => simp [TryOptimize, LogicalOperator.node, he] at h
              | some expr =>
                cases expr with
                | BoundFunction function_name arguments =>
                  cases hd : context.IsDistanceFunction function_name with
                  | false => simp [TryOptimize, LogicalOperator.node, he, hd] at h
                  | true =>
                    have hdc : DistanceCall context
                        (.mk (.LogicalTopN [⟨.ASCENDING, .BoundColumnRef binding⟩] limit offset)
                          (.mk (.LogicalProjection table_index expressions) cchildren :: rest))
                        limit (.mk (.LogicalProjection table_index expressions) cchildren)
                        function_name arguments :=
                      ⟨_, _, _, _, _, _, rfl, rfl, rfl, rfl, he, hd⟩
                    rw [TryOptimize_of_distanceCall hdc] at h
                    cases ht : targetValue arguments with
                    | error e => simp [ht] at h
                    | ok target =>
                      cases target with
                      | none => simp [ht] at h
                      | some constant =>
                        simp only [ht] at h
                        cases hc : castTarget context constant with
                        | none => simp [hc] at h
                        | some pair =>
                          obtain ⟨array_size, target_value⟩ := pair
                          simp only [hc] at h
                          exact ⟨_, _, _, _, _, _, _, hdc, ht, hc, h⟩
                | _ => simp [TryOptimize, LogicalOperator.node, he] at h
            | _ => simp [TryOptimize, LogicalOperator.node] at h
        | _ => simp [TryOptimize] at h
      · simp [TryOptimize, hty] at h
    · simp [TryOptimize] at h
  · simp [TryOptimize] at h
  · simp [TryOptimize] at h
  · simp [TryOptimize] at h

theorem indexCallback_incompatible (context : ClientContext) (table : TableCatalogEntry)
    (function_name : String) (array_size : Nat) (target_value : Value) (limit : Nat)
    (index : HNSWIndex) (h : compatible function_name array_size index = false) :
    indexCallback context table function_name array_size target_value limit index
      = .ok none := by
  unfold indexCallback
  unfold compatible at h
  by_cases hs : index.GetVectorSize = array_size
  · simp [hs] at h
    simp [hs, h]
  · simp [hs]

theorem indexCallback_compatible (context : ClientContext) (table : TableCatalogEntry)
    (function_name : String) (array_size : Nat) (target_value : Value) (limit : Nat)
    (index : HNSWIndex) (h : compatible function_name array_size index = true) :
    indexCallback context table function_name array_size target_value limit index =
      match ArrayValue.GetChildren target_value with
      | .error e => .error e
      | .ok vector_elements =>
        match queryVector context vector_elements 0 array_size with
        | .error e => .error e
        | .ok query_vector => .ok (some ⟨table, index, limit, query_vector⟩) := by
  unfold compatible at h
  simp only [Bool.and_eq_true, beq_iff_eq] at h
  unfold indexCallback
  simp [h.1, h.2]

theorem BindAndScan_find_none (context : ClientContext) (table : TableCatalogEntry)
    (function_name : String) (array_size : Nat) (target_value : Value) (limit : Nat)
    (indexes : List HNSWIndex)
    (h : indexes.find? (compatible function_name array_size) = none) :
    BindAndScan (indexCallback context table function_name array_size target_value limit)
      indexes = .ok none := by
  induction indexes with
  | nil => rfl
  | cons index rest ih =>
    cases hc : compatible function_name array_size index with
    | true => simp [List.find?, hc] at h
    | false =>
      simp only [List.find?, hc] at h
      simp only [BindAndScan, indexCallback_incompatible _ _ _ _ _ _ _ hc]
      exact ih h

theorem BindAndScan_find_some (context : ClientContext) (table : TableCatalogEntry)
    (function_name : String) (array_size : Nat) (target_value : Value) (limit : Nat)
    (indexes : List HNSWIndex) (index : HNSWIndex)
    (h : indexes.find? (compatible function_name array_size) = some index) :
    BindAndScan (indexCallback context table function_name array_size target_value limit)
      indexes =
    match indexCallback context table function_name array_size target_value limit index with
    | .error e => .error e
    | .ok found => .ok found := by
  induction indexes with
  | nil => simp at h
  | cons first rest ih =>
    cases hc : compatible function_name array_size first with
    | true =>
      simp only [List.find?, hc, Option.some.injEq] at h
      subst h
      simp only [BindAndScan]
      rw [indexCallback_compatible _ _ _ _ _ _ _ hc]
      cases ArrayValue.GetChildren target_value with
      | error e => rfl
      | ok elems =>
        simp only
        cases queryVector context elems 0 array_size with
        | error e => rfl
        | ok qv => rfl
    | false =>
      simp only [List.find?, hc] at h
      simp only [BindAndScan, indexCallback_incompatible _ _ _ _ _ _ _ hc]
      exact ih h

/-! ## Lemmas on the chain walk -/

theorem findGet_step (node : OperatorNode) (child : LogicalOperator)
    (h : ∀ g, node ≠ .LogicalGet g) : findGet (.mk node [child]) = findGet child := by
  cases node with
  | LogicalGet g => exact absurd rfl (h g)
  | _ => simp [findGet]

theorem findGet_branch (node : OperatorNode) (children : List LogicalOperator)
    (h : ∀ g, node ≠ .LogicalGet g) (hlen : children.length ≠ 1) :
    findGet (.mk node children) = none := by
  cases node with
  | LogicalGet g => exact absurd rfl (h g)
  | _ =>
    rcases children with _ | ⟨c, _ | ⟨d, rest⟩⟩
    · simp [findGet]
    · simp at hlen
    · simp [findGet]

theorem replaceGet_step (new_get : LogicalGet) (node : OperatorNode) (child : LogicalOperator)
    (h : ∀ g, node ≠ .LogicalGet g) :
    replaceGet new_get (.mk node [child]) = .mk node [replaceGet new_get child] := by
  cases node with
  | LogicalGet g => exact absurd rfl (h g)
  | _ => simp [replaceGet]

theorem findGet_of_reachesScan {plan : LogicalOperator} {get : LogicalGet}
    (h : ReachesScan plan get) : findGet plan = some get := by
  induction h with
  | scan get children => simp [findGet]
  | step node child get hn _ ih => rw [findGet_step node child hn]; exact ih

theorem findGet_of_branchesBeforeScan {plan : LogicalOperator}
    (h : BranchesBeforeScan plan) : findGet plan = none := by
  induction h with
  | branch node children hn hlen => exact findGet_branch node children hn hlen
  | step node child hn _ ih => rw [findGet_step node child hn]; exact ih

theorem reachesScan_of_findGet :
    ∀ (n : Nat) (plan : LogicalOperator) (get : LogicalGet), plan.height ≤ n →
      findGet plan = some get → ReachesScan plan get := by
  intro n
  induction n with
  | zero =>
    intro plan get hh
    rcases plan with ⟨node, children⟩
    simp [LogicalOperator.height] at hh
  | succ n ih =>
    intro plan get hh hf
    rcases plan with ⟨node, children⟩
    by_cases hn : ∃ g, node = .LogicalGet g
    · obtain ⟨g, rfl⟩ := hn
      simp only [findGet, Option.some.injEq] at hf
      subst hf
      exact .scan _ _
    · have hn1 : ∀ g, node ≠ .LogicalGet g := fun g hg => hn ⟨g, hg⟩
      rcases children with _ | ⟨c, _ | ⟨d, rest⟩⟩
      · rw [findGet_branch node [] hn1 (by simp)] at hf; cases hf
      · rw [findGet_step node c hn1] at hf
        refine .step node c get hn1 (ih c get ?_ hf)
        simp only [LogicalOperator.height, heightList] at hh
        omega
      · rw [findGet_branch node (c :: d :: rest) hn1 (by simp)] at hf; cases hf

theorem findGet_replaceGet (new_get : LogicalGet) {plan : LogicalOperator} {get : LogicalGet}
    (h : ReachesScan plan get) : ReachesScan (replaceGet new_get plan) new_get := by
  induction h with
  | scan get children => simp only [replaceGet]; exact .scan _ _
  | step node child get hn _ ih =>
    rw [replaceGet_step new_get node child hn]
    exact .step node _ new_get hn ih

theorem replaceGet_restore (new_get : LogicalGet) {plan : LogicalOperator} {get : LogicalGet}
    (h : ReachesScan plan get) : replaceGet get (replaceGet new_get plan) = plan := by
  induction h with
  | scan get children => simp [replaceGet]
  | step node child get hn _ ih =>
    rw [replaceGet_step new_get node child hn, replaceGet_step get node _ hn, ih]

theorem replaceGet_node (new_get : LogicalGet) (plan : LogicalOperator)
    (h : ∀ g, plan.node ≠ .LogicalGet g) : (replaceGet new_get plan).node = plan.node := by
  rcases plan with ⟨node, children⟩
  cases node with
  | LogicalGet g => exact absurd rfl (h g)
  | _ =>
    rcases children with _ | ⟨c, _ | ⟨d, rest⟩⟩ <;> simp [replaceGet, LogicalOperator.node]

theorem replaceGet_height (new_get : LogicalGet) :
    ∀ (n : Nat) (plan : LogicalOperator), plan.height ≤ n →
      (replaceGet new_get plan).height = plan.height := by
  intro n
  induction n with
  | zero =>
    intro plan hh
    rcases plan with ⟨node, children⟩
    simp [LogicalOperator.height] at hh
  | succ n ih =>
    intro plan hh
    rcases plan with ⟨node, children⟩
    by_cases hn : ∃ g, node = .LogicalGet g
    · obtain ⟨g, rfl⟩ := hn
      simp [replaceGet, LogicalOperator.height]
    · have hn1 : ∀ g, node ≠ .LogicalGet g := fun g hg => hn ⟨g, hg⟩
      rcases children with _ | ⟨c, _ | ⟨d, rest⟩⟩
      · cases node <;> simp [replaceGet, LogicalOperator.height]
      · rw [replaceGet_step new_get node c hn1]
        simp only [LogicalOperator.height, heightList] at hh ⊢
        rw [ih c (by omega)]
      · cases node <;> simp [replaceGet, LogicalOperator.height]

/-! ## Lemmas on the query vector -/

theorem queryVector_elements (context : ClientContext) (vector_elements : List Value) :
    ∀ (count i : Nat) (query : List float32),
      queryVector context vector_elements i count = .ok query →
      query.length = count ∧
      ∀ k, k < count → ∃ element x, vector_elements[i + k]? = some element ∧
        context.GetValueFloat element = some x ∧ query[k]? = some x := by
  intro count
  induction count with
  | zero =>
    intro i query h
    simp only [queryVector, Except.ok.injEq] at h
    subst h
    exact ⟨rfl, fun k hk => absurd hk (Nat.not_lt_zero k)⟩
  | succ count ih =>
    intro i query h
    simp only [queryVector] at h
    cases he : vector_elements[i]? with
    | none => simp [he] at h
    | some element =>
      simp only [he] at h
      cases hx : context.GetValueFloat element with
      | none => simp [hx] at h
      | some x =>
        simp only [hx] at h
        cases hr : queryVector context vector_elements (i + 1) count with
        | error e => simp [hr] at h
        | ok rest =>
          simp only [hr, Except.ok.injEq] at h
          subst h
          obtain ⟨hlen, hrest⟩ := ih (i + 1) rest hr
          refine ⟨by simp [hlen], ?_⟩
          intro k hk
          cases k with
          | zero => exact ⟨element, x, by simpa using he, hx, by simp⟩
          | succ k =>
            obtain ⟨el, y, h1, h2, h3⟩ := hrest k (by omega)
            refine ⟨el, y, ?_, h2, by simpa using h3⟩
            rw [← h1]
            congr 1
            omega

theorem queryVector_total (context : ClientContext) (vector_elements : List Value) :
    ∀ (count i : Nat),
      (∀ k, k < count → ∃ element x, vector_elements[i + k]? = some element ∧
        context.GetValueFloat element = some x) →
      ∃ query, queryVector context vector_elements i count = .ok query := by
  intro count
  induction count with
  | zero => intro i _; exact ⟨[], rfl⟩
  | succ count ih =>
    intro i h
    obtain ⟨element, x, he, hx⟩ := h 0 (by omega)
    obtain ⟨rest, hr⟩ := ih (i + 1) (fun k hk => by
      obtain ⟨el, y, h1, h2⟩ := h (k + 1) (by omega)
      refine ⟨el, y, ?_, h2⟩
      rw [← h1]
      congr 1
      omega)
    refine ⟨x :: rest, ?_⟩
    simp only [Nat.add_zero] at he
    simp [queryVector, he, hx, hr]

theorem BindAndScan_some {context : ClientContext} {table : TableCatalogEntry}
    {function_name : String} {array_size : Nat} {target_value : Value} {limit : Nat}
    {indexes : List HNSWIndex} {bind_data : HNSWIndexScanBindData}
    (h : BindAndScan (indexCallback context table function_name array_size target_value limit)
      indexes = .ok (some bind_data)) :
    ∃ index vector_elements query,
      indexes.find? (compatible function_name array_size) = some index ∧
      ArrayValue.GetChildren target_value = .ok vector_elements ∧
      queryVector context vector_elements 0 array_size = .ok query ∧
      bind_data = ⟨table, index, limit, query⟩ := by
  cases hf : indexes.find? (compatible function_name array_size) with
  | none =>
    rw [BindAndScan_find_none _ _ _ _ _ _ _ hf] at h
    cases h
  | some index =>
    rw [BindAndScan_find_some _ _ _ _ _ _ _ _ hf,
      indexCallback_compatible _ _ _ _ _ _ _ (List.find?_some hf)] at h
    cases hc : ArrayValue.GetChildren target_value with
    | error e => simp [hc] at h
    | ok vector_elements =>
      simp only [hc] at h
      cases hq : queryVector context vector_elements 0 array_size with
      | error e => simp [hq] at h
      | ok query =>
        simp only [hq, Except.ok.injEq, Option.some.injEq] at h
        exact ⟨index, vector_elements, query, rfl, rfl, hq, h.symm⟩

theorem rewriteScan_of_scan {context : ClientContext} {plan : LogicalOperator} {limit : Nat}
    {child : LogicalOperator} {function_name : String} {array_size : Nat}
    {target_value : Value} {get : LogicalGet} {table : TableCatalogEntry}
    (hg : findGet child = some get) (hn : get.function.name = "seq_scan")
    (ht : get.GetTable = some table) (hd : table.IsDuckTable = true) :
    rewriteScan context plan limit child function_name array_size target_value =
      match BindAndScan
          (indexCallback context table function_name array_size target_value limit)
          table.indexes with
      | .error e => .error e
      | .ok none => .ok (false, plan)
      | .ok (some bind_data) =>
        .ok (true, replaceGet (indexScanGet context bind_data) child) := by
  simp only [rewriteScan, hg, hn, ht, hd, ne_eq, not_true_eq_false, if_false, Bool.not_true,
    Bool.false_eq_true]

theorem TryOptimize_of_queryVectorFound {context : ClientContext} {plan : LogicalOperator}
    {limit : Nat} {child : LogicalOperator} {function_name : String} {array_size : Nat}
    {target_value : Value}
    (h : QueryVectorFound context plan limit child function_name array_size target_value) :
    TryOptimize context plan =
      rewriteScan context plan limit child function_name array_size target_value := by
  obtain ⟨arguments, constant, hdc, ht, hc⟩ := h
  rw [TryOptimize_of_distanceCall hdc]
  simp only [ht, hc]

theorem TryOptimize_of_shapeMatch {context : ClientContext} {plan : LogicalOperator}
    {limit : Nat} {child : LogicalOperator} {function_name : String} {array_size : Nat}
    {target_value : Value} {table : TableCatalogEntry}
    (h : ShapeMatch context plan limit child function_name array_size target_value table) :
    TryOptimize context plan =
      match BindAndScan
          (indexCallback context table function_name array_size target_value limit)
          table.indexes with
      | .error e => .error e
      | .ok none => .ok (false, plan)
      | .ok (some bind_data) =>
        .ok (true, replaceGet (indexScanGet context bind_data) child) := by
  obtain ⟨hq, get, hg, hn, ht, hd⟩ := h
  rw [TryOptimize_of_queryVectorFound hq, rewriteScan_of_scan hg hn ht hd]

/-! ## Lemmas on the walker -/

theorem forEachChild_unchanged (recurse : LogicalOperator → Except Fault (Bool × LogicalOperator)) :
    ∀ children : List LogicalOperator, (∀ c ∈ children, recurse c = .ok (false, c)) →
      forEachChild recurse children = .ok (false, children) := by
  intro children
  induction children with
  | nil => intro _; rfl
  | cons c rest ih =>
    intro h
    simp only [forEachChild, h c (List.mem_cons_self c rest),
      ih (fun d hd => h d (List.mem_cons_of_mem c hd)), Bool.or_self]

theorem height_le_heightList {c : LogicalOperator} :
    ∀ {children : List LogicalOperator}, c ∈ children → c.height ≤ heightList children := by
  intro children
  induction children with
  | nil => intro h; cases h
  | cons d rest ih =>
    intro h
    simp only [heightList]
    rcases List.mem_cons.mp h with rfl | h
    · exact Nat.le_max_left _ _
    · exact Nat.le_trans (ih h) (Nat.le_max_right _ _)

theorem mem_subtrees_self (plan : LogicalOperator) : plan ∈ plan.subtrees := by
  rcases plan with ⟨node, children⟩
  simp [LogicalOperator.subtrees]

theorem mem_subtreesList {c n : LogicalOperator} :
    ∀ {children : List LogicalOperator}, c ∈ children → n ∈ c.subtrees →
      n ∈ subtreesList children := by
  intro children
  induction children with
  | nil => intro h; cases h
  | cons d rest ih =>
    intro h hn
    simp only [subtreesList, List.mem_append]
    rcases List.mem_cons.mp h with rfl | h
    · exact Or.inl hn
    · exact Or.inr (ih h hn)

theorem mem_subtrees_child {node : OperatorNode} {children : List LogicalOperator}
    {c n : LogicalOperator} (h : c ∈ children) (hn : n ∈ c.subtrees) :
    n ∈ (LogicalOperator.mk node children).subtrees := by
  simp only [LogicalOperator.subtrees, List.mem_cons]
  exact Or.inr (mem_subtreesList h hn)

theorem OptimizeChildrenFuel_no_match (context : ClientContext) :
    ∀ (fuel : Nat) (plan : LogicalOperator), plan.height ≤ fuel →
      (∀ node ∈ plan.subtrees, ∃ node1, TryOptimize context node = .ok (false, node1)) →
      OptimizeChildrenFuel context fuel plan = .ok (false, plan) := by
  intro fuel
  induction fuel with
  | zero =>
    intro plan hh
    rcases plan with ⟨node, children⟩
    simp [LogicalOperator.height] at hh
  | succ fuel ih =>
    intro plan hh h
    obtain ⟨node1, h1⟩ := h plan (mem_subtrees_self plan)
    have hsame : node1 = plan := TryOptimize_false h1
    subst hsame
    rcases node1 with ⟨node, children⟩
    have hchildren : forEachChild (OptimizeChildrenFuel context fuel) children
        = .ok (false, children) := by
      apply forEachChild_unchanged
      intro c hc
      apply ih c
      · have := height_le_heightList hc
        simp only [LogicalOperator.height] at hh
        omega
      · intro n hn
        exact h n (mem_subtrees_child hc hn)
    simp only [OptimizeChildrenFuel, h1, LogicalOperator.children, hchildren,
      LogicalOperator.node, Bool.or_self]

theorem castTarget_some {context : ClientContext} {constant : Value} {array_size : Nat}
    {target_value : Value} (h : castTarget context constant = some (array_size, target_value)) :
    ∃ inner, constant.type = .ARRAY inner array_size ∧
      (inner = LogicalType.FLOAT → target_value = constant) ∧
      (inner ≠ LogicalType.FLOAT →
        context.DefaultTryCastAs constant (.ARRAY .FLOAT array_size) true
          = some target_value) := by
  unfold castTarget at h
  split at h
  · rename_i inner size htype
    by_cases hf : inner = LogicalType.FLOAT
    · simp only [hf, ne_eq, not_true_eq_false, if_false, Option.some.injEq,
        Prod.mk.injEq] at h
      obtain ⟨rfl, rfl⟩ := h
      exact ⟨inner, htype, fun _ => rfl, fun hne => absurd hf hne⟩
    · simp only [ne_eq, hf, not_false_eq_true, if_true] at h
      split at h
      · cases h
      · rename_i cast_value hcast
        simp only [Option.some.injEq, Prod.mk.injEq] at h
        obtain ⟨rfl, rfl⟩ := h
        exact ⟨inner, htype, fun hfl => absurd hfl hf, fun _ => hcast⟩
  · cases h

/-! ## The recursion depth of the walker is enough -/

theorem TryOptimize_height {context : ClientContext} {plan plan1 : LogicalOperator}
    {ok : Bool} (h : TryOptimize context plan = .ok (ok, plan1)) :
    plan1.height ≤ plan.height := by
  cases ok with
  | false => rw [TryOptimize_false h]
  | true =>
    obtain ⟨limit, child, function_name, arguments, constant, array_size, target_value,
      hdc, _, _, hrw⟩ := TryOptimize_true h
    obtain ⟨get, table, bind_data, _, _, _, _, _, hplan⟩ := rewriteScan_true hrw
    obtain ⟨order, offset, rest, _, _, _, hp, _⟩ := hdc
    rw [hplan, replaceGet_height _ child.height child (Nat.le_refl _), hp]
    simp only [LogicalOperator.height, heightList]
    omega

theorem forEachChild_congr (f g : LogicalOperator → Except Fault (Bool × LogicalOperator)) :
    ∀ children : List LogicalOperator, (∀ c ∈ children, f c = g c) →
      forEachChild f children = forEachChild g children := by
  intro children
  induction children with
  | nil => intro _; rfl
  | cons c rest ih =>
    intro h
    simp only [forEachChild, h c (List.mem_cons_self c rest),
      ih (fun d hd => h d (List.mem_cons_of_mem c hd))]

theorem OptimizeChildrenFuel_stable (context : ClientContext) :
    ∀ (fuel fuel1 : Nat) (plan : LogicalOperator), plan.height ≤ fuel → plan.height ≤ fuel1 →
      OptimizeChildrenFuel context fuel plan = OptimizeChildrenFuel context fuel1 plan := by
  intro fuel
  induction fuel with
  | zero =>
    intro fuel1 plan hh
    rcases plan with ⟨node, children⟩
    simp [LogicalOperator.height] at hh
  | succ fuel ih =>
    intro fuel1 plan hh hh1
    cases fuel1 with
    | zero =>
      rcases plan with ⟨node, children⟩
      simp [LogicalOperator.height] at hh1
    | succ fuel1 =>
      simp only [OptimizeChildrenFuel]
      cases ht : TryOptimize context plan with
      | error e => rfl
      | ok result =>
        obtain ⟨ok, plan1⟩ := result
        have hheight := TryOptimize_height ht
        rcases plan1 with ⟨node1, children1⟩
        simp only [LogicalOperator.children, LogicalOperator.node]
        have hc : forEachChild (OptimizeChildrenFuel context fuel) children1
            = forEachChild (OptimizeChildrenFuel context fuel1) children1 := by
          apply forEachChild_congr
          intro c hmem
          have := height_le_heightList hmem
          simp only [LogicalOperator.height] at hheight
          exact ih fuel1 c (by omega) (by omega)
        rw [hc]

/-- The walker as the source writes it: the attempt on the node, then the recursion into
every child of the node that is now in the slot. -/
theorem OptimizeChildren_unfold (context : ClientContext) (plan : LogicalOperator) :
    OptimizeChildren context plan =
      match TryOptimize context plan with
      | .error e => .error e
      | .ok (ok, plan1) =>
        match forEachChild (OptimizeChildren context) plan1.children with
        | .error e => .error e
        | .ok (ok_children, children1) => .ok (ok || ok_children, .mk plan1.node children1) := by
  unfold OptimizeChildren
  rcases hp : plan with ⟨node, children⟩
  simp only [LogicalOperator.height, OptimizeChildrenFuel]
  rw [← hp]
  cases ht : TryOptimize context plan with
  | error e => rfl
  | ok result =>
    obtain ⟨ok, plan1⟩ := result
    have hheight := TryOptimize_height ht
    rw [hp] at hheight
    rcases plan1 with ⟨node1, children1⟩
    simp only [LogicalOperator.children, LogicalOperator.node]
    have hc : forEachChild (OptimizeChildrenFuel context (heightList children)) children1
        = forEachChild (fun c => OptimizeChildrenFuel context c.height c) children1 := by
      apply forEachChild_congr
      intro c hmem
      have := height_le_heightList hmem
      simp only [LogicalOperator.height] at hheight
      exact OptimizeChildrenFuel_stable context _ _ c (by omega) (Nat.le_refl _)
    rw [hc]

theorem queryVector_fault {context : ClientContext} {vector_elements : List Value} :
    ∀ (count i : Nat) (e : Fault),
      queryVector context vector_elements i count = .error e → e ≠ Fault.OutOfFuel := by
  intro count
  induction count with
  | zero => intro i e h; simp [queryVector] at h
  | succ count ih =>
    intro i e h
    simp only [queryVector] at h
    split at h
    · cases h; decide
    · split at h
      · cases h; decide
      · split at h
        · rename_i e1 hr
          cases h
          exact ih _ _ hr
        · cases h

theorem indexCallback_fault {context : ClientContext} {table : TableCatalogEntry}
    {function_name : String} {array_size : Nat} {target_value : Value} {limit : Nat}
    {index : HNSWIndex} {e : Fault}
    (h : indexCallback context table function_name array_size target_value limit index
      = .error e) : e ≠ Fault.OutOfFuel := by
  unfold indexCallback at h
  split at h
  · cases h
  · split at h
    · cases h
    · split at h
      · rename_i e1 hc
        cases h
        cases target_value <;> simp [ArrayValue.GetChildren] at hc <;> subst hc <;> decide
      · split at h
        · rename_i e1 hq
          cases h
          exact queryVector_fault _ _ _ hq
        · cases h

theorem BindAndScan_fault {context : ClientContext} {table : TableCatalogEntry}
    {function_name : String} {array_size : Nat} {target_value : Value} {limit : Nat} :
    ∀ (indexes : List HNSWIndex) (e : Fault),
      BindAndScan (indexCallback context table function_name array_size target_value limit)
        indexes = .error e → e ≠ Fault.OutOfFuel := by
  intro indexes
  induction indexes with
  | nil => intro e h; simp [BindAndScan] at h
  | cons index rest ih =>
    intro e h
    simp only [BindAndScan] at h
    split at h
    · rename_i e1 hc
      cases h
      exact indexCallback_fault hc
    · cases h
    · exact ih e h

theorem rewriteScan_fault {context : ClientContext} {plan : LogicalOperator} {limit : Nat}
    {child : LogicalOperator} {function_name : String} {array_size : Nat}
    {target_value : Value} {e : Fault}
    (h : rewriteScan context plan limit child function_name array_size target_value
      = .error e) : e ≠ Fault.OutOfFuel := by
  unfold rewriteScan at h
  split at h
  · cases h
  · split at h
    · cases h
    · split at h
      · cases h; decide
      · split at h
        · cases h
        · split at h
          · rename_i e1 hb
            cases h
            exact BindAndScan_fault _ _ hb
          · cases h
          · cases h

theorem targetValue_fault {arguments : List Expression} {e : Fault}
    (h : targetValue arguments = .error e) : e ≠ Fault.OutOfFuel := by
  unfold targetValue at h
  repeat' split at h
  all_goals first
    | (cases h; decide)
    | (cases h)

theorem TryOptimize_fault {context : ClientContext} {plan : LogicalOperator} {e : Fault}
    (h : TryOptimize context plan = .error e) : e ≠ Fault.OutOfFuel := by
  unfold TryOptimize at h
  repeat' split at h
  all_goals first
    | (cases h; decide)
    | (cases h; rename_i ht; exact targetValue_fault ht)
    | (cases h)
    | exact rewriteScan_fault h

theorem forEachChild_fault (recurse : LogicalOperator → Except Fault (Bool × LogicalOperator)) :
    ∀ (children : List LogicalOperator) (e : Fault),
      forEachChild recurse children = .error e → ∃ c ∈ children, recurse c = .error e := by
  intro children
  induction children with
  | nil => intro e h; simp [forEachChild] at h
  | cons c rest ih =>
    intro e h
    simp only [forEachChild] at h
    split at h
    · rename_i e1 hc
      cases h
      exact ⟨c, List.mem_cons_self c rest, hc⟩
    · split at h
      · rename_i e1 hr
        cases h
        obtain ⟨d, hd, hde⟩ := ih _ hr
        exact ⟨d, List.mem_cons_of_mem c hd, hde⟩
      · cases h

/-- The walker never stops for lack of recursion depth: the height of the plan is enough. -/
theorem OptimizeChildren_depth_suffices (context : ClientContext) :
    ∀ (n : Nat) (plan : LogicalOperator), plan.height ≤ n →
      OptimizeChildren context plan ≠ .error .OutOfFuel := by
  intro n
  induction n with
  | zero =>
    intro plan hh
    rcases plan with ⟨node, children⟩
    simp [LogicalOperator.height] at hh
  | succ n ih =>
    intro plan hh hfault
    rw [OptimizeChildren_unfold] at hfault
    split at hfault
    · rename_i e ht
      cases hfault
      exact TryOptimize_fault ht rfl
    · rename_i ok plan1 ht
      have hheight := TryOptimize_height ht
      split at hfault
      · rename_i e hc
        cases hfault
        obtain ⟨c, hmem, hce⟩ := forEachChild_fault _ _ _ hc
        have := height_le_heightList hmem
        rcases plan1 with ⟨node1, children1⟩
        simp only [LogicalOperator.height, LogicalOperator.children] at hheight this
        exact ih c (by omega) hce
      · cases hfault

/-! ## The claims -/

/-- C1. When the attempt of `TryOptimize` ends in no-match on every node of a plan, each of
these attempts leaves its node as it was, `OptimizeChildren` reports false and leaves the
plan equal to its input, and `Optimize` returns the input plan: `MergeProjections` is not
run, whatever the plan holds. -/
theorem Optimize_without_match_unchanged (context : ClientContext) (plan : LogicalOperator)
    (h : ∀ node ∈ plan.subtrees, ∃ node1, TryOptimize context node = .ok (false, node1)) :
    (∀ node ∈ plan.subtrees, TryOptimize context node = .ok (false, node)) ∧
    OptimizeChildren context plan = .ok (false, plan) ∧
    Optimize context plan = .ok plan := by
  have hwalk : OptimizeChildren context plan = .ok (false, plan) :=
    OptimizeChildrenFuel_no_match context plan.height plan (Nat.le_refl _) h
  refine ⟨?_, hwalk, ?_⟩
  · intro node hn
    obtain ⟨node1, h1⟩ := h node hn
    rw [h1, TryOptimize_false h1]
  · simp only [Optimize, hwalk, Bool.false_eq_true, if_false]

/-- Witness for C1: a plan that already holds a projection over a projection over an
"hnsw_index_scan" scan, which `MergeProjections` would change, is returned unchanged. -/
theorem Optimize_without_match_unchanged_witness :
    (∀ node ∈ exTriple.subtrees, ∃ node1, TryOptimize exContext node = .ok (false, node1)) ∧
    MergeProjections exTriple ≠ .ok exTriple ∧
    OptimizeChildren exContext exTriple = .ok (false, exTriple) ∧
    Optimize exContext exTriple = .ok exTriple := by
  have hs : exTriple.subtrees
      = [exTriple, exProjection exVector (exIndexScan exTable exIndex),
          exIndexScan exTable exIndex] := rfl
  have hyp : ∀ node ∈ exTriple.subtrees,
      ∃ node1, TryOptimize exContext node = .ok (false, node1) := by
    intro node hn
    rw [hs] at hn
    simp only [List.mem_cons, List.mem_singleton, List.not_mem_nil, or_false] at hn
    rcases hn with rfl | rfl | rfl <;> exact ⟨_, rfl⟩
  refine ⟨hyp, ?_, (Optimize_without_match_unchanged exContext exTriple hyp).2⟩
  intro hm
  have hp : MergeProjections exTriple
      = .ok (.mk (.LogicalProjection 2 [.BoundColumnRef ⟨1, 1⟩])
          [.mk (.LogicalProjection 1 [placeholder, .BoundColumnRef ⟨0, 1⟩])
            [exIndexScan exTable exIndex]]) := rfl
  rw [hp] at hm
  cases hm

/-- C2. On every node on which `TryOptimize` returns true: the node was a TopN whose first
child is a projection; the slot now holds that child, with the same root node (so the TopN
is gone) and with nothing changed but the scan node at the end of its chain (putting the
old scan back restores the child); that scan now carries the index-scan function, the bind
data (table of the old scan, an index of that table, the limit of the TopN, a query
vector), and the two cardinality fields the estimator returns on that bind data. -/
theorem TryOptimize_match_rewrites (context : ClientContext) (plan plan1 : LogicalOperator)
    (h : TryOptimize context plan = .ok (true, plan1)) :
    ∃ orders limit offset child rest table_index expressions get table index query,
      plan = .mk (.LogicalTopN orders limit offset) (child :: rest) ∧
      child.node = .LogicalProjection table_index expressions ∧
      ReachesScan child get ∧ get.GetTable = some table ∧ index ∈ table.indexes ∧
      plan1 = replaceGet (indexScanGet context ⟨table, index, limit, query⟩) child ∧
      plan1.node = child.node ∧
      replaceGet get plan1 = child ∧
      ∃ new_get, ReachesScan plan1 new_get ∧
        new_get.function = HNSWIndexScanFunction.GetFunction ∧
        new_get.bind_data = .HNSWIndexScan ⟨table, index, limit, query⟩ ∧
        new_get.has_estimated_cardinality
          = (context.cardinality ⟨table, index, limit, query⟩).has_estimated_cardinality ∧
        new_get.estimated_cardinality
          = (context.cardinality ⟨table, index, limit, query⟩).estimated_cardinality := by
  obtain ⟨limit, child, function_name, arguments, constant, array_size, target_value,
    hdc, _, _, hrw⟩ := TryOptimize_true h
  obtain ⟨get, table, bind_data, hg, _, ht, _, hb, hplan⟩ := rewriteScan_true hrw
  obtain ⟨index, vector_elements, query, hfind, _, _, hbd⟩ := BindAndScan_some hb
  obtain ⟨order, offset, rest, table_index, expressions, binding, hp, _, _, hnode, _, _⟩ := hdc
  subst hbd
  have hreach : ReachesScan child get := reachesScan_of_findGet child.height child get
    (Nat.le_refl _) hg
  have hproj : ∀ g, child.node ≠ .LogicalGet g := by
    intro g hg
    rw [hnode] at hg
    cases hg
  refine ⟨[order], limit, offset, child, rest, table_index, expressions, get, table, index,
    query, hp, hnode, hreach, ht, List.mem_of_find?_eq_some hfind, hplan, ?_, ?_, ?_⟩
  · rw [hplan]
    exact replaceGet_node _ child hproj
  · rw [hplan]
    exact replaceGet_restore _ hreach
  · refine ⟨indexScanGet context ⟨table, index, limit, query⟩, ?_, rfl, rfl, rfl, rfl⟩
    rw [hplan]
    exact findGet_replaceGet _ hreach

/-- Witness for C2: the example plan with the ordering key on the distance call. -/
theorem TryOptimize_match_rewrites_witness :
    TryOptimize exContext (exPlan 0) = .ok (true, exRewritten) ∧
    ∃ orders limit offset child rest table_index expressions get table index query,
      exPlan 0 = .mk (.LogicalTopN orders limit offset) (child :: rest) ∧
      child.node = .LogicalProjection table_index expressions ∧
      ReachesScan child get ∧ get.GetTable = some table ∧ index ∈ table.indexes ∧
      exRewritten = replaceGet (indexScanGet exContext ⟨table, index, limit, query⟩) child ∧
      exRewritten.node = child.node ∧
      replaceGet get exRewritten = child ∧
      ∃ new_get, ReachesScan exRewritten new_get ∧
        new_get.function = HNSWIndexScanFunction.GetFunction ∧
        new_get.bind_data = .HNSWIndexScan ⟨table, index, limit, query⟩ ∧
        new_get.has_estimated_cardinality
          = (exContext.cardinality ⟨table, index, limit, query⟩).has_estimated_cardinality ∧
        new_get.estimated_cardinality
          = (exContext.cardinality ⟨table, index, limit, query⟩).estimated_cardinality :=
  ⟨rfl, TryOptimize_match_rewrites exContext (exPlan 0) exRewritten rfl⟩

/-- C3. The example scenario: a TopN with limit 5 whose single ascending key is the column
reference into the projection below it (operator index 1) at the position of the distance
call, over the projection `[dist(vec_col, [1.0, 2.0, 3.0, 4.0]), id]`, over the sequential
scan of the native table T with one index of dimensionality 4 whose metric set contains
"dist". The walker reports a rewrite, and the pass returns the projection `[dist(...), id]`
over the scan of T with the index-scan function and the bind data (T, the index, limit 5,
vector `[1.0, 2.0, 3.0, 4.0]`), the TopN gone. -/
theorem example_scenario_key_at_zero_rewritten :
    OptimizeChildren exContext (exPlan 0) = .ok (true, exRewritten) ∧
    Optimize exContext (exPlan 0) = .ok exRewritten ∧
    exRewritten = .mk (.LogicalProjection 1 [exDistance "dist" exVector, .BoundColumnRef ⟨0, 1⟩])
      [.mk (.LogicalGet ⟨HNSWIndexScanFunction.GetFunction,
        .HNSWIndexScan ⟨exTable, exIndex, 5, [⟨0x3F800000⟩, ⟨0x40000000⟩, ⟨0x40400000⟩,
          ⟨0x40800000⟩]⟩, true, 5⟩) []] :=
  ⟨rfl, rfl, rfl⟩

/-- C4. On every match the query vector of the new bind data has the declared size of the
constant array as its length, and its element at each position below that size is the
float of the element at the same position of the source constant after the cast to a
float array (the constant itself when its elements are floats already). -/
theorem TryOptimize_query_vector (context : ClientContext) (plan plan1 : LogicalOperator)
    (h : TryOptimize context plan = .ok (true, plan1)) :
    ∃ limit child function_name arguments constant inner size source elements bind_data,
      DistanceCall context plan limit child function_name arguments ∧
      targetValue arguments = .ok (some constant) ∧
      constant.type = .ARRAY inner size ∧
      (inner = LogicalType.FLOAT → source = constant) ∧
      (inner ≠ LogicalType.FLOAT →
        context.DefaultTryCastAs constant (.ARRAY .FLOAT size) true = some source) ∧
      ArrayValue.GetChildren source = .ok elements ∧
      ReachesScan plan1 (indexScanGet context bind_data) ∧
      bind_data.query.length = size ∧
      ∀ i, i < size → ∃ element x, elements[i]? = some element ∧
        context.GetValueFloat element = some x ∧ bind_data.query[i]? = some x := by
  obtain ⟨limit, child, function_name, arguments, constant, array_size, target_value,
    hdc, htarget, hcast, hrw⟩ := TryOptimize_true h
  obtain ⟨get, table, bind_data, hg, _, _, _, hb, hplan⟩ := rewriteScan_true hrw
  obtain ⟨index, vector_elements, query, _, hchildren, hquery, hbd⟩ := BindAndScan_some hb
  obtain ⟨inner, htype, hfloat, hother⟩ := castTarget_some hcast
  obtain ⟨hlen, helem⟩ := queryVector_elements context vector_elements array_size 0 query hquery
  have hreach : ReachesScan child get := reachesScan_of_findGet child.height child get
    (Nat.le_refl _) hg
  refine ⟨limit, child, function_name, arguments, constant, inner, array_size, target_value,
    vector_elements, bind_data, hdc, htarget, htype, hfloat, hother, hchildren, ?_, ?_, ?_⟩
  · rw [hplan]
    exact findGet_replaceGet _ hreach
  · rw [hbd]
    exact hlen
  · intro i hi
    obtain ⟨element, x, h1, h2, h3⟩ := helem i hi
    rw [hbd]
    exact ⟨element, x, by simpa using h1, h2, h3⟩

/-- Witness for C4: the example plan, whose constant is `[1.0, 2.0, 3.0, 4.0]`. -/
theorem TryOptimize_query_vector_witness :
    TryOptimize exContext (exPlan 0) = .ok (true, exRewritten) ∧
    ∃ limit child function_name arguments constant inner size source elements bind_data,
      DistanceCall exContext (exPlan 0) limit child function_name arguments ∧
      targetValue arguments = .ok (some constant) ∧
      constant.type = .ARRAY inner size ∧
      (inner = LogicalType.FLOAT → source = constant) ∧
      (inner ≠ LogicalType.FLOAT →
        exContext.DefaultTryCastAs constant (.ARRAY .FLOAT size) true = some source) ∧
      ArrayValue.GetChildren source = .ok elements ∧
      ReachesScan exRewritten (indexScanGet exContext bind_data) ∧
      bind_data.query.length = size ∧
      ∀ i, i < size → ∃ element x, elements[i]? = some element ∧
        exContext.GetValueFloat element = some x ∧ bind_data.query[i]? = some x :=
  ⟨rfl, TryOptimize_query_vector exContext (exPlan 0) exRewritten rfl⟩

theorem find?_first {α : Type} (p : α → Bool) (before : List α) (x : α) (after : List α)
    (hbefore : ∀ y ∈ before, p y = false) (hx : p x = true) :
    (before ++ x :: after).find? p = some x := by
  induction before with
  | nil => simp [List.find?, hx]
  | cons y rest ih =>
    have hy : p y = false := hbefore y (List.mem_cons_self y rest)
    simp only [List.cons_append, List.find?, hy]
    exact ih (fun z hz => hbefore z (List.mem_cons_of_mem y hz))

/-- C5. For a plan on which all predicates up to the index resolver hold: if no index of
the table is compatible the node is a no-match and the plan is returned as it was; if
there is one, the bind data hold the first compatible index of the enumeration order
(`List.find?`), whatever follows it in the list, and the node matches as soon as the
query vector can be read; a match never carries another index. -/
theorem TryOptimize_first_compatible_index (context : ClientContext)
    (plan : LogicalOperator) (limit : Nat) (child : LogicalOperator) (function_name : String)
    (array_size : Nat) (target_value : Value) (table : TableCatalogEntry)
    (h : ShapeMatch context plan limit child function_name array_size target_value table) :
    (table.indexes.find? (compatible function_name array_size) = none →
      TryOptimize context plan = .ok (false, plan)) ∧
    (∀ index vector_elements query,
      table.indexes.find? (compatible function_name array_size) = some index →
      ArrayValue.GetChildren target_value = .ok vector_elements →
      queryVector context vector_elements 0 array_size = .ok query →
      TryOptimize context plan
        = .ok (true, replaceGet (indexScanGet context ⟨table, index, limit, query⟩) child)) ∧
    (∀ plan1, TryOptimize context plan = .ok (true, plan1) →
      ∃ index query,
        table.indexes.find? (compatible function_name array_size) = some index ∧
        plan1 = replaceGet (indexScanGet context ⟨table, index, limit, query⟩) child) ∧
    (∀ before index after, table.indexes = before ++ index :: after →
      (∀ other ∈ before, compatible function_name array_size other = false) →
      compatible function_name array_size index = true →
      table.indexes.find? (compatible function_name array_size) = some index) := by
  have heq := TryOptimize_of_shapeMatch h
  refine ⟨?_, ?_, ?_, ?_⟩
  · intro hnone
    rw [heq, BindAndScan_find_none _ _ _ _ _ _ _ hnone]
  · intro index vector_elements query hfind hchildren hquery
    rw [heq, BindAndScan_find_some _ _ _ _ _ _ _ _ hfind,
      indexCallback_compatible _ _ _ _ _ _ _ (List.find?_some hfind)]
    simp only [hchildren, hquery]
  · intro plan1 h1
    rw [heq] at h1
    cases hb : BindAndScan
        (indexCallback context table function_name array_size target_value limit)
        table.indexes with
    | error e => simp [hb] at h1
    | ok found =>
      cases found with
      | none => simp [hb] at h1
      | some bind_data =>
        simp only [hb, Except.ok.injEq, Prod.mk.injEq, true_and] at h1
        obtain ⟨index, _, query, hfind, _, _, hbd⟩ := BindAndScan_some hb
        exact ⟨index, query, hfind, by rw [← h1, hbd]⟩
  · intro before index after hlist hbefore hindex
    rw [hlist]
    exact find?_first _ before index after hbefore hindex

/-- Witness for C5: of the four indexes of the table, the third is the first compatible
one and is the one bound, although the fourth is compatible too. -/
theorem TryOptimize_first_compatible_index_witness :
    ShapeMatch exContext (exTopN .ASCENDING 0 (exProjection exVector (exSeqScan exTableFour)))
      5 (exProjection exVector (exSeqScan exTableFour)) "dist" 4 exVector exTableFour ∧
    compatible "dist" 4 ⟨"second", 4, ["dist", "array_distance"]⟩ = true ∧
    TryOptimize exContext (exTopN .ASCENDING 0 (exProjection exVector (exSeqScan exTableFour)))
      = .ok (true, replaceGet
          (indexScanGet exContext ⟨exTableFour, ⟨"first", 4, ["dist"]⟩, 5, exQuery⟩)
          (exProjection exVector (exSeqScan exTableFour))) :=
  have hshape : ShapeMatch exContext
      (exTopN .ASCENDING 0 (exProjection exVector (exSeqScan exTableFour)))
      5 (exProjection exVector (exSeqScan exTableFour)) "dist" 4 exVector exTableFour :=
    ⟨⟨_, _, ⟨_, _, _, _, _, _, rfl, rfl, rfl, rfl, rfl, rfl⟩, rfl, rfl⟩, _, rfl, rfl, rfl, rfl⟩
  ⟨hshape, rfl,
    (TryOptimize_first_compatible_index exContext _ 5 _ "dist" 4 exVector exTableFour
      hshape).2.1 ⟨"first", 4, ["dist"]⟩ (exBits.map exFloat) exQuery rfl rfl rfl⟩

/-- C6. For a plan on which all predicates up to the index resolver hold: if every index of
the table has a vector size different from the size of the query array or does not match
the name of the distance function, `TryOptimize` returns false and the plan, with its scan
node, is the one it received. -/
theorem TryOptimize_no_compatible_index (context : ClientContext)
    (plan : LogicalOperator) (limit : Nat) (child : LogicalOperator) (function_name : String)
    (array_size : Nat) (target_value : Value) (table : TableCatalogEntry)
    (h : ShapeMatch context plan limit child function_name array_size target_value table)
    (hnone : ∀ index ∈ table.indexes, index.GetVectorSize ≠ array_size ∨
      index.MatchesDistanceFunction function_name = false) :
    TryOptimize context plan = .ok (false, plan) := by
  have hfind : table.indexes.find? (compatible function_name array_size) = none := by
    rw [List.find?_eq_none]
    intro index hmem
    unfold compatible
    rcases hnone index hmem with hsize | hname
    · simp [hsize]
    · simp [hname]
  rw [TryOptimize_of_shapeMatch h, BindAndScan_find_none _ _ _ _ _ _ _ hfind]

/-- Witness for C6: a table with an index of dimensionality 3 and an index of another
metric. -/
theorem TryOptimize_no_compatible_index_witness :
    ShapeMatch exContext (exTopN .ASCENDING 0 (exProjection exVector (exSeqScan exTableNone)))
      5 (exProjection exVector (exSeqScan exTableNone)) "dist" 4 exVector exTableNone ∧
    (∀ index ∈ exTableNone.indexes, index.GetVectorSize ≠ 4 ∨
      index.MatchesDistanceFunction "dist" = false) ∧
    TryOptimize exContext (exTopN .ASCENDING 0 (exProjection exVector (exSeqScan exTableNone)))
      = .ok (false, exTopN .ASCENDING 0 (exProjection exVector (exSeqScan exTableNone))) :=
  have hshape : ShapeMatch exContext
      (exTopN .ASCENDING 0 (exProjection exVector (exSeqScan exTableNone)))
      5 (exProjection exVector (exSeqScan exTableNone)) "dist" 4 exVector exTableNone :=
    ⟨⟨_, _, ⟨_, _, _, _, _, _, rfl, rfl, rfl, rfl, rfl, rfl⟩, rfl, rfl⟩, _, rfl, rfl, rfl, rfl⟩
  have hnone : ∀ index ∈ exTableNone.indexes, index.GetVectorSize ≠ 4 ∨
      index.MatchesDistanceFunction "dist" = false := by
    intro index hmem
    have hl : exTableNone.indexes
        = [⟨"dim3", 3, ["dist"]⟩, ⟨"cosine", 4, ["array_cosine_similarity"]⟩] := rfl
    rw [hl] at hmem
    simp only [List.mem_cons, List.mem_singleton, List.not_mem_nil, or_false] at hmem
    rcases hmem with rfl | rfl
    · exact Or.inl (by decide)
    · exact Or.inr (by decide)
  ⟨hshape, hnone,
    TryOptimize_no_compatible_index exContext _ 5 _ "dist" 4 exVector exTableNone hshape hnone⟩

/-- C7, as stated. A distance call whose two arguments are both constants is not rejected:
the first argument is taken as the query vector and the node matches. -/
theorem both_constants_still_match :
    DistanceCall exContext (exTopN .ASCENDING 0 exBothConstant) 5 exBothConstant "dist"
      [.BoundConstant exVector, .BoundConstant exIntVector] ∧
    TryOptimize exContext (exTopN .ASCENDING 0 exBothConstant)
      = .ok (true, replaceGet (indexScanGet exContext ⟨exTable, exIndex, 5, exQuery⟩)
          exBothConstant) ∧
    ¬ ∃ plan1, TryOptimize exContext (exTopN .ASCENDING 0 exBothConstant)
      = .ok (false, plan1) := by
  refine ⟨⟨_, _, _, _, _, _, rfl, rfl, rfl, rfl, rfl, rfl⟩, rfl, ?_⟩
  rintro ⟨plan1, h⟩
  have hm : TryOptimize exContext (exTopN .ASCENDING 0 exBothConstant)
      = .ok (true, replaceGet (indexScanGet exContext ⟨exTable, exIndex, 5, exQuery⟩)
          exBothConstant) := rfl
  rw [hm] at h
  cases h

/-- C7, amended. A TopN whose ordering key resolves to a distance call of two arguments
matches only if at least one of the two is a constant: when neither is, `TryOptimize`
returns false; when the first is a constant, its value is the query constant and the
attempt goes on to the remaining checks whatever the second argument is; when only the
second is a constant, its value is the query constant. -/
theorem TryOptimize_constant_argument (context : ClientContext) (plan : LogicalOperator)
    (limit : Nat) (child : LogicalOperator) (function_name : String)
    (first second : Expression)
    (h : DistanceCall context plan limit child function_name [first, second]) :
    ((∀ value, first ≠ .BoundConstant value) → (∀ value, second ≠ .BoundConstant value) →
      TryOptimize context plan = .ok (false, plan)) ∧
    (∀ plan1, TryOptimize context plan = .ok (true, plan1) →
      (∃ value, first = .BoundConstant value) ∨ (∃ value, second = .BoundConstant value)) ∧
    (∀ value, first = .BoundConstant value →
      TryOptimize context plan =
        match castTarget context value with
        | none => .ok (false, plan)
        | some (array_size, target_value) =>
          rewriteScan context plan limit child function_name array_size target_value) ∧
    (∀ value, (∀ other, first ≠ .BoundConstant other) → second = .BoundConstant value →
      TryOptimize context plan =
        match castTarget context value with
        | none => .ok (false, plan)
        | some (array_size, target_value) =>
          rewriteScan context plan limit child function_name array_size target_value) := by
  have heq := TryOptimize_of_distanceCall h
  have hneither : (∀ value, first ≠ .BoundConstant value) →
      (∀ value, second ≠ .BoundConstant value) → targetValue [first, second] = .ok none := by
    intro h1 h2
    cases first with
    | BoundConstant v => exact absurd rfl (h1 v)
    | _ =>
      cases second with
      | BoundConstant v => exact absurd rfl (h2 v)
      | _ => simp [targetValue]
  refine ⟨?_, ?_, ?_, ?_⟩
  · intro h1 h2
    rw [heq, hneither h1 h2]
  · intro plan1 hmatch
    by_contra hcon
    have h1 : ∀ value, first ≠ .BoundConstant value := fun v hv => hcon (Or.inl ⟨v, hv⟩)
    have h2 : ∀ value, second ≠ .BoundConstant value := fun v hv => hcon (Or.inr ⟨v, hv⟩)
    rw [heq, hneither h1 h2] at hmatch
    cases hmatch
  · intro value hfirst
    subst hfirst
    rw [heq]
    simp [targetValue]
  · intro value hfirst hsecond
    subst hsecond
    rw [heq]
    cases first with
    | BoundConstant v => exact absurd rfl (hfirst v)
    | _ => simp [targetValue]

/-- Witness for C7, amended: a distance call on two column references is a no-match. -/
theorem TryOptimize_constant_argument_witness :
    DistanceCall exContext (exTopN .ASCENDING 0 exNoConstant) 5 exNoConstant "dist"
      [.BoundColumnRef ⟨0, 0⟩, .BoundColumnRef ⟨0, 2⟩] ∧
    TryOptimize exContext (exTopN .ASCENDING 0 exNoConstant)
      = .ok (false, exTopN .ASCENDING 0 exNoConstant) :=
  have hcall : DistanceCall exContext (exTopN .ASCENDING 0 exNoConstant) 5 exNoConstant "dist"
      [.BoundColumnRef ⟨0, 0⟩, .BoundColumnRef ⟨0, 2⟩] :=
    ⟨_, _, _, _, _, _, rfl, rfl, rfl, rfl, rfl, rfl⟩
  ⟨hcall,
    (TryOptimize_constant_argument exContext _ 5 _ "dist" _ _ hcall).1
      (fun _ hv => by cases hv) (fun _ hv => by cases hv)⟩

/-- C8. A TopN node whose number of ordering keys is not one, or whose single key is not
ascending, or whose single key is not a column reference, is a no-match and is returned
as it was, whatever its children, the rest of the plan and the indexes are. -/
theorem TryOptimize_ordering_gate (context : ClientContext) (orders : List BoundOrderByNode)
    (limit offset : Nat) (children : List LogicalOperator)
    (h : orders.length ≠ 1 ∨ ∃ order, orders = [order] ∧
      (order.type ≠ OrderType.ASCENDING ∨
        ∀ binding, order.expression ≠ .BoundColumnRef binding)) :
    TryOptimize context (.mk (.LogicalTopN orders limit offset) children)
      = .ok (false, .mk (.LogicalTopN orders limit offset) children) := by
  rcases h with hlen | ⟨order, rfl, hkey⟩
  · rcases orders with _ | ⟨order, _ | ⟨second, rest⟩⟩
    · simp [TryOptimize]
    · simp at hlen
    · simp [TryOptimize]
  · by_cases htype : order.type = OrderType.ASCENDING
    · rcases hkey with hne | href
      · exact absurd htype hne
      · rcases order with ⟨type, expression⟩
        cases expression with
        | BoundColumnRef binding => exact absurd rfl (href binding)
        | _ =>
          simp only at htype
          simp [TryOptimize, htype]
    · simp [TryOptimize, htype]

/-- Witness for C8: the example plan with the key descending is returned as it was. -/
theorem TryOptimize_ordering_gate_witness :
    TryOptimize exContext (exTopN .DESCENDING 0 (exProjection exVector (exSeqScan exTable)))
      = .ok (false, exTopN .DESCENDING 0 (exProjection exVector (exSeqScan exTable))) :=
  TryOptimize_ordering_gate exContext [⟨.DESCENDING, .BoundColumnRef ⟨1, 0⟩⟩] 5 0
    [exProjection exVector (exSeqScan exTable)]
    (Or.inr ⟨_, rfl, Or.inl (by decide)⟩)

theorem castTarget_of_array {context : ClientContext} {constant : Value}
    {inner : LogicalType} {size : Nat} (htype : constant.type = .ARRAY inner size)
    (hinner : inner ≠ LogicalType.FLOAT) :
    castTarget context constant =
      match context.DefaultTryCastAs constant (.ARRAY .FLOAT size) true with
      | none => none
      | some cast_value => some (size, cast_value) := by
  simp only [castTarget, htype, ne_eq, hinner, not_false_eq_true, if_true]

theorem castTarget_of_not_array {context : ClientContext} {constant : Value}
    (htype : ∀ inner size, constant.type ≠ .ARRAY inner size) :
    castTarget context constant = none := by
  unfold castTarget
  split
  · rename_i inner size h
    exact absurd h (htype inner size)
  · rfl

/-- The cast fallback of lines 96-103, for a TopN whose key resolves to a distance call
with the query constant `constant`: when the constant is an array whose element type is not
FLOAT, a failed cast to `ARRAY(FLOAT, size)` gives no-match with the plan as it was, and
after a successful cast the attempt continues with the cast value (it matches when the scan
is a sequential scan of a native table with a compatible index and the cast vector can be
read); on a match the query vector is read from the cast value and the promoted projection
has the node it had, so the constant in the plan is not the cast one. A constant that is
not an array is a no-match. -/
theorem TryOptimize_cast_fallback (context : ClientContext) (plan : LogicalOperator)
    (limit : Nat) (child : LogicalOperator) (function_name : String)
    (arguments : List Expression) (constant : Value)
    (hcall : DistanceCall context plan limit child function_name arguments)
    (htarget : targetValue arguments = .ok (some constant)) :
    (∀ inner size, constant.type = .ARRAY inner size → inner ≠ LogicalType.FLOAT →
      (context.DefaultTryCastAs constant (.ARRAY .FLOAT size) true = none →
        TryOptimize context plan = .ok (false, plan)) ∧
      (∀ cast_value,
        context.DefaultTryCastAs constant (.ARRAY .FLOAT size) true = some cast_value →
        TryOptimize context plan
          = rewriteScan context plan limit child function_name size cast_value ∧
        (∀ get table index vector_elements query,
          findGet child = some get → get.function.name = "seq_scan" →
          get.GetTable = some table → table.IsDuckTable = true →
          table.indexes.find? (compatible function_name size) = some index →
          ArrayValue.GetChildren cast_value = .ok vector_elements →
          queryVector context vector_elements 0 size = .ok query →
          TryOptimize context plan
            = .ok (true,
                replaceGet (indexScanGet context ⟨table, index, limit, query⟩) child)) ∧
        (∀ plan1, TryOptimize context plan = .ok (true, plan1) →
          plan1.node = child.node ∧
          ∃ bind_data vector_elements,
            ReachesScan plan1 (indexScanGet context bind_data) ∧
            ArrayValue.GetChildren cast_value = .ok vector_elements ∧
            queryVector context vector_elements 0 size = .ok bind_data.query))) ∧
    ((∀ inner size, constant.type ≠ .ARRAY inner size) →
      TryOptimize context plan = .ok (false, plan)) := by
  have heq := TryOptimize_of_distanceCall hcall
  simp only [htarget] at heq
  refine ⟨?_, ?_⟩
  · intro inner size htype hinner
    have hcast := @castTarget_of_array context constant inner size htype hinner
    refine ⟨?_, ?_⟩
    · intro hfail
      rw [heq, hcast, hfail]
    · intro cast_value hok
      have hgo : TryOptimize context plan
          = rewriteScan context plan limit child function_name size cast_value := by
        rw [heq, hcast, hok]
      refine ⟨hgo, ?_, ?_⟩
      · intro get table index vector_elements query hg hn ht hd hfind hchildren hquery
        rw [hgo, rewriteScan_of_scan hg hn ht hd,
          BindAndScan_find_some _ _ _ _ _ _ _ _ hfind,
          indexCallback_compatible _ _ _ _ _ _ _ (List.find?_some hfind)]
        simp only [hchildren, hquery]
      · intro plan1 hmatch
        rw [hgo] at hmatch
        obtain ⟨get, table, bind_data, hg, _, _, _, hb, hplan⟩ := rewriteScan_true hmatch
        obtain ⟨index, vector_elements, query, _, hchildren, hquery, hbd⟩ :=
          BindAndScan_some hb
        obtain ⟨_, _, _, table_index, expressions, _, _, _, _, hnode, _, _⟩ := hcall
        have hproj : ∀ g, child.node ≠ .LogicalGet g := by
          intro g hgn
          rw [hnode] at hgn
          cases hgn
        refine ⟨?_, bind_data, vector_elements, ?_, hchildren, ?_⟩
        · rw [hplan]
          exact replaceGet_node _ child hproj
        · rw [hplan]
          exact findGet_replaceGet _
            (reachesScan_of_findGet child.height child get (Nat.le_refl _) hg)
        · rw [hbd]
          exact hquery
  · intro hnot
    rw [heq, castTarget_of_not_array hnot]

/-- An instance of the cast fallback: the integer array `[1, 2, 3, 4]` is cast and the node
matches with the vector `[1.0, 2.0, 3.0, 4.0]`, the projection keeping its integer
constant. -/
theorem TryOptimize_cast_fallback_witness :
    DistanceCall exContext (exTopN .ASCENDING 0 (exProjection exIntVector (exSeqScan exTable)))
      5 (exProjection exIntVector (exSeqScan exTable)) "dist"
      [.BoundColumnRef ⟨0, 0⟩, .BoundConstant exIntVector] ∧
    targetValue [.BoundColumnRef ⟨0, 0⟩, .BoundConstant exIntVector]
      = .ok (some exIntVector) ∧
    exContext.DefaultTryCastAs exIntVector (.ARRAY .FLOAT 4) true = some exVector ∧
    TryOptimize exContext (exTopN .ASCENDING 0 (exProjection exIntVector (exSeqScan exTable)))
      = .ok (true, replaceGet (indexScanGet exContext ⟨exTable, exIndex, 5, exQuery⟩)
          (exProjection exIntVector (exSeqScan exTable))) :=
  have hcall : DistanceCall exContext
      (exTopN .ASCENDING 0 (exProjection exIntVector (exSeqScan exTable)))
      5 (exProjection exIntVector (exSeqScan exTable)) "dist"
      [.BoundColumnRef ⟨0, 0⟩, .BoundConstant exIntVector] :=
    ⟨_, _, _, _, _, _, rfl, rfl, rfl, rfl, rfl, rfl⟩
  ⟨hcall, rfl, rfl,
    (((TryOptimize_cast_fallback exContext _ 5 _ "dist" _ exIntVector hcall rfl).1
      .INTEGER 4 rfl (by decide)).2 exVector rfl).2.1
      _ exTable exIndex (exBits.map exFloat) exQuery rfl rfl rfl rfl rfl rfl rfl⟩

/-- C9. The cast fallback on a NULL. In the example scenario with the query constant
`NULL::INTEGER[4]`, the cast to `FLOAT[4]` succeeds (it gives the NULL of that type), every
predicate up to the index holds and the table has a compatible index, so that the node
should match; `TryOptimize` raises instead, in `ArrayValue::GetChildren` on the NULL cast
value. With the constant `[1, NULL, 3, 4]::INTEGER[4]` the cast succeeds to
`[1.0, NULL, 3.0, 4.0]` and `TryOptimize` raises in `GetValue<float>` on the NULL element.
Neither attempt ends in a match or in a no-match. -/
theorem TryOptimize_cast_fallback_raises_on_null :
    exContext.DefaultTryCastAs exNullIntVector (.ARRAY .FLOAT 4) true
      = some (.null (.ARRAY .FLOAT 4)) ∧
    ShapeMatch exContext (exPlanOn exNullIntVector) 5
      (exProjection exNullIntVector (exSeqScan exTable)) "dist" 4 (.null (.ARRAY .FLOAT 4))
      exTable ∧
    exTable.indexes.find? (compatible "dist" 4) = some exIndex ∧
    TryOptimize exContext (exPlanOn exNullIntVector) = .error .NullValue ∧
    exContext.DefaultTryCastAs exNullElementVector (.ARRAY .FLOAT 4) true
      = some (.nested (.ARRAY .FLOAT 4)
          [exFloat 0x3F800000, .null .FLOAT, exFloat 0x40400000, exFloat 0x40800000]) ∧
    ShapeMatch exContext (exPlanOn exNullElementVector) 5
      (exProjection exNullElementVector (exSeqScan exTable)) "dist" 4
      (.nested (.ARRAY .FLOAT 4)
        [exFloat 0x3F800000, .null .FLOAT, exFloat 0x40400000, exFloat 0x40800000])
      exTable ∧
    TryOptimize exContext (exPlanOn exNullElementVector) = .error .InvalidCast ∧
    (∀ flag plan1, TryOptimize exContext (exPlanOn exNullIntVector) ≠ .ok (flag, plan1)) ∧
    (∀ flag plan1, TryOptimize exContext (exPlanOn exNullElementVector) ≠ .ok (flag, plan1)) := by
  refine ⟨rfl, ?_, rfl, rfl, rfl, ?_, rfl, ?_, ?_⟩
  · exact ⟨⟨_, exNullIntVector, ⟨_, _, _, _, _, _, rfl, rfl, rfl, rfl, rfl, rfl⟩, rfl, rfl⟩,
      _, rfl, rfl, rfl, rfl⟩
  · exact ⟨⟨_, exNullElementVector, ⟨_, _, _, _, _, _, rfl, rfl, rfl, rfl, rfl, rfl⟩, rfl,
      rfl⟩, _, rfl, rfl, rfl, rfl⟩
  · intro flag plan1 h
    have hr : TryOptimize exContext (exPlanOn exNullIntVector) = .error .NullValue := rfl
    rw [hr] at h
    cases h
  · intro flag plan1 h
    have hr : TryOptimize exContext (exPlanOn exNullElementVector) = .error .InvalidCast :=
      rfl
    rw [hr] at h
    cases h

/-- C10. For a TopN whose distance call and query vector were found: when a node with zero
or several children is met before a scan on the single-child chain below the projection,
when the scan reached does not use "seq_scan", and when its table is not a native table,
`TryOptimize` returns false with the plan it received; and on a match the scan that is
overwritten is the first scan reached on that chain, the rest of the child being kept. -/
theorem TryOptimize_scan_gate (context : ClientContext) (plan : LogicalOperator)
    (limit : Nat) (child : LogicalOperator) (function_name : String) (array_size : Nat)
    (target_value : Value)
    (h : QueryVectorFound context plan limit child function_name array_size target_value) :
    (BranchesBeforeScan child → TryOptimize context plan = .ok (false, plan)) ∧
    (∀ get, ReachesScan child get → get.function.name ≠ "seq_scan" →
      TryOptimize context plan = .ok (false, plan)) ∧
    (∀ get table, ReachesScan child get → get.function.name = "seq_scan" →
      get.GetTable = some table → table.IsDuckTable = false →
      TryOptimize context plan = .ok (false, plan)) ∧
    (∀ plan1, TryOptimize context plan = .ok (true, plan1) →
      ∃ get bind_data, ReachesScan child get ∧ get.function.name = "seq_scan" ∧
        plan1 = replaceGet (indexScanGet context bind_data) child ∧
        replaceGet get plan1 = child ∧
        ReachesScan plan1 (indexScanGet context bind_data)) := by
  have heq := TryOptimize_of_queryVectorFound h
  refine ⟨?_, ?_, ?_, ?_⟩
  · intro hbranch
    rw [heq]
    simp only [rewriteScan, findGet_of_branchesBeforeScan hbranch]
  · intro get hreach hname
    rw [heq]
    simp only [rewriteScan, findGet_of_reachesScan hreach, ne_eq, hname, not_false_eq_true,
      if_true]
  · intro get table hreach hname htable hduck
    rw [heq]
    simp only [rewriteScan, findGet_of_reachesScan hreach, hname, htable, hduck, ne_eq,
      not_true_eq_false, if_false, Bool.not_false, if_true]
  · intro plan1 hmatch
    rw [heq] at hmatch
    obtain ⟨get, table, bind_data, hg, hname, _, _, _, hplan⟩ := rewriteScan_true hmatch
    have hreach : ReachesScan child get :=
      reachesScan_of_findGet child.height child get (Nat.le_refl _) hg
    refine ⟨get, bind_data, hreach, hname, hplan, ?_, ?_⟩
    · rw [hplan]
      exact replaceGet_restore _ hreach
    · rw [hplan]
      exact findGet_replaceGet _ hreach

/-- Witness for C10: a join below the projection, a scan that is an index scan already, and
a scan of a table that is not native are all no-matches. -/
theorem TryOptimize_scan_gate_witness :
    (QueryVectorFound exContext (exTopN .ASCENDING 0 (exProjection exVector exJoin)) 5
        (exProjection exVector exJoin) "dist" 4 exVector ∧
      BranchesBeforeScan (exProjection exVector exJoin) ∧
      TryOptimize exContext (exTopN .ASCENDING 0 (exProjection exVector exJoin))
        = .ok (false, exTopN .ASCENDING 0 (exProjection exVector exJoin))) ∧
    (TryOptimize exContext (exTopN .ASCENDING 0 exRewritten)
        = .ok (false, exTopN .ASCENDING 0 exRewritten)) ∧
    (TryOptimize exContext
        (exTopN .ASCENDING 0 (exProjection exVector (exSeqScan exForeignTable)))
        = .ok (false,
            exTopN .ASCENDING 0 (exProjection exVector (exSeqScan exForeignTable)))) :=
  have hjoin : QueryVectorFound exContext (exTopN .ASCENDING 0 (exProjection exVector exJoin))
      5 (exProjection exVector exJoin) "dist" 4 exVector :=
    ⟨_, _, ⟨_, _, _, _, _, _, rfl, rfl, rfl, rfl, rfl, rfl⟩, rfl, rfl⟩
  have hbranch : BranchesBeforeScan (exProjection exVector exJoin) :=
    .step _ _ (fun _ hg => by cases hg)
      (.branch _ _ (fun _ hg => by cases hg) (by decide))
  have hindex : QueryVectorFound exContext (exTopN .ASCENDING 0 exRewritten)
      5 exRewritten "dist" 4 exVector :=
    ⟨_, _, ⟨_, _, _, _, _, _, rfl, rfl, rfl, rfl, rfl, rfl⟩, rfl, rfl⟩
  have hforeign : QueryVectorFound exContext
      (exTopN .ASCENDING 0 (exProjection exVector (exSeqScan exForeignTable)))
      5 (exProjection exVector (exSeqScan exForeignTable)) "dist" 4 exVector :=
    ⟨_, _, ⟨_, _, _, _, _, _, rfl, rfl, rfl, rfl, rfl, rfl⟩, rfl, rfl⟩
  have hreach1 : ReachesScan exRewritten
      ⟨⟨"hnsw_index_scan"⟩, .HNSWIndexScan ⟨exTable, exIndex, 5, exQuery⟩, true, 5⟩ :=
    .step _ _ _ (fun _ hg => by cases hg) (.scan _ _)
  have hreach2 : ReachesScan (exProjection exVector (exSeqScan exForeignTable))
      ⟨⟨"seq_scan"⟩, .TableScanBindData exForeignTable, false, 0⟩ :=
    .step _ _ _ (fun _ hg => by cases hg) (.scan _ _)
  ⟨⟨hjoin, hbranch, (TryOptimize_scan_gate exContext _ 5 _ "dist" 4 exVector hjoin).1 hbranch⟩,
    (TryOptimize_scan_gate exContext _ 5 _ "dist" 4 exVector hindex).2.1 _ hreach1
      (by decide),
    (TryOptimize_scan_gate exContext _ 5 _ "dist" 4 exVector hforeign).2.2.1 _ exForeignTable
      hreach2 rfl rfl rfl⟩

/-! ## Lemmas on the pruner -/

theorem mem_referencedList_of_mem {expr : Expression} {binding : ColumnBinding} :
    ∀ {expressions : List Expression}, expr ∈ expressions → binding ∈ expr.referenced →
      binding ∈ referencedList expressions := by
  intro expressions
  induction expressions with
  | nil => intro h; cases h
  | cons first rest ih =>
    intro h hb
    simp only [referencedList, List.mem_append]
    rcases List.mem_cons.mp h with rfl | h
    · exact Or.inl hb
    · exact Or.inr (ih h hb)

theorem mem_referenced_of_mentions {expr : Expression} {binding : ColumnBinding}
    (h : expr.Mentions binding) : binding ∈ expr.referenced := by
  induction h with
  | ref binding => simp [Expression.referenced]
  | call function_name children child binding hmem _ ih =>
    simp only [Expression.referenced]
    exact mem_referencedList_of_mem hmem ih
  | other kind children child binding hmem _ ih =>
    simp only [Expression.referenced]
    exact mem_referencedList_of_mem hmem ih

mutual
theorem mentions_of_mem_referenced :
    ∀ (expr : Expression) (binding : ColumnBinding), binding ∈ expr.referenced →
      expr.Mentions binding
  | .BoundColumnRef b, binding, h => by
    simp only [Expression.referenced, List.mem_singleton] at h
    subst h
    exact .ref _
  | .BoundConstant _, binding, h => by
    simp [Expression.referenced] at h
  | .BoundFunction function_name children, binding, h => by
    simp only [Expression.referenced] at h
    obtain ⟨child, hmem, hm⟩ := mentions_of_mem_referencedList children binding h
    exact .call _ _ child _ hmem hm
  | .Other kind children, binding, h => by
    simp only [Expression.referenced] at h
    obtain ⟨child, hmem, hm⟩ := mentions_of_mem_referencedList children binding h
    exact .other _ _ child _ hmem hm
theorem mentions_of_mem_referencedList :
    ∀ (expressions : List Expression) (binding : ColumnBinding),
      binding ∈ referencedList expressions →
      ∃ expr, expr ∈ expressions ∧ expr.Mentions binding
  | [], binding, h => by simp [referencedList] at h
  | first :: rest, binding, h => by
    simp only [referencedList, List.mem_append] at h
    rcases h with h | h
    · exact ⟨first, List.mem_cons_self _ _, mentions_of_mem_referenced first binding h⟩
    · obtain ⟨expr, hmem, hm⟩ := mentions_of_mem_referencedList rest binding h
      exact ⟨expr, List.mem_cons_of_mem _ hmem, hm⟩
end

theorem referencedList_contains_iff (expressions : List Expression) (binding : ColumnBinding) :
    (referencedList expressions).contains binding = true ↔
      ∃ expr, expr ∈ expressions ∧ expr.Mentions binding := by
  rw [List.contains_iff_exists_mem_beq]
  simp only [beq_iff_eq, exists_eq_right']
  constructor
  · exact mentions_of_mem_referencedList expressions binding
  · rintro ⟨expr, hmem, hm⟩
    exact mem_referencedList_of_mem hmem (mem_referenced_of_mentions hm)

theorem pruneExpressions_length (parent_expressions : List Expression) (child_index : Nat)
    (child_expressions : List Expression) :
    (pruneExpressions parent_expressions child_index child_expressions).length
      = child_expressions.length := by
  simp [pruneExpressions, GetColumnBindings]

theorem pruneExpressions_getElem? (parent_expressions : List Expression) (child_index : Nat)
    (child_expressions : List Expression) (i : Nat) (expr : Expression)
    (h : child_expressions[i]? = some expr) :
    (pruneExpressions parent_expressions child_index child_expressions)[i]? =
      some (if (referencedList parent_expressions).contains ⟨child_index, i⟩ then expr
        else placeholder) := by
  have hi : i < child_expressions.length := by
    rcases Nat.lt_or_ge i child_expressions.length with hlt | hge
    · exact hlt
    · rw [List.getElem?_eq_none hge] at h; cases h
  simp only [pruneExpressions, GetColumnBindings, List.getElem?_zipWith, h,
    List.getElem?_map, List.getElem?_range hi, Option.map_some', Option.bind_some]

theorem pruneTriple_some {node : OperatorNode} {children : List LogicalOperator}
    {pruned : LogicalOperator} (h : pruneTriple node children = .ok (some pruned)) :
    ∃ outer_index outer_expressions inner_index inner_expressions grandchildren siblings,
      node = .LogicalProjection outer_index outer_expressions ∧
      children = .mk (.LogicalProjection inner_index inner_expressions) grandchildren
        :: siblings ∧
      IsTriple (.mk node children) ∧
      pruned = .mk node
        (.mk (.LogicalProjection inner_index
            (pruneExpressions outer_expressions inner_index inner_expressions))
          grandchildren :: siblings) := by
  unfold pruneTriple at h
  split at h
  · rename_i outer_index outer_expressions
    split at h
    · cases h
    · rename_i child siblings
      split at h
      · rename_i inner_index inner_expressions grandchildren
        split at h
        · cases h
        · rename_i grandchild inner_rest
          rcases grandchild with ⟨gnode, scan_children⟩
          cases gnode with
          | LogicalGet get =>
            simp only [LogicalOperator.node] at h
            split at h
            · rename_i hname
              simp only [Except.ok.injEq, Option.some.injEq] at h
              exact ⟨outer_index, outer_expressions, inner_index, inner_expressions, _, siblings,
                rfl, rfl, ⟨_, _, _, _, get, scan_children, inner_rest, siblings, rfl, hname⟩,
                h.symm⟩
            · cases h
          | _ => simp [LogicalOperator.node] at h
      · cases h
  · cases h

theorem pruneTriple_of_isTriple {node : OperatorNode} {children : List LogicalOperator}
    (h : IsTriple (.mk node children)) :
    ∃ pruned, pruneTriple node children = .ok (some pruned) := by
  obtain ⟨oi, oe, ii, ie, get, scan_children, inner_rest, siblings, hplan, hname⟩ := h
  simp only [LogicalOperator.mk.injEq] at hplan
  obtain ⟨rfl, rfl⟩ := hplan
  refine ⟨.mk (.LogicalProjection oi oe)
    (.mk (.LogicalProjection ii (pruneExpressions oe ii ie))
      (.mk (.LogicalGet get) scan_children :: inner_rest) :: siblings), ?_⟩
  simp [pruneTriple, LogicalOperator.node, hname]

theorem pruneTriple_none {node : OperatorNode} {children : List LogicalOperator}
    (h : pruneTriple node children = .ok none) : ¬ IsTriple (.mk node children) := by
  intro ht
  obtain ⟨pruned, hp⟩ := pruneTriple_of_isTriple ht
  rw [hp] at h
  cases h

mutual
theorem MergeProjections_frame :
    ∀ (plan plan1 : LogicalOperator), MergeProjections plan = .ok plan1 →
      PrunedFrom plan plan1 ∧ plan1.skeleton = plan.skeleton
  | .mk node children, plan1, h => by
    simp only [MergeProjections] at h
    cases hp : pruneTriple node children with
    | error e => simp [hp] at h
    | ok found =>
      cases found with
      | some pruned =>
        simp only [hp, Except.ok.injEq] at h
        subst h
        obtain ⟨oi, oe, ii, ie, gcs, sib, rfl, rfl, htriple, rfl⟩ := pruneTriple_some hp
        refine ⟨.triple _ ii ie _ gcs sib htriple (pruneExpressions_length oe ii ie), ?_⟩
        simp [LogicalOperator.skeleton, skeletonList, OperatorNode.withoutExpressions]
      | none =>
        simp only [hp] at h
        cases hc : MergeProjectionsChildren children with
        | error e => simp [hc] at h
        | ok children1 =>
          simp only [hc, Except.ok.injEq] at h
          subst h
          obtain ⟨hlen, hpoint, hskel⟩ := MergeProjectionsChildren_frame children children1 hc
          refine ⟨.other node children children1 (pruneTriple_none hp) hlen hpoint, ?_⟩
          simp only [LogicalOperator.skeleton, hskel]
theorem MergeProjectionsChildren_frame :
    ∀ (children children1 : List LogicalOperator),
      MergeProjectionsChildren children = .ok children1 →
      children1.length = children.length ∧
      (∀ (i : Nat) (child child1 : LogicalOperator),
        children[i]? = some child → children1[i]? = some child1 →
        PrunedFrom child child1) ∧
      skeletonList children1 = skeletonList children
  | [], children1, h => by
    simp only [MergeProjectionsChildren, Except.ok.injEq] at h
    subst h
    exact ⟨rfl, fun i child child1 hc => by simp at hc, rfl⟩
  | first :: rest, children1, h => by
    simp only [MergeProjectionsChildren] at h
    cases hf : MergeProjections first with
    | error e => simp [hf] at h
    | ok first1 =>
      simp only [hf] at h
      cases hr : MergeProjectionsChildren rest with
      | error e => simp [hr] at h
      | ok rest1 =>
        simp only [hr, Except.ok.injEq] at h
        subst h
        obtain ⟨hpf, hsf⟩ := MergeProjections_frame first first1 hf
        obtain ⟨hlen, hpoint, hskel⟩ := MergeProjectionsChildren_frame rest rest1 hr
        refine ⟨by simp [hlen], ?_, by simp only [skeletonList, hsf, hskel]⟩
        intro i child child1 hc hc1
        cases i with
        | zero =>
          simp only [List.getElem?_cons_zero, Option.some.injEq] at hc hc1
          subst hc hc1
          exact hpf
        | succ i =>
          simp only [List.getElem?_cons_succ] at hc hc1
          exact hpoint i child child1 hc hc1
end

theorem pruneTriple_error {node : OperatorNode} {children : List LogicalOperator} {e : Fault}
    (h : pruneTriple node children = .error e) :
    ∃ table_index expressions, node = .LogicalProjection table_index expressions ∧
      (children = [] ∨
        ∃ inner_index inner_expressions siblings,
          children = .mk (.LogicalProjection inner_index inner_expressions) [] :: siblings) := by
  unfold pruneTriple at h
  split at h
  · rename_i outer_index outer_expressions
    split at h
    · exact ⟨_, _, rfl, Or.inl rfl⟩
    · rename_i child siblings
      split at h
      · rename_i inner_index inner_expressions grandchildren
        split at h
        · exact ⟨_, _, rfl, Or.inr ⟨_, _, _, rfl⟩⟩
        · split at h
          · split at h <;> cases h
          · cases h
      · cases h
  · cases h

mutual
theorem MergeProjections_total :
    ∀ plan : LogicalOperator,
      (∀ node ∈ plan.subtrees, ∀ table_index expressions,
        node.node = .LogicalProjection table_index expressions → node.children ≠ []) →
      ∃ plan1, MergeProjections plan = .ok plan1
  | .mk node children, hwf => by
    simp only [MergeProjections]
    cases hp : pruneTriple node children with
    | error e =>
      exfalso
      obtain ⟨table_index, expressions, rfl, hcs⟩ := pruneTriple_error hp
      rcases hcs with rfl | ⟨ii, ie, siblings, rfl⟩
      · exact hwf _ (mem_subtrees_self _) table_index expressions rfl rfl
      · exact hwf (.mk (.LogicalProjection ii ie) [])
          (mem_subtrees_child (List.mem_cons_self _ _) (mem_subtrees_self _)) ii ie rfl rfl
    | ok found =>
      cases found with
      | some pruned => exact ⟨pruned, rfl⟩
      | none =>
        obtain ⟨children1, hc⟩ := MergeProjectionsChildren_total children
          (fun child hmem node hnode => hwf node (mem_subtrees_child hmem hnode))
        exact ⟨.mk node children1, by simp only [hc]⟩
theorem MergeProjectionsChildren_total :
    ∀ children : List LogicalOperator,
      (∀ child ∈ children, ∀ node ∈ child.subtrees, ∀ table_index expressions,
        node.node = .LogicalProjection table_index expressions → node.children ≠ []) →
      ∃ children1, MergeProjectionsChildren children = .ok children1
  | [], _ => ⟨[], rfl⟩
  | first :: rest, hwf => by
    obtain ⟨first1, hf⟩ := MergeProjections_total first (hwf first (List.mem_cons_self _ _))
    obtain ⟨rest1, hr⟩ := MergeProjectionsChildren_total rest
      (fun child hmem => hwf child (List.mem_cons_of_mem _ hmem))
    exact ⟨first1 :: rest1, by simp only [MergeProjectionsChildren, hf, hr]⟩
end

mutual
theorem skeleton_subtrees_length :
    ∀ plan : LogicalOperator, plan.skeleton.subtrees.length = plan.subtrees.length
  | .mk node children => by
    simp only [LogicalOperator.skeleton, LogicalOperator.subtrees, List.length_cons,
      skeletonList_subtrees_length children]
theorem skeletonList_subtrees_length :
    ∀ children : List LogicalOperator,
      (subtreesList (skeletonList children)).length = (subtreesList children).length
  | [] => rfl
  | first :: rest => by
    simp only [skeletonList, subtreesList, List.length_append,
      skeleton_subtrees_length first, skeletonList_subtrees_length rest]
end

/-! ## The claims on the pruner and on the frame of the rewrite -/

/-- C11. At a triple (outer projection, inner projection, scan named "hnsw_index_scan")
`MergeProjections` returns the triple with only the expression list of the inner
projection replaced: the new list has as many slots as before, a slot whose output binding
`(inner_index, i)` is referenced somewhere inside an expression tree of the outer
projection keeps its expression, and every other slot holds the placeholder. -/
theorem MergeProjections_positional (outer_index : Nat) (outer_expressions : List Expression)
    (inner_index : Nat) (inner_expressions : List Expression) (get : LogicalGet)
    (scan_children inner_rest siblings : List LogicalOperator)
    (hname : get.function.name = "hnsw_index_scan") :
    ∃ pruned_expressions,
      MergeProjections (.mk (.LogicalProjection outer_index outer_expressions)
          (.mk (.LogicalProjection inner_index inner_expressions)
            (.mk (.LogicalGet get) scan_children :: inner_rest) :: siblings))
        = .ok (.mk (.LogicalProjection outer_index outer_expressions)
          (.mk (.LogicalProjection inner_index pruned_expressions)
            (.mk (.LogicalGet get) scan_children :: inner_rest) :: siblings)) ∧
      pruned_expressions.length = inner_expressions.length ∧
      ∀ (i : Nat) (expr : Expression), inner_expressions[i]? = some expr →
        ((∃ outer, outer ∈ outer_expressions ∧ outer.Mentions ⟨inner_index, i⟩) →
          pruned_expressions[i]? = some expr) ∧
        ((¬ ∃ outer, outer ∈ outer_expressions ∧ outer.Mentions ⟨inner_index, i⟩) →
          pruned_expressions[i]? = some placeholder) := by
  refine ⟨pruneExpressions outer_expressions inner_index inner_expressions, ?_,
    pruneExpressions_length _ _ _, ?_⟩
  · simp [MergeProjections, pruneTriple, LogicalOperator.node, hname]
  · intro i expr hexpr
    have hslot := pruneExpressions_getElem? outer_expressions inner_index inner_expressions
      i expr hexpr
    refine ⟨?_, ?_⟩
    · intro href
      rw [hslot, if_pos ((referencedList_contains_iff _ _).mpr href)]
    · intro href
      rw [hslot, if_neg (fun hc => href ((referencedList_contains_iff _ _).mp hc))]

/-- Witness for C11: an outer projection selecting only `id` over the inner
`[dist(...), id]` gives the inner `[placeholder, id]`, still with two slots. -/
theorem MergeProjections_positional_witness :
    MergeProjections exTriple = .ok exTriplePruned ∧
    ∃ pruned_expressions,
      MergeProjections (.mk (.LogicalProjection 2 [.BoundColumnRef ⟨1, 1⟩])
          (.mk (.LogicalProjection 1 [exDistance "dist" exVector, .BoundColumnRef ⟨0, 1⟩])
            (.mk (.LogicalGet ⟨⟨"hnsw_index_scan"⟩,
              .HNSWIndexScan ⟨exTable, exIndex, 5, exQuery⟩, true, 5⟩) [] :: []) :: []))
        = .ok (.mk (.LogicalProjection 2 [.BoundColumnRef ⟨1, 1⟩])
          (.mk (.LogicalProjection 1 pruned_expressions)
            (.mk (.LogicalGet ⟨⟨"hnsw_index_scan"⟩,
              .HNSWIndexScan ⟨exTable, exIndex, 5, exQuery⟩, true, 5⟩) [] :: []) :: [])) ∧
      pruned_expressions.length
        = [exDistance "dist" exVector, Expression.BoundColumnRef ⟨0, 1⟩].length ∧
      ∀ (i : Nat) (expr : Expression),
        [exDistance "dist" exVector, Expression.BoundColumnRef ⟨0, 1⟩][i]? = some expr →
        ((∃ outer, outer ∈ [Expression.BoundColumnRef ⟨1, 1⟩] ∧ outer.Mentions ⟨1, i⟩) →
          pruned_expressions[i]? = some expr) ∧
        ((¬ ∃ outer, outer ∈ [Expression.BoundColumnRef ⟨1, 1⟩] ∧ outer.Mentions ⟨1, i⟩) →
          pruned_expressions[i]? = some placeholder) :=
  ⟨rfl, MergeProjections_positional 2 [.BoundColumnRef ⟨1, 1⟩] 1
    [exDistance "dist" exVector, .BoundColumnRef ⟨0, 1⟩]
    ⟨⟨"hnsw_index_scan"⟩, .HNSWIndexScan ⟨exTable, exIndex, 5, exQuery⟩, true, 5⟩ [] [] [] rfl⟩

/-- C12. On every node on which `TryOptimize` returns true, the promoted node is a
projection with the table index and the expression list of the child projection of the
TopN before the call, the distance call still at the position the ordering key of the
removed TopN referenced. -/
theorem TryOptimize_keeps_projection (context : ClientContext) (plan plan1 : LogicalOperator)
    (h : TryOptimize context plan = .ok (true, plan1)) :
    ∃ order limit offset child rest table_index expressions binding function_name arguments,
      plan = .mk (.LogicalTopN [order] limit offset) (child :: rest) ∧
      order.expression = .BoundColumnRef binding ∧
      child.node = .LogicalProjection table_index expressions ∧
      plan1.node = .LogicalProjection table_index expressions ∧
      expressions[binding.column_index]? = some (.BoundFunction function_name arguments) ∧
      context.IsDistanceFunction function_name = true := by
  obtain ⟨limit, child, function_name, arguments, constant, array_size, target_value,
    hdc, _, _, hrw⟩ := TryOptimize_true h
  obtain ⟨get, table, bind_data, _, _, _, _, _, hplan⟩ := rewriteScan_true hrw
  obtain ⟨order, offset, rest, table_index, expressions, binding, hp, _, href, hnode, hexpr,
    hdist⟩ := hdc
  have hproj : ∀ g, child.node ≠ .LogicalGet g := by
    intro g hg
    rw [hnode] at hg
    cases hg
  refine ⟨order, limit, offset, child, rest, table_index, expressions, binding, function_name,
    arguments, hp, href, hnode, ?_, hexpr, hdist⟩
  rw [hplan, replaceGet_node _ child hproj, hnode]

/-- Witness for C12: the example plan keeps `[dist(...), id]` in the promoted projection. -/
theorem TryOptimize_keeps_projection_witness :
    TryOptimize exContext (exPlan 0) = .ok (true, exRewritten) ∧
    ∃ order limit offset child rest table_index expressions binding function_name arguments,
      exPlan 0 = .mk (.LogicalTopN [order] limit offset) (child :: rest) ∧
      order.expression = .BoundColumnRef binding ∧
      child.node = .LogicalProjection table_index expressions ∧
      exRewritten.node = .LogicalProjection table_index expressions ∧
      expressions[binding.column_index]? = some (.BoundFunction function_name arguments) ∧
      exContext.IsDistanceFunction function_name = true :=
  ⟨rfl, TryOptimize_keeps_projection exContext (exPlan 0) exRewritten rfl⟩

/-- C14. `MergeProjections` returns on every plan whose projections all have a child, and
whenever it returns, the plan it leaves is the input except for the expression lists of
inner projections of triples: at a triple the outer node, the subtrees of the inner
projection and the other children are the same (the pruner did not go below the triple),
anywhere else the node is the same and the children are related in the same way; the plan
without its projection expressions (shape, node kinds, TopN and scan nodes) is the same,
and so is the number of nodes. -/
theorem MergeProjections_scope (plan : LogicalOperator) :
    ((∀ node ∈ plan.subtrees, ∀ table_index expressions,
        node.node = .LogicalProjection table_index expressions → node.children ≠ []) →
      ∃ plan1, MergeProjections plan = .ok plan1) ∧
    ∀ plan1, MergeProjections plan = .ok plan1 →
      PrunedFrom plan plan1 ∧
      plan1.skeleton = plan.skeleton ∧
      plan1.subtrees.length = plan.subtrees.length ∧
      (IsTriple plan →
        ∃ outer inner_index inner_expressions pruned_expressions grandchildren siblings,
          plan = .mk outer
            (.mk (.LogicalProjection inner_index inner_expressions) grandchildren
              :: siblings) ∧
          plan1 = .mk outer
            (.mk (.LogicalProjection inner_index pruned_expressions) grandchildren
              :: siblings) ∧
          pruned_expressions.length = inner_expressions.length) := by
  refine ⟨MergeProjections_total plan, ?_⟩
  intro plan1 h
  obtain ⟨hframe, hskel⟩ := MergeProjections_frame plan plan1 h
  refine ⟨hframe, hskel, ?_, ?_⟩
  · rw [← skeleton_subtrees_length plan1, hskel, skeleton_subtrees_length plan]
  · intro htriple
    cases hframe with
    | triple outer inner_index inner_expressions pruned_expressions grandchildren siblings _
        hlen =>
      exact ⟨outer, inner_index, inner_expressions, pruned_expressions, grandchildren,
        siblings, rfl, rfl, hlen⟩
    | other node children children1 hnot _ _ => exact absurd htriple hnot

/-- Witness for C14: a triple is pruned in its inner projection only, its second child (a
triple itself) being left as it was; a projection directly above an index scan under a
filter and a projection pair over a sequential scan are returned as they were. -/
theorem MergeProjections_scope_witness :
    MergeProjections exTripleWithSibling
      = .ok (.mk (.LogicalProjection 2 [.BoundColumnRef ⟨1, 1⟩])
          [.mk (.LogicalProjection 1 [placeholder, .BoundColumnRef ⟨0, 1⟩])
            [exIndexScan exTable exIndex], exTriple]) ∧
    (PrunedFrom exTripleWithSibling
        (.mk (.LogicalProjection 2 [.BoundColumnRef ⟨1, 1⟩])
          [.mk (.LogicalProjection 1 [placeholder, .BoundColumnRef ⟨0, 1⟩])
            [exIndexScan exTable exIndex], exTriple]) ∧
      (LogicalOperator.mk (.LogicalProjection 2 [.BoundColumnRef ⟨1, 1⟩])
          [.mk (.LogicalProjection 1 [placeholder, .BoundColumnRef ⟨0, 1⟩])
            [exIndexScan exTable exIndex], exTriple]).skeleton
        = exTripleWithSibling.skeleton) ∧
    MergeProjections exFilterOverProjection = .ok exFilterOverProjection ∧
    MergeProjections exPairOverSeqScan = .ok exPairOverSeqScan :=
  ⟨rfl,
    ⟨((MergeProjections_scope exTripleWithSibling).2 _ rfl).1,
      ((MergeProjections_scope exTripleWithSibling).2 _ rfl).2.1⟩,
    rfl, rfl⟩

/-! ## The claim on the operand that is not the constant -/

theorem targetValue_distanceArguments (constant_first : Bool) (value : Value)
    (other : Expression) (h : ∀ w, other ≠ .BoundConstant w) :
    targetValue (distanceArguments constant_first value other) = .ok (some value) := by
  cases constant_first with
  | true => simp [distanceArguments, targetValue]
  | false =>
    cases other with
    | BoundConstant w => exact absurd rfl (h w)
    | _ => simp [distanceArguments, targetValue]

theorem findGet_projection (table_index : Nat) (expressions : List Expression)
    (children : List LogicalOperator) :
    findGet (.mk (.LogicalProjection table_index expressions) children)
      = findGet (.mk (.LogicalProjection table_index []) children) := by
  rcases children with _ | ⟨c, _ | ⟨d, rest⟩⟩ <;> simp [findGet]

theorem rewriteScan_same_outcome (context : ClientContext) (plan_a plan_b : LogicalOperator)
    (limit : Nat) (child_a child_b : LogicalOperator) (function_name : String)
    (array_size : Nat) (target_value : Value) (h : findGet child_a = findGet child_b) :
    (∃ e, rewriteScan context plan_a limit child_a function_name array_size target_value
        = .error e ∧
      rewriteScan context plan_b limit child_b function_name array_size target_value
        = .error e) ∨
    (rewriteScan context plan_a limit child_a function_name array_size target_value
        = .ok (false, plan_a) ∧
      rewriteScan context plan_b limit child_b function_name array_size target_value
        = .ok (false, plan_b)) ∨
    (∃ bind_data,
      rewriteScan context plan_a limit child_a function_name array_size target_value
        = .ok (true, replaceGet (indexScanGet context bind_data) child_a) ∧
      rewriteScan context plan_b limit child_b function_name array_size target_value
        = .ok (true, replaceGet (indexScanGet context bind_data) child_b)) := by
  unfold rewriteScan
  rw [h]
  cases findGet child_b with
  | none => exact Or.inr (Or.inl ⟨rfl, rfl⟩)
  | some get =>
    simp only
    by_cases hn : get.function.name = "seq_scan"
    · simp only [hn, ne_eq, not_true_eq_false, if_false]
      cases get.GetTable with
      | none => exact Or.inl ⟨_, rfl, rfl⟩
      | some table =>
        simp only
        cases table.IsDuckTable with
        | false => exact Or.inr (Or.inl ⟨rfl, rfl⟩)
        | true =>
          simp only [Bool.not_true, Bool.false_eq_true, if_false]
          cases BindAndScan
              (indexCallback context table function_name array_size target_value limit)
              table.indexes with
          | error e => exact Or.inl ⟨e, rfl, rfl⟩
          | ok found =>
            cases found with
            | none => exact Or.inr (Or.inl ⟨rfl, rfl⟩)
            | some bind_data => exact Or.inr (Or.inr ⟨bind_data, rfl, rfl⟩)
    · simp [hn]

theorem getElem?_middle_ne {α : Type} (before after : List α) (x y : α) (i : Nat)
    (h : i ≠ before.length) :
    (before ++ x :: after)[i]? = (before ++ y :: after)[i]? := by
  rcases Nat.lt_or_gt_of_ne h with hlt | hgt
  · rw [List.getElem?_append_left hlt, List.getElem?_append_left hlt]
  · rw [List.getElem?_append_right (Nat.le_of_lt hgt),
      List.getElem?_append_right (Nat.le_of_lt hgt)]
    obtain ⟨k, hk⟩ : ∃ k, i - before.length = k + 1 := ⟨i - before.length - 1, by omega⟩
    rw [hk]
    rfl

theorem getElem?_middle {α : Type} (before after : List α) (x : α) :
    (before ++ x :: after)[before.length]? = some x := by
  rw [List.getElem?_append_right (Nat.le_refl _)]
  simp

theorem TryOptimize_key_resolved (context : ClientContext) (order : BoundOrderByNode)
    (limit offset : Nat) (child : LogicalOperator) (rest : List LogicalOperator)
    (table_index : Nat) (expressions : List Expression) (binding : ColumnBinding)
    (htype : order.type = OrderType.ASCENDING)
    (href : order.expression = .BoundColumnRef binding)
    (hnode : child.node = .LogicalProjection table_index expressions) :
    TryOptimize context (.mk (.LogicalTopN [order] limit offset) (child :: rest)) =
      match expressions[binding.column_index]? with
      | none => .error .IndexOutOfBounds
      | some (Expression.BoundFunction function_name arguments) =>
        if !context.IsDistanceFunction function_name then
          .ok (false, .mk (.LogicalTopN [order] limit offset) (child :: rest))
        else
          match targetValue arguments with
          | .error e => .error e
          | .ok none => .ok (false, .mk (.LogicalTopN [order] limit offset) (child :: rest))
          | .ok (some constant) =>
            match castTarget context constant with
            | none => .ok (false, .mk (.LogicalTopN [order] limit offset) (child :: rest))
            | some (array_size, target_value) =>
              rewriteScan context (.mk (.LogicalTopN [order] limit offset) (child :: rest))
                limit child function_name array_size target_value
      | some _ => .ok (false, .mk (.LogicalTopN [order] limit offset) (child :: rest)) := by
  simp only [TryOptimize, htype, href, hnode, List.getElem?_cons_zero, ne_eq,
    not_true_eq_false, if_false]

/-- C15. Two plans that differ only in the operand of the distance call that is not the
constant (both operands not being constants) end the attempt the same way: both raise the
same exception, or both are a no-match returned as they were, or both match with the same
bind data (index, limit, query vector) and the same overwritten scan node. -/
theorem TryOptimize_ignores_other_operand (context : ClientContext)
    (orders : List BoundOrderByNode) (limit offset table_index : Nat)
    (before after : List Expression) (function_name : String) (constant_first : Bool)
    (value : Value) (children rest : List LogicalOperator) (other_a other_b : Expression)
    (ha : ∀ w, other_a ≠ .BoundConstant w) (hb : ∀ w, other_b ≠ .BoundConstant w) :
    (∃ e,
      TryOptimize context (operandPlan orders limit offset table_index before after
        function_name constant_first value children rest other_a) = .error e ∧
      TryOptimize context (operandPlan orders limit offset table_index before after
        function_name constant_first value children rest other_b) = .error e) ∨
    (TryOptimize context (operandPlan orders limit offset table_index before after
        function_name constant_first value children rest other_a)
        = .ok (false, operandPlan orders limit offset table_index before after
            function_name constant_first value children rest other_a) ∧
      TryOptimize context (operandPlan orders limit offset table_index before after
        function_name constant_first value children rest other_b)
        = .ok (false, operandPlan orders limit offset table_index before after
            function_name constant_first value children rest other_b)) ∨
    (∃ bind_data,
      TryOptimize context (operandPlan orders limit offset table_index before after
        function_name constant_first value children rest other_a)
        = .ok (true, replaceGet (indexScanGet context bind_data)
            (operandChild table_index before after function_name constant_first value
              children other_a)) ∧
      TryOptimize context (operandPlan orders limit offset table_index before after
        function_name constant_first value children rest other_b)
        = .ok (true, replaceGet (indexScanGet context bind_data)
            (operandChild table_index before after function_name constant_first value
              children other_b))) := by
  have hfind : findGet (operandChild table_index before after function_name constant_first
        value children other_a)
      = findGet (operandChild table_index before after function_name constant_first
        value children other_b) := by
    unfold operandChild
    rw [findGet_projection, findGet_projection table_index (_ ++ _)]
  simp only [operandPlan]
  rcases orders with _ | ⟨order, _ | ⟨second, more⟩⟩
  · exact Or.inr (Or.inl ⟨by simp [TryOptimize], by simp [TryOptimize]⟩)
  · by_cases htype : order.type = OrderType.ASCENDING
    · cases href : order.expression with
      | BoundColumnRef binding =>
        rw [TryOptimize_key_resolved context order limit offset
            (operandChild table_index before after function_name constant_first value
              children other_a) rest table_index
            (before ++ .BoundFunction function_name
              (distanceArguments constant_first value other_a) :: after) binding
            htype href rfl,
          TryOptimize_key_resolved context order limit offset
            (operandChild table_index before after function_name constant_first value
              children other_b) rest table_index
            (before ++ .BoundFunction function_name
              (distanceArguments constant_first value other_b) :: after) binding
            htype href rfl]
        by_cases hidx : binding.column_index = before.length
        · rw [hidx, getElem?_middle, getElem?_middle]
          simp only
          cases context.IsDistanceFunction function_name with
          | false => exact Or.inr (Or.inl ⟨rfl, rfl⟩)
          | true =>
            simp only [Bool.not_true, Bool.false_eq_true, if_false,
              targetValue_distanceArguments constant_first value other_a ha,
              targetValue_distanceArguments constant_first value other_b hb]
            cases castTarget context value with
            | none => exact Or.inr (Or.inl ⟨rfl, rfl⟩)
            | some pair =>
              obtain ⟨array_size, target_value⟩ := pair
              exact rewriteScan_same_outcome context _ _ limit _ _ function_name array_size
                target_value hfind
        · rw [getElem?_middle_ne before after _
            (.BoundFunction function_name (distanceArguments constant_first value other_b))
            _ hidx]
          cases (before ++ Expression.BoundFunction function_name
              (distanceArguments constant_first value other_b) :: after)[binding.column_index]?
            with
          | none => exact Or.inl ⟨_, rfl, rfl⟩
          | some expr =>
            cases expr with
            | BoundFunction name arguments =>
              simp only
              cases context.IsDistanceFunction name with
              | false => exact Or.inr (Or.inl ⟨rfl, rfl⟩)
              | true =>
                simp only [Bool.not_true, Bool.false_eq_true, if_false]
                cases targetValue arguments with
                | error e => exact Or.inl ⟨e, rfl, rfl⟩
                | ok target =>
                  cases target with
                  | none => exact Or.inr (Or.inl ⟨rfl, rfl⟩)
                  | some constant =>
                    simp only
                    cases castTarget context constant with
                    | none => exact Or.inr (Or.inl ⟨rfl, rfl⟩)
                    | some pair =>
                      obtain ⟨array_size, target_value⟩ := pair
                      exact rewriteScan_same_outcome context _ _ limit _ _ name array_size
                        target_value hfind
            | _ => exact Or.inr (Or.inl ⟨rfl, rfl⟩)
      | _ =>
        refine Or.inr (Or.inl ⟨?_, ?_⟩) <;> simp [TryOptimize, href, htype]
    · refine Or.inr (Or.inl ⟨?_, ?_⟩) <;> simp [TryOptimize, htype]
  · exact Or.inr (Or.inl ⟨by simp [TryOptimize], by simp [TryOptimize]⟩)

/-- Witness for C15: the distance to the indexed column and the distance to another column
give the same match, with the same index, limit and query vector. -/
theorem TryOptimize_ignores_other_operand_witness :
    TryOptimize exContext (operandPlan [⟨.ASCENDING, .BoundColumnRef ⟨1, 0⟩⟩] 5 0 1 []
        [.BoundColumnRef ⟨0, 1⟩] "dist" false exVector [exSeqScan exTable] []
        (.BoundColumnRef ⟨0, 0⟩))
      = .ok (true, replaceGet (indexScanGet exContext ⟨exTable, exIndex, 5, exQuery⟩)
          (operandChild 1 [] [.BoundColumnRef ⟨0, 1⟩] "dist" false exVector
            [exSeqScan exTable] (.BoundColumnRef ⟨0, 0⟩))) ∧
    TryOptimize exContext (operandPlan [⟨.ASCENDING, .BoundColumnRef ⟨1, 0⟩⟩] 5 0 1 []
        [.BoundColumnRef ⟨0, 1⟩] "dist" false exVector [exSeqScan exTable] []
        (.BoundColumnRef ⟨0, 7⟩))
      = .ok (true, replaceGet (indexScanGet exContext ⟨exTable, exIndex, 5, exQuery⟩)
          (operandChild 1 [] [.BoundColumnRef ⟨0, 1⟩] "dist" false exVector
            [exSeqScan exTable] (.BoundColumnRef ⟨0, 7⟩))) := by
  have h := TryOptimize_ignores_other_operand exContext [⟨.ASCENDING, .BoundColumnRef ⟨1, 0⟩⟩]
    5 0 1 [] [.BoundColumnRef ⟨0, 1⟩] "dist" false exVector [exSeqScan exTable] []
    (.BoundColumnRef ⟨0, 0⟩) (.BoundColumnRef ⟨0, 7⟩)
    (fun _ hw => by cases hw) (fun _ hw => by cases hw)
  have hfirst : TryOptimize exContext (operandPlan [⟨.ASCENDING, .BoundColumnRef ⟨1, 0⟩⟩] 5 0 1
        [] [.BoundColumnRef ⟨0, 1⟩] "dist" false exVector [exSeqScan exTable] []
        (.BoundColumnRef ⟨0, 0⟩))
      = .ok (true, replaceGet (indexScanGet exContext ⟨exTable, exIndex, 5, exQuery⟩)
          (operandChild 1 [] [.BoundColumnRef ⟨0, 1⟩] "dist" false exVector
            [exSeqScan exTable] (.BoundColumnRef ⟨0, 0⟩))) := rfl
  refine ⟨hfirst, ?_⟩
  rcases h with ⟨e, he, _⟩ | ⟨hf, _⟩ | ⟨bind_data, hm, hm2⟩
  · rw [hfirst] at he; cases he
  · rw [hfirst] at hf; cases hf
  · rw [hfirst] at hm
    simp only [Except.ok.injEq, Prod.mk.injEq, true_and] at hm
    have hbd : bind_data = ⟨exTable, exIndex, 5, exQuery⟩ := by
      have hget := congrArg findGet hm
      simp only [operandChild, exSeqScan, replaceGet, findGet, Option.some.injEq,
        indexScanGet, LogicalGet.mk.injEq, FunctionData.HNSWIndexScan.injEq] at hget
      exact hget.2.1.symm
    rw [hm2, hbd]

/-! ## The claim on the accesses of `TryOptimize` -/

theorem forEachChild_forall₂ (recurse : LogicalOperator → Except Fault (Bool × LogicalOperator)) :
    ∀ (children children1 : List LogicalOperator) (flag : Bool),
      forEachChild recurse children = .ok (flag, children1) →
      List.Forall₂ (fun child child1 => ∃ ok, recurse child = .ok (ok, child1))
        children children1 := by
  intro children
  induction children with
  | nil =>
    intro children1 flag h
    simp only [forEachChild, Except.ok.injEq, Prod.mk.injEq] at h
    rw [← h.2]
    exact .nil
  | cons c rest ih =>
    intro children1 flag h
    simp only [forEachChild] at h
    cases hc : recurse c with
    | error e => simp [hc] at h
    | ok r =>
      obtain ⟨ok, c1⟩ := r
      simp only [hc] at h
      cases hr : forEachChild recurse rest with
      | error e => simp [hr] at h
      | ok rr =>
        obtain ⟨ok_rest, rest1⟩ := rr
        simp only [hr, Except.ok.injEq, Prod.mk.injEq] at h
        rw [← h.2]
        exact .cons ⟨ok, hc⟩ (ih rest1 ok_rest hr)

theorem forEachChild_flag (recurse : LogicalOperator → Except Fault (Bool × LogicalOperator)) :
    ∀ (children children1 : List LogicalOperator) (flag : Bool),
      forEachChild recurse children = .ok (flag, children1) →
      (flag = true ↔ ∃ child, child ∈ children ∧ ∃ child1, recurse child = .ok (true, child1)) := by
  intro children
  induction children with
  | nil =>
    intro children1 flag h
    simp only [forEachChild, Except.ok.injEq, Prod.mk.injEq] at h
    rw [← h.1]
    simp
  | cons c rest ih =>
    intro children1 flag h
    simp only [forEachChild] at h
    cases hc : recurse c with
    | error e => simp [hc] at h
    | ok r =>
      obtain ⟨ok, c1⟩ := r
      simp only [hc] at h
      cases hr : forEachChild recurse rest with
      | error e => simp [hr] at h
      | ok rr =>
        obtain ⟨ok_rest, rest1⟩ := rr
        simp only [hr, Except.ok.injEq, Prod.mk.injEq] at h
        rw [← h.1]
        have ihr := ih rest1 ok_rest hr
        constructor
        · intro hflag
          rcases Bool.or_eq_true_iff.mp hflag with h1 | h2
          · subst h1
            exact ⟨c, List.mem_cons_self _ _, c1, hc⟩
          · obtain ⟨d, hd, d1, hd1⟩ := ihr.mp h2
            exact ⟨d, List.mem_cons_of_mem _ hd, d1, hd1⟩
        · rintro ⟨d, hd, d1, hd1⟩
          rcases List.mem_cons.mp hd with rfl | hd
          · rw [hc] at hd1
            simp only [Except.ok.injEq, Prod.mk.injEq] at hd1
            simp [hd1.1]
          · simp [ihr.mpr ⟨d, hd, d1, hd1⟩]

theorem forEachChild_returns (recurse : LogicalOperator → Except Fault (Bool × LogicalOperator)) :
    ∀ children : List LogicalOperator,
      (∀ child ∈ children, ∃ result, recurse child = .ok result) →
      ∃ result, forEachChild recurse children = .ok result := by
  intro children
  induction children with
  | nil => intro _; exact ⟨_, rfl⟩
  | cons c rest ih =>
    intro h
    obtain ⟨⟨ok, c1⟩, hc⟩ := h c (List.mem_cons_self _ _)
    obtain ⟨⟨ok_rest, rest1⟩, hr⟩ := ih (fun d hd => h d (List.mem_cons_of_mem _ hd))
    exact ⟨(ok || ok_rest, c1 :: rest1), by simp only [forEachChild, hc, hr]⟩

theorem forall₂_imp_mem {α β : Type} {R S : α → β → Prop} :
    ∀ {l1 : List α} {l2 : List β}, List.Forall₂ R l1 l2 →
      (∀ a b, a ∈ l1 → R a b → S a b) → List.Forall₂ S l1 l2 := by
  intro l1 l2 h
  induction h with
  | nil => intro _; exact .nil
  | cons hab _ ih =>
    intro himp
    exact .cons (himp _ _ (List.mem_cons_self _ _) hab)
      (ih (fun a b ha hr => himp a b (List.mem_cons_of_mem _ ha) hr))

theorem forall₂_exists_of_mem {α β : Type} {R : α → β → Prop} :
    ∀ {l1 : List α} {l2 : List β}, List.Forall₂ R l1 l2 → ∀ a, a ∈ l1 → ∃ b, b ∈ l2 ∧ R a b := by
  intro l1 l2 h
  induction h with
  | nil => intro a ha; cases ha
  | cons hab _ ih =>
    intro a ha
    rcases List.mem_cons.mp ha with rfl | ha
    · exact ⟨_, List.mem_cons_self _ _, hab⟩
    · obtain ⟨b, hb, hr⟩ := ih a ha
      exact ⟨b, List.mem_cons_of_mem _ hb, hr⟩

theorem forall₂_exists_of_mem_right {α β : Type} {R : α → β → Prop} :
    ∀ {l1 : List α} {l2 : List β}, List.Forall₂ R l1 l2 → ∀ b, b ∈ l2 → ∃ a, a ∈ l1 ∧ R a b := by
  intro l1 l2 h
  induction h with
  | nil => intro b hb; cases hb
  | cons hab _ ih =>
    intro b hb
    rcases List.mem_cons.mp hb with rfl | hb
    · exact ⟨_, List.mem_cons_self _ _, hab⟩
    · obtain ⟨a, ha, hr⟩ := ih b hb
      exact ⟨a, List.mem_cons_of_mem _ ha, hr⟩

/-- Induction along the walker: a property of (plan, flag, result) that passes from the
walks of the children of the node left by the attempt to the walk of the node holds of
every walk that returns. -/
theorem OptimizeChildren_induct (context : ClientContext)
    (P : LogicalOperator → Bool → LogicalOperator → Prop)
    (step : ∀ (plan plan1 : LogicalOperator) (ok ok_children : Bool)
      (children1 : List LogicalOperator),
      TryOptimize context plan = .ok (ok, plan1) →
      forEachChild (OptimizeChildren context) plan1.children = .ok (ok_children, children1) →
      List.Forall₂
        (fun child child1 =>
          ∃ flag, OptimizeChildren context child = .ok (flag, child1) ∧ P child flag child1)
        plan1.children children1 →
      P plan (ok || ok_children) (.mk plan1.node children1)) :
    ∀ (n : Nat) (plan : LogicalOperator) (flag : Bool) (result : LogicalOperator),
      plan.height ≤ n → OptimizeChildren context plan = .ok (flag, result) →
      P plan flag result := by
  intro n
  induction n with
  | zero =>
    intro plan flag result hh
    rcases plan with ⟨node, children⟩
    simp [LogicalOperator.height] at hh
  | succ n ih =>
    intro plan flag result hh h
    rw [OptimizeChildren_unfold] at h
    cases ht : TryOptimize context plan with
    | error e => simp [ht] at h
    | ok r =>
      obtain ⟨ok, plan1⟩ := r
      simp only [ht] at h
      cases hc : forEachChild (OptimizeChildren context) plan1.children with
      | error e => simp [hc] at h
      | ok rc =>
        obtain ⟨ok_children, children1⟩ := rc
        simp only [hc, Except.ok.injEq, Prod.mk.injEq] at h
        obtain ⟨rfl, rfl⟩ := h
        apply step plan plan1 ok ok_children children1 ht hc
        have hheight := TryOptimize_height ht
        refine forall₂_imp_mem (forEachChild_forall₂ _ _ _ _ hc) ?_
        rintro child child1 hmem ⟨cflag, hwalk⟩
        refine ⟨cflag, hwalk, ih child cflag child1 ?_ hwalk⟩
        have := height_le_heightList hmem
        rcases plan1 with ⟨node1, cs⟩
        simp only [LogicalOperator.height, LogicalOperator.children] at hheight this
        omega

/-! ## What the walker does to the chains -/

theorem chainNodes_step (node : OperatorNode) (child : LogicalOperator)
    (h : ∀ g, node ≠ .LogicalGet g) :
    chainNodes (.mk node [child]) = node :: chainNodes child := by
  cases node with
  | LogicalGet g => exact absurd rfl (h g)
  | _ => simp [chainNodes]

theorem indexScanGet_not_seq_scan (context : ClientContext) (bind_data : HNSWIndexScanBindData) :
    (indexScanGet context bind_data).function.name ≠ "seq_scan" := by
  simp [indexScanGet, HNSWIndexScanFunction.GetFunction]

theorem TryOptimize_true_scan {context : ClientContext} {plan plan1 : LogicalOperator}
    (h : TryOptimize context plan = .ok (true, plan1)) :
    ∃ order limit offset child rest table_index expressions get bind_data,
      plan = .mk (.LogicalTopN [order] limit offset) (child :: rest) ∧
      child.node = .LogicalProjection table_index expressions ∧
      plan1.node = .LogicalProjection table_index expressions ∧
      ReachesScan child get ∧ get.function.name = "seq_scan" ∧
      bind_data.limit = limit ∧
      plan1 = replaceGet (indexScanGet context bind_data) child ∧
      ReachesScan plan1 (indexScanGet context bind_data) := by
  obtain ⟨limit, child, function_name, arguments, constant, array_size, target_value,
    hdc, _, _, hrw⟩ := TryOptimize_true h
  obtain ⟨get, table, bind_data, hg, hname, _, _, hb, hplan⟩ := rewriteScan_true hrw
  obtain ⟨index, _, query, _, _, _, hbd⟩ := BindAndScan_some hb
  obtain ⟨order, offset, rest, table_index, expressions, binding, hp, _, _, hnode, _, _⟩ := hdc
  have hreach : ReachesScan child get :=
    reachesScan_of_findGet child.height child get (Nat.le_refl _) hg
  have hproj : ∀ g, child.node ≠ .LogicalGet g := by
    intro g hgn
    rw [hnode] at hgn
    cases hgn
  refine ⟨order, limit, offset, child, rest, table_index, expressions, get, bind_data, hp,
    hnode, ?_, hreach, hname, by rw [hbd], hplan, ?_⟩
  · rw [hplan, replaceGet_node _ child hproj, hnode]
  · rw [hplan]
    exact findGet_replaceGet _ hreach

theorem mem_subtreesList_iff {node : LogicalOperator} :
    ∀ {children : List LogicalOperator},
      node ∈ subtreesList children ↔ ∃ child, child ∈ children ∧ node ∈ child.subtrees := by
  intro children
  induction children with
  | nil => simp [subtreesList]
  | cons c rest ih =>
    simp only [subtreesList, List.mem_append, ih, List.mem_cons]
    constructor
    · rintro (h | ⟨d, hd, hn⟩)
      · exact ⟨c, Or.inl rfl, h⟩
      · exact ⟨d, Or.inr hd, hn⟩
    · rintro ⟨d, rfl | hd, hn⟩
      · exact Or.inl hn
      · exact Or.inr ⟨d, hd, hn⟩

theorem mem_subtrees_iff {node : LogicalOperator} {root : OperatorNode}
    {children : List LogicalOperator} :
    node ∈ (LogicalOperator.mk root children).subtrees ↔
      node = .mk root children ∨ ∃ child, child ∈ children ∧ node ∈ child.subtrees := by
  simp only [LogicalOperator.subtrees, List.mem_cons, mem_subtreesList_iff]

/-- The facts the walker keeps about the chains and the matches, for one walk. -/
theorem OptimizeChildren_chain_facts (context : ClientContext) (plan : LogicalOperator)
    (flag : Bool) (result : LogicalOperator)
    (h : OptimizeChildren context plan = .ok (flag, result)) :
    (∀ get, findGet result = some get → get.function.name = "seq_scan" →
      findGet plan = some get) ∧
    (∀ get, findGet plan = some get → get.function.name ≠ "seq_scan" →
      findGet result = some get ∧ chainNodes result = chainNodes plan) ∧
    (∀ plan1, TryOptimize context plan = .ok (true, plan1) →
      findGet result = findGet plan1 ∧ chainNodes result = chainNodes plan1) ∧
    (result.node = plan.node ∨ ∃ plan1, TryOptimize context plan = .ok (true, plan1)) ∧
    (∀ node ∈ result.subtrees, ∀ node1, TryOptimize context node ≠ .ok (true, node1)) := by
  refine OptimizeChildren_induct context
    (fun plan _ result =>
      (∀ get, findGet result = some get → get.function.name = "seq_scan" →
        findGet plan = some get) ∧
      (∀ get, findGet plan = some get → get.function.name ≠ "seq_scan" →
        findGet result = some get ∧ chainNodes result = chainNodes plan) ∧
      (∀ plan1, TryOptimize context plan = .ok (true, plan1) →
        findGet result = findGet plan1 ∧ chainNodes result = chainNodes plan1) ∧
      (result.node = plan.node ∨ ∃ plan1, TryOptimize context plan = .ok (true, plan1)) ∧
      (∀ node ∈ result.subtrees, ∀ node1, TryOptimize context node ≠ .ok (true, node1)))
    ?_ plan.height plan flag result (Nat.le_refl _) h
  intro plan plan1 ok ok_children children1 ht _ hall
  -- the chain of the result against the chain of the node left by the attempt
  have hdown : ∀ get, findGet (.mk plan1.node children1) = some get →
      get.function.name = "seq_scan" → findGet plan1 = some get := by
    intro get hget hname
    rcases plan1 with ⟨node1, cs⟩
    simp only [LogicalOperator.node, LogicalOperator.children] at hget hall
    by_cases hn : ∃ g, node1 = .LogicalGet g
    · obtain ⟨g, rfl⟩ := hn
      simpa [findGet] using hget
    · have hn1 : ∀ g, node1 ≠ .LogicalGet g := fun g hg => hn ⟨g, hg⟩
      rcases children1 with _ | ⟨c1, _ | ⟨d1, rest1⟩⟩
      · rw [findGet_branch node1 [] hn1 (by simp)] at hget; cases hget
      · cases hall with
        | cons hc hrest =>
          cases hrest
          obtain ⟨_, _, hfacts⟩ := hc
          rw [findGet_step node1 c1 hn1] at hget
          rw [findGet_step node1 _ hn1]
          exact hfacts.1 get hget hname
      · rw [findGet_branch node1 (c1 :: d1 :: rest1) hn1 (by simp)] at hget; cases hget
  have hup : ∀ get, findGet plan1 = some get → get.function.name ≠ "seq_scan" →
      findGet (.mk plan1.node children1) = some get ∧
      chainNodes (.mk plan1.node children1) = chainNodes plan1 := by
    intro get hget hname
    rcases plan1 with ⟨node1, cs⟩
    simp only [LogicalOperator.node, LogicalOperator.children] at hget hall ⊢
    by_cases hn : ∃ g, node1 = .LogicalGet g
    · obtain ⟨g, rfl⟩ := hn
      simp only [findGet, Option.some.injEq] at hget
      simp [findGet, chainNodes, hget]
    · have hn1 : ∀ g, node1 ≠ .LogicalGet g := fun g hg => hn ⟨g, hg⟩
      rcases cs with _ | ⟨c, _ | ⟨d, rest⟩⟩
      · rw [findGet_branch node1 [] hn1 (by simp)] at hget; cases hget
      · cases hall with
        | cons hc hrest =>
          cases hrest
          obtain ⟨_, _, hfacts⟩ := hc
          rw [findGet_step node1 c hn1] at hget
          obtain ⟨hf, hch⟩ := hfacts.2.1 get hget hname
          rw [findGet_step node1 _ hn1, chainNodes_step node1 _ hn1,
            chainNodes_step node1 _ hn1, hch]
          exact ⟨hf, rfl⟩
      · rw [findGet_branch node1 (c :: d :: rest) hn1 (by simp)] at hget; cases hget
  cases ok with
  | true =>
    obtain ⟨order, limit, offset, child, rest, table_index, expressions, get, bind_data,
      hp, hnode, hnode1, hreach, hname, _, hplan1, hreach1⟩ := TryOptimize_true_scan ht
    have hfind1 := findGet_of_reachesScan hreach1
    have hnot := indexScanGet_not_seq_scan context bind_data
    refine ⟨?_, ?_, ?_, Or.inr ⟨plan1, ht⟩, ?_⟩
    · intro g hg hgname
      have := hdown g hg hgname
      rw [hfind1] at this
      simp only [Option.some.injEq] at this
      rw [← this] at hgname
      exact absurd hgname hnot
    · intro g hg hgname
      exfalso
      rw [hp] at hg
      rcases rest with _ | ⟨r, rest⟩
      · rw [findGet_step _ child (fun _ hx => by cases hx),
          findGet_of_reachesScan hreach] at hg
        simp only [Option.some.injEq] at hg
        rw [← hg] at hgname
        exact hgname hname
      · rw [findGet_branch _ _ (fun _ hx => by cases hx) (by simp)] at hg
        cases hg
    · intro p1 hp1
      rw [ht] at hp1
      simp only [Except.ok.injEq, Prod.mk.injEq, true_and] at hp1
      subst hp1
      obtain ⟨hf, hch⟩ := hup _ hfind1 hnot
      exact ⟨by rw [hf, hfind1], hch⟩
    · intro node hmem node1 hmatch
      rcases mem_subtrees_iff.mp hmem with rfl | ⟨c1, hc1, hn⟩
      · rw [hnode1] at hmatch
        simp [TryOptimize] at hmatch
      · obtain ⟨c, _, _, _, hfacts⟩ := forall₂_exists_of_mem_right hall c1 hc1
        exact hfacts.2.2.2.2 node hn node1 hmatch
  | false =>
    have hsame : plan1 = plan := TryOptimize_false ht
    subst hsame
    refine ⟨hdown, hup, ?_, Or.inl rfl, ?_⟩
    · intro p1 hp1
      rw [ht] at hp1
      cases hp1
    · intro node hmem node1 hmatch
      rcases mem_subtrees_iff.mp hmem with rfl | ⟨c1, hc1, hn⟩
      · -- the root of the result cannot match, because the node did not
        obtain ⟨limit, child1, function_name, arguments, constant, array_size, target_value,
          hdc, htarget, hcast, hrw⟩ := TryOptimize_true hmatch
        obtain ⟨get, table, bind_data, hg, hname, htable, hduck, hb, _⟩ := rewriteScan_true hrw
        obtain ⟨order, offset, rest1, table_index, expressions, binding, hp, htype, href,
          hnode, hexpr, hdist⟩ := hdc
        rcases plan1 with ⟨pnode, cs⟩
        simp only [LogicalOperator.node, LogicalOperator.children, LogicalOperator.mk.injEq]
          at hp hall
        obtain ⟨rfl, rfl⟩ := hp
        rcases cs with _ | ⟨child, rest⟩
        · cases hall
        cases hall with
        | cons hc hrest =>
          obtain ⟨cflag, hwalk, hfacts⟩ := hc
          have hchildnode : child.node = .LogicalProjection table_index expressions := by
            rcases hfacts.2.2.2.1 with hsame | ⟨p1, hp1⟩
            · exact Eq.trans hsame.symm hnode
            · exfalso
              obtain ⟨_, _, _, _, _, _, _, _, bd, _, _, _, _, _, _, _, hreach1⟩ :=
                TryOptimize_true_scan hp1
              have hf := (hfacts.2.2.1 p1 hp1).1
              rw [hg, findGet_of_reachesScan hreach1] at hf
              simp only [Option.some.injEq] at hf
              rw [hf] at hname
              exact indexScanGet_not_seq_scan context bd hname
          have hchildget : findGet child = some get := hfacts.1 get hg hname
          have hq : QueryVectorFound context
              (.mk (.LogicalTopN [order] limit offset) (child :: rest)) limit child
              function_name array_size target_value :=
            ⟨arguments, constant,
              ⟨order, offset, rest, table_index, expressions, binding, rfl, htype, href,
                hchildnode, hexpr, hdist⟩, htarget, hcast⟩
          rw [TryOptimize_of_queryVectorFound hq,
            rewriteScan_of_scan hchildget hname htable hduck, hb] at ht
          cases ht
      · obtain ⟨c, _, _, _, hfacts⟩ := forall₂_exists_of_mem_right hall c1 hc1
        exact hfacts.2.2.2.2 node hn node1 hmatch

/-! ## The claim on the walker -/

theorem OptimizeChildren_flag_iff (context : ClientContext) (plan : LogicalOperator)
    (flag : Bool) (result : LogicalOperator)
    (h : OptimizeChildren context plan = .ok (flag, result)) :
    flag = true ↔
      ∃ node node1, Visits context plan node ∧ TryOptimize context node = .ok (true, node1) := by
  refine OptimizeChildren_induct context
    (fun plan flag _ => flag = true ↔
      ∃ node node1, Visits context plan node ∧ TryOptimize context node = .ok (true, node1))
    ?_ plan.height plan flag result (Nat.le_refl _) h
  intro plan plan1 ok ok_children children1 ht hc hall
  have hflag := forEachChild_flag _ _ _ _ hc
  constructor
  · intro hor
    rcases Bool.or_eq_true_iff.mp hor with hok | hchildren
    · subst hok
      exact ⟨plan, plan1, .root plan, ht⟩
    · obtain ⟨child, hmem, child1, hwalk⟩ := hflag.mp hchildren
      obtain ⟨c1, _, cflag, hwalk1, hiff⟩ := forall₂_exists_of_mem hall child hmem
      rw [hwalk] at hwalk1
      simp only [Except.ok.injEq, Prod.mk.injEq] at hwalk1
      obtain ⟨node, node1, hvisit, hmatch⟩ := hiff.mp hwalk1.1.symm
      exact ⟨node, node1, .child plan plan1 ok child node ht hmem hvisit, hmatch⟩
  · rintro ⟨node, node1, hvisit, hmatch⟩
    cases hvisit with
    | root =>
      rw [ht] at hmatch
      simp only [Except.ok.injEq, Prod.mk.injEq] at hmatch
      simp [hmatch.1]
    | child _ plan2 ok2 child _ ht2 hmem hvisit =>
      rw [ht] at ht2
      simp only [Except.ok.injEq, Prod.mk.injEq] at ht2
      obtain ⟨_, rfl⟩ := ht2
      obtain ⟨c1, _, cflag, hwalk1, hiff⟩ := forall₂_exists_of_mem hall child hmem
      have hc1 : cflag = true := hiff.mpr ⟨node, node1, hvisit, hmatch⟩
      subst hc1
      simp [hflag.mpr ⟨child, hmem, c1, hwalk1⟩]

theorem OptimizeChildren_returns (context : ClientContext) :
    ∀ (n : Nat) (plan : LogicalOperator), plan.height ≤ n →
      (∀ node, Visits context plan node → ∀ e, TryOptimize context node ≠ .error e) →
      ∃ flag result, OptimizeChildren context plan = .ok (flag, result) := by
  intro n
  induction n with
  | zero =>
    intro plan hh
    rcases plan with ⟨node, children⟩
    simp [LogicalOperator.height] at hh
  | succ n ih =>
    intro plan hh hquiet
    rw [OptimizeChildren_unfold]
    cases ht : TryOptimize context plan with
    | error e => exact absurd ht (hquiet plan (.root plan) e)
    | ok r =>
      obtain ⟨ok, plan1⟩ := r
      have hheight := TryOptimize_height ht
      obtain ⟨⟨ok_children, children1⟩, hc⟩ :=
        forEachChild_returns (OptimizeChildren context) plan1.children (by
          intro child hmem
          have := height_le_heightList hmem
          have hle : child.height ≤ n := by
            rcases plan1 with ⟨node1, cs⟩
            simp only [LogicalOperator.height, LogicalOperator.children] at hheight this
            omega
          obtain ⟨cflag, cresult, hwalk⟩ := ih child hle
            (fun node hvisit => hquiet node (.child plan plan1 ok child node ht hmem hvisit))
          exact ⟨_, hwalk⟩)
      exact ⟨ok || ok_children, .mk plan1.node children1, by simp only [hc]⟩

/-- C13. The walker makes the attempt on the node and then, whatever the outcome, walks
every child of the node that is then in the slot, each child slot receiving the result of
its own walk; the flag it returns is true exactly when the attempt returned true on at
least one visited node; the walk returns whenever no attempt on a visited node raises; and
when the node itself is no match, every child on which the attempt matches is replaced by
its promoted projection over the overwritten scan. -/
theorem OptimizeChildren_walks (context : ClientContext) (plan : LogicalOperator) :
    (OptimizeChildren context plan =
      match TryOptimize context plan with
      | .error e => .error e
      | .ok (ok, plan1) =>
        match forEachChild (OptimizeChildren context) plan1.children with
        | .error e => .error e
        | .ok (ok_children, children1) =>
          .ok (ok || ok_children, .mk plan1.node children1)) ∧
    (∀ flag result, OptimizeChildren context plan = .ok (flag, result) →
      (flag = true ↔
        ∃ node node1, Visits context plan node ∧
          TryOptimize context node = .ok (true, node1)) ∧
      ∃ ok plan1, TryOptimize context plan = .ok (ok, plan1) ∧ result.node = plan1.node ∧
        List.Forall₂
          (fun child child1 =>
            ∃ child_flag, OptimizeChildren context child = .ok (child_flag, child1) ∧
              ∀ promoted, TryOptimize context child = .ok (true, promoted) →
                child1.node = promoted.node ∧ findGet child1 = findGet promoted)
          plan1.children result.children) ∧
    ((∀ node, Visits context plan node → ∀ e, TryOptimize context node ≠ .error e) →
      ∃ flag result, OptimizeChildren context plan = .ok (flag, result)) := by
  refine ⟨OptimizeChildren_unfold context plan, ?_,
    OptimizeChildren_returns context plan.height plan (Nat.le_refl _)⟩
  intro flag result h
  refine ⟨OptimizeChildren_flag_iff context plan flag result h, ?_⟩
  rw [OptimizeChildren_unfold] at h
  cases ht : TryOptimize context plan with
  | error e => simp [ht] at h
  | ok r =>
    obtain ⟨ok, plan1⟩ := r
    simp only [ht] at h
    cases hc : forEachChild (OptimizeChildren context) plan1.children with
    | error e => simp [hc] at h
    | ok rc =>
      obtain ⟨ok_children, children1⟩ := rc
      simp only [hc, Except.ok.injEq, Prod.mk.injEq] at h
      obtain ⟨_, rfl⟩ := h
      refine ⟨ok, plan1, rfl, rfl, ?_⟩
      simp only [LogicalOperator.children]
      refine forall₂_imp_mem (forEachChild_forall₂ _ _ _ _ hc) ?_
      rintro child child1 _ ⟨cflag, hwalk⟩
      refine ⟨cflag, hwalk, ?_⟩
      intro promoted hpromoted
      have hfacts := OptimizeChildren_chain_facts context child cflag child1 hwalk
      refine ⟨?_, (hfacts.2.2.1 promoted hpromoted).1⟩
      rw [OptimizeChildren_unfold, hpromoted] at hwalk
      simp only at hwalk
      cases hcc : forEachChild (OptimizeChildren context) promoted.children with
      | error e => simp [hcc] at hwalk
      | ok rcc =>
        simp only [hcc, Except.ok.injEq, Prod.mk.injEq] at hwalk
        rw [← hwalk.2]
        rfl

/-- Witness for C13: a union of two TopN plans over the scans of two tables loses both
TopN nodes and has both scans overwritten in one walk. -/
theorem OptimizeChildren_walks_witness :
    OptimizeChildren exContext exUnion = .ok (true, exUnionRewritten) ∧
    (true = true ↔
      ∃ node node1, Visits exContext exUnion node ∧
        TryOptimize exContext node = .ok (true, node1)) :=
  ⟨rfl, (((OptimizeChildren_walks exContext exUnion).2.1) true exUnionRewritten rfl).1⟩

/-! ## The claim on stacked TopN nodes -/

theorem chainNodes_replaceGet {plan : LogicalOperator} {get : LogicalGet}
    (h : ReachesScan plan get) :
    ∃ upper, chainNodes plan = upper ++ [.LogicalGet get] ∧
      ∀ new_get, chainNodes (replaceGet new_get plan) = upper ++ [.LogicalGet new_get] := by
  induction h with
  | scan get children => exact ⟨[], by simp [chainNodes], fun g => by simp [replaceGet, chainNodes]⟩
  | step node child get hn _ ih =>
    obtain ⟨upper, hchain, hnew⟩ := ih
    refine ⟨node :: upper, ?_, ?_⟩
    · rw [chainNodes_step node child hn, hchain]
      rfl
    · intro g
      rw [replaceGet_step g node child hn, chainNodes_step node _ hn, hnew g]
      rfl

theorem countNodes_replaceGet (test : OperatorNode → Bool) (new_get : LogicalGet)
    {plan : LogicalOperator} {get : LogicalGet} (h : ReachesScan plan get) :
    countNodes test (replaceGet new_get plan) + (if test (.LogicalGet get) then 1 else 0)
      = countNodes test plan + (if test (.LogicalGet new_get) then 1 else 0) := by
  induction h with
  | scan get children =>
    simp only [replaceGet, countNodes]
    omega
  | step node child get hn _ ih =>
    rw [replaceGet_step new_get node child hn]
    simp only [countNodes, countNodesList]
    omega

theorem oneChild_replaceGet (new_get : LogicalGet) {plan : LogicalOperator} {get : LogicalGet}
    (h : ReachesScan plan get)
    (hone : ∀ node ∈ plan.subtrees, ∀ orders limit offset,
      node.node = .LogicalTopN orders limit offset → node.children.length = 1) :
    ∀ node ∈ (replaceGet new_get plan).subtrees, ∀ orders limit offset,
      node.node = .LogicalTopN orders limit offset → node.children.length = 1 := by
  induction h with
  | scan get children =>
    intro node hmem orders limit offset hnode
    simp only [replaceGet] at hmem
    rcases mem_subtrees_iff.mp hmem with rfl | ⟨c, hc, hn⟩
    · cases hnode
    · exact hone node (mem_subtrees_child hc hn) orders limit offset hnode
  | step node child get hn _ ih =>
    intro n hmem orders limit offset hnode
    rw [replaceGet_step new_get node child hn] at hmem
    rcases mem_subtrees_iff.mp hmem with rfl | ⟨c, hc, hsub⟩
    · rfl
    · simp only [List.mem_singleton] at hc
      subst hc
      exact ih (fun m hm => hone m (mem_subtrees_child (List.mem_singleton_self _) hm))
        n hsub orders limit offset hnode

theorem countNodesList_forall₂ (test1 test2 : OperatorNode → Bool) :
    ∀ {children children1 : List LogicalOperator},
      List.Forall₂
        (fun child child1 =>
          countNodes test1 child1 + countNodes test2 child1
            = countNodes test1 child + countNodes test2 child ∧
          countNodes test1 child1 ≤ countNodes test1 child)
        children children1 →
      countNodesList test1 children1 + countNodesList test2 children1
        = countNodesList test1 children + countNodesList test2 children ∧
      countNodesList test1 children1 ≤ countNodesList test1 children := by
  intro children children1 h
  induction h with
  | nil => exact ⟨rfl, Nat.le_refl _⟩
  | cons hab _ ih =>
    simp only [countNodesList]
    omega

theorem OptimizeChildren_counts (context : ClientContext) (plan : LogicalOperator)
    (flag : Bool) (result : LogicalOperator)
    (h : OptimizeChildren context plan = .ok (flag, result))
    (hone : ∀ node ∈ plan.subtrees, ∀ orders limit offset,
      node.node = .LogicalTopN orders limit offset → node.children.length = 1) :
    countNodes OperatorNode.isTopN result + countNodes OperatorNode.isIndexScan result
      = countNodes OperatorNode.isTopN plan + countNodes OperatorNode.isIndexScan plan ∧
    countNodes OperatorNode.isTopN result ≤ countNodes OperatorNode.isTopN plan := by
  revert hone
  refine OptimizeChildren_induct context
    (fun plan _ result =>
      (∀ node ∈ plan.subtrees, ∀ orders limit offset,
        node.node = .LogicalTopN orders limit offset → node.children.length = 1) →
      countNodes OperatorNode.isTopN result + countNodes OperatorNode.isIndexScan result
        = countNodes OperatorNode.isTopN plan + countNodes OperatorNode.isIndexScan plan ∧
      countNodes OperatorNode.isTopN result ≤ countNodes OperatorNode.isTopN plan)
    ?_ plan.height plan flag result (Nat.le_refl _) h
  intro plan plan1 ok ok_children children1 ht _ hall hone
  -- the children of the node left by the attempt keep the counts
  have hkept : (∀ node ∈ plan1.subtrees, ∀ orders limit offset,
        node.node = .LogicalTopN orders limit offset → node.children.length = 1) →
      countNodes OperatorNode.isTopN (.mk plan1.node children1)
          + countNodes OperatorNode.isIndexScan (.mk plan1.node children1)
        = countNodes OperatorNode.isTopN plan1 + countNodes OperatorNode.isIndexScan plan1 ∧
      countNodes OperatorNode.isTopN (.mk plan1.node children1)
        ≤ countNodes OperatorNode.isTopN plan1 := by
    intro hone1
    rcases plan1 with ⟨node1, cs⟩
    simp only [LogicalOperator.node, LogicalOperator.children] at hall ⊢
    have hsum := countNodesList_forall₂ OperatorNode.isTopN OperatorNode.isIndexScan
      (forall₂_imp_mem hall (by
        rintro c c1 hmem ⟨_, _, hP⟩
        exact hP (fun n hn => hone1 n (mem_subtrees_child hmem hn))))
    simp only [countNodes]
    omega
  cases ok with
  | false =>
    have hsame : plan1 = plan := TryOptimize_false ht
    subst hsame
    exact hkept hone
  | true =>
    obtain ⟨order, limit, offset, child, rest, table_index, expressions, get, bind_data,
      hp, _, _, hreach, hname, _, hplan1, _⟩ := TryOptimize_true_scan ht
    have hrest : rest = [] := by
      have := hone plan (mem_subtrees_self plan) [order] limit offset (by rw [hp]; rfl)
      rw [hp] at this
      simpa [LogicalOperator.children] using this
    subst hrest
    have hchild : ∀ node ∈ child.subtrees, ∀ orders limit offset,
        node.node = .LogicalTopN orders limit offset → node.children.length = 1 := by
      intro n hn
      apply hone n
      rw [hp]
      exact mem_subtrees_child (List.mem_singleton_self _) hn
    have hone1 := oneChild_replaceGet (indexScanGet context bind_data) hreach hchild
    rw [← hplan1] at hone1
    obtain ⟨hsum, hle⟩ := hkept hone1
    have htop := countNodes_replaceGet OperatorNode.isTopN (indexScanGet context bind_data)
      hreach
    have hidx := countNodes_replaceGet OperatorNode.isIndexScan
      (indexScanGet context bind_data) hreach
    rw [← hplan1] at htop hidx
    have hseq : OperatorNode.isIndexScan (.LogicalGet get) = false := by
      simp [OperatorNode.isIndexScan, hname]
    have hnew : OperatorNode.isIndexScan (.LogicalGet (indexScanGet context bind_data))
        = true := by
      simp [OperatorNode.isIndexScan, indexScanGet, HNSWIndexScanFunction.GetFunction]
    simp only [OperatorNode.isTopN, hseq, hnew, Bool.false_eq_true, if_false, if_true]
      at htop hidx
    have hplanTop : countNodes OperatorNode.isTopN plan
        = 1 + countNodes OperatorNode.isTopN child := by
      rw [hp]
      simp [countNodes, countNodesList, OperatorNode.isTopN]
    have hplanIdx : countNodes OperatorNode.isIndexScan plan
        = countNodes OperatorNode.isIndexScan child := by
      rw [hp]
      simp [countNodes, countNodesList, OperatorNode.isIndexScan]
    omega

mutual
theorem countNodes_skeleton (test : OperatorNode → Bool)
    (htest : ∀ node, test node.withoutExpressions = test node) :
    ∀ plan : LogicalOperator, countNodes test plan.skeleton = countNodes test plan
  | .mk node children => by
    simp only [LogicalOperator.skeleton, countNodes, htest node,
      countNodesList_skeleton test htest children]
theorem countNodesList_skeleton (test : OperatorNode → Bool)
    (htest : ∀ node, test node.withoutExpressions = test node) :
    ∀ children : List LogicalOperator,
      countNodesList test (skeletonList children) = countNodesList test children
  | [] => rfl
  | first :: rest => by
    simp only [skeletonList, countNodesList, countNodes_skeleton test htest first,
      countNodesList_skeleton test htest rest]
end

theorem MergeProjections_counts (test : OperatorNode → Bool)
    (htest : ∀ node, test node.withoutExpressions = test node)
    {plan plan1 : LogicalOperator} (h : MergeProjections plan = .ok plan1) :
    countNodes test plan1 = countNodes test plan := by
  rw [← countNodes_skeleton test htest plan1, (MergeProjections_frame plan plan1 h).2,
    countNodes_skeleton test htest plan]

/-- C18. When the attempt matches on a TopN, the walk of that node leaves, below the
promoted projection, the chain of the child as it was down to the scan (a TopN that lay
on it is still there), the scan being the index scan whose bind data carry the limit of
the matched TopN, and no node of the result is a TopN on which the attempt would match
again. When every TopN of the plan has exactly one child, the pass removes as many TopN
nodes as it adds scans named "hnsw_index_scan". -/
theorem OptimizeChildren_outermost_match (context : ClientContext) (plan : LogicalOperator) :
    (∀ plan1 flag result, TryOptimize context plan = .ok (true, plan1) →
      OptimizeChildren context plan = .ok (flag, result) →
      ∃ order limit offset child rest get bind_data upper,
        plan = .mk (.LogicalTopN [order] limit offset) (child :: rest) ∧
        chainNodes child = upper ++ [.LogicalGet get] ∧ get.function.name = "seq_scan" ∧
        bind_data.limit = limit ∧
        chainNodes result = upper ++ [.LogicalGet (indexScanGet context bind_data)] ∧
        ∀ node ∈ result.subtrees, ∀ node1, TryOptimize context node ≠ .ok (true, node1)) ∧
    ((∀ node ∈ plan.subtrees, ∀ orders limit offset,
        node.node = .LogicalTopN orders limit offset → node.children.length = 1) →
      ∀ result, Optimize context plan = .ok result →
        countNodes OperatorNode.isTopN result + countNodes OperatorNode.isIndexScan result
          = countNodes OperatorNode.isTopN plan + countNodes OperatorNode.isIndexScan plan ∧
        countNodes OperatorNode.isTopN result ≤ countNodes OperatorNode.isTopN plan) := by
  refine ⟨?_, ?_⟩
  · intro plan1 flag result ht hwalk
    obtain ⟨order, limit, offset, child, rest, table_index, expressions, get, bind_data,
      hp, _, _, hreach, hname, hlimit, hplan1, _⟩ := TryOptimize_true_scan ht
    obtain ⟨upper, hchain, hnew⟩ := chainNodes_replaceGet hreach
    have hfacts := OptimizeChildren_chain_facts context plan flag result hwalk
    refine ⟨order, limit, offset, child, rest, get, bind_data, upper, hp, hchain, hname,
      hlimit, ?_, hfacts.2.2.2.2⟩
    rw [(hfacts.2.2.1 plan1 ht).2, hplan1, hnew]
  · intro hone result hopt
    unfold Optimize at hopt
    cases hwalk : OptimizeChildren context plan with
    | error e => simp [hwalk] at hopt
    | ok r =>
      obtain ⟨flag, walked⟩ := r
      simp only [hwalk] at hopt
      have hcounts := OptimizeChildren_counts context plan flag walked hwalk hone
      cases flag with
      | false =>
        simp only [Bool.false_eq_true, if_false, Except.ok.injEq] at hopt
        subst hopt
        exact hcounts
      | true =>
        simp only [if_true] at hopt
        have htop := MergeProjections_counts OperatorNode.isTopN
          (fun node => by cases node <;> rfl) hopt
        have hidx := MergeProjections_counts OperatorNode.isIndexScan
          (fun node => by cases node <;> rfl) hopt
        omega

/-- Witness for C18: a TopN of limit 7 over a projection over a TopN of limit 5 over a
projection over a sequential scan; the scan becomes an index scan of limit 7, the TopN of
limit 5 stays, one TopN is gone and one index scan is new. -/
theorem OptimizeChildren_outermost_match_witness :
    Optimize exContext exStacked = .ok exStackedRewritten ∧
    (∀ node ∈ exStacked.subtrees, ∀ orders limit offset,
      node.node = .LogicalTopN orders limit offset → node.children.length = 1) ∧
    countNodes OperatorNode.isTopN exStackedRewritten
        + countNodes OperatorNode.isIndexScan exStackedRewritten
      = countNodes OperatorNode.isTopN exStacked
        + countNodes OperatorNode.isIndexScan exStacked ∧
    countNodes OperatorNode.isTopN exStackedRewritten = 1 ∧
    countNodes OperatorNode.isTopN exStacked = 2 := by
  have hone : ∀ node ∈ exStacked.subtrees, ∀ orders limit offset,
      node.node = .LogicalTopN orders limit offset → node.children.length = 1 := by
    have hs : exStacked.subtrees
        = [exStacked, exProjection exVector (exPlan 0), exPlan 0,
            exProjection exVector (exSeqScan exTable), exSeqScan exTable] := rfl
    intro node hmem orders limit offset hnode
    rw [hs] at hmem
    simp only [List.mem_cons, List.mem_singleton, List.not_mem_nil, or_false] at hmem
    rcases hmem with rfl | rfl | rfl | rfl | rfl
    · rfl
    · cases hnode
    · rfl
    · cases hnode
    · cases hnode
  exact ⟨rfl, hone,
    ((OptimizeChildren_outermost_match exContext exStacked).2 hone exStackedRewritten rfl).1,
    rfl, rfl⟩

/-! ## The claim on the second run -/

theorem prunedFrom_root {plan plan1 : LogicalOperator} (h : PrunedFrom plan plan1) :
    plan1.node = plan.node ∧ findGet plan1 = findGet plan := by
  induction h with
  | triple outer inner_index inner_expressions pruned_expressions grandchildren siblings
      htriple _ =>
    refine ⟨rfl, ?_⟩
    obtain ⟨oi, oe, _, _, _, _, _, _, hplan, _⟩ := htriple
    simp only [LogicalOperator.mk.injEq] at hplan
    obtain ⟨rfl, _⟩ := hplan
    have hn : ∀ g, OperatorNode.LogicalProjection oi oe ≠ .LogicalGet g :=
      fun _ hx => by cases hx
    rcases siblings with _ | ⟨s, rest⟩
    · rw [findGet_step _ _ hn, findGet_step _ _ hn, findGet_projection,
        findGet_projection inner_index inner_expressions]
    · rw [findGet_branch _ _ hn (by simp), findGet_branch _ _ hn (by simp)]
  | other node children children1 _ hlen hpoint ih =>
    refine ⟨rfl, ?_⟩
    by_cases hn : ∃ g, node = .LogicalGet g
    · obtain ⟨g, rfl⟩ := hn
      simp [findGet]
    · have hn1 : ∀ g, node ≠ .LogicalGet g := fun g hg => hn ⟨g, hg⟩
      rcases children with _ | ⟨c, _ | ⟨d, rest⟩⟩
      · rcases children1 with _ | ⟨c1, rest1⟩
        · rfl
        · simp at hlen
      · rcases children1 with _ | ⟨c1, _ | ⟨d1, rest1⟩⟩
        · simp at hlen
        · rw [findGet_step _ _ hn1, findGet_step _ _ hn1]
          exact (ih 0 c c1 rfl rfl).2
        · simp at hlen
      · rw [findGet_branch _ (c :: d :: rest) hn1 (by simp),
          findGet_branch _ children1 hn1 (by rw [hlen]; simp)]

theorem TryOptimize_match_transfer {context : ClientContext} {node : OperatorNode}
    {child child1 : LogicalOperator} {rest rest1 : List LogicalOperator}
    {promoted : LogicalOperator}
    (hnode : child1.node = child.node) (hfind : findGet child1 = findGet child)
    (h : TryOptimize context (.mk node (child1 :: rest1)) = .ok (true, promoted)) :
    ∃ promoted0, TryOptimize context (.mk node (child :: rest)) = .ok (true, promoted0) := by
  obtain ⟨limit, c1, function_name, arguments, constant, array_size, target_value,
    hdc, htarget, hcast, hrw⟩ := TryOptimize_true h
  obtain ⟨get, table, bind_data, hg, hname, htable, hduck, hb, _⟩ := rewriteScan_true hrw
  obtain ⟨order, offset, r1, table_index, expressions, binding, hp, htype, href,
    hcnode, hexpr, hdist⟩ := hdc
  simp only [LogicalOperator.mk.injEq, List.cons.injEq] at hp
  obtain ⟨rfl, rfl, rfl⟩ := hp
  have hq : QueryVectorFound context
      (.mk (.LogicalTopN [order] limit offset) (child :: rest)) limit child
      function_name array_size target_value :=
    ⟨arguments, constant,
      ⟨order, offset, rest, table_index, expressions, binding, rfl, htype, href,
        by rw [← hnode, hcnode], hexpr, hdist⟩, htarget, hcast⟩
  refine ⟨replaceGet (indexScanGet context bind_data) child, ?_⟩
  rw [TryOptimize_of_queryVectorFound hq,
    rewriteScan_of_scan (by rw [← hfind, hg]) hname htable hduck, hb]

theorem prunedFrom_no_match (context : ClientContext) {plan plan1 : LogicalOperator}
    (h : PrunedFrom plan plan1)
    (hquiet : ∀ node ∈ plan.subtrees, ∀ node1, TryOptimize context node ≠ .ok (true, node1)) :
    ∀ node ∈ plan1.subtrees, ∀ node1, TryOptimize context node ≠ .ok (true, node1) := by
  induction h with
  | triple outer inner_index inner_expressions pruned_expressions grandchildren siblings
      htriple _ =>
    intro node hmem node1 hmatch
    obtain ⟨oi, oe, _, _, _, _, _, _, hplan, _⟩ := htriple
    simp only [LogicalOperator.mk.injEq] at hplan
    obtain ⟨rfl, _⟩ := hplan
    rcases mem_subtrees_iff.mp hmem with rfl | ⟨c, hc, hn⟩
    · simp [TryOptimize] at hmatch
    · rcases List.mem_cons.mp hc with rfl | hc
      · rcases mem_subtrees_iff.mp hn with rfl | ⟨g, hg, hgn⟩
        · simp [TryOptimize] at hmatch
        · exact hquiet node
            (mem_subtrees_child (List.mem_cons_self _ _) (mem_subtrees_child hg hgn))
            node1 hmatch
      · exact hquiet node (mem_subtrees_child (List.mem_cons_of_mem _ hc) hn) node1 hmatch
  | other node children children1 _ hlen hpoint ih =>
    intro n hmem node1 hmatch
    rcases mem_subtrees_iff.mp hmem with rfl | ⟨c1, hc1, hn⟩
    · rcases children1 with _ | ⟨c1, rest1⟩
      · obtain ⟨_, _, _, _, _, _, _, hdc, _⟩ := TryOptimize_true hmatch
        obtain ⟨_, _, _, _, _, _, hp, _⟩ := hdc
        simp at hp
      · rcases children with _ | ⟨c, rest⟩
        · simp at hlen
        · have hroot := prunedFrom_root
            (hpoint 0 c c1 List.getElem?_cons_zero List.getElem?_cons_zero)
          obtain ⟨promoted0, hm0⟩ := @TryOptimize_match_transfer context node c c1 rest rest1
            node1 hroot.1 hroot.2 hmatch
          exact hquiet _ (mem_subtrees_self _) promoted0 hm0
    · obtain ⟨i, hi⟩ := List.getElem?_of_mem hc1
      have hlt : i < children.length := by
        rcases Nat.lt_or_ge i children1.length with hlt | hge
        · omega
        · rw [List.getElem?_eq_none hge] at hi; cases hi
      have hci : children[i]? = some children[i] := List.getElem?_eq_getElem hlt
      exact ih i children[i] c1 hci hi
        (fun m hm => hquiet m (mem_subtrees_child (List.getElem_mem hlt) hm))
        n hn node1 hmatch

theorem forall₂_eq {α : Type} : ∀ {l1 l2 : List α}, List.Forall₂ (fun a b => b = a) l1 l2 →
    l2 = l1 := by
  intro l1 l2 h
  induction h with
  | nil => rfl
  | cons hab _ ih => rw [hab, ih]

theorem OptimizeChildren_of_no_match (context : ClientContext) (plan : LogicalOperator)
    (flag : Bool) (result : LogicalOperator)
    (h : OptimizeChildren context plan = .ok (flag, result))
    (hquiet : ∀ node ∈ plan.subtrees, ∀ node1, TryOptimize context node ≠ .ok (true, node1)) :
    flag = false ∧ result = plan := by
  revert hquiet
  refine OptimizeChildren_induct context
    (fun plan flag result =>
      (∀ node ∈ plan.subtrees, ∀ node1, TryOptimize context node ≠ .ok (true, node1)) →
      flag = false ∧ result = plan)
    ?_ plan.height plan flag result (Nat.le_refl _) h
  intro plan plan1 ok ok_children children1 ht hc hall hquiet
  cases ok with
  | true => exact absurd ht (hquiet plan (mem_subtrees_self plan) plan1)
  | false =>
    have hsame : plan1 = plan := TryOptimize_false ht
    subst hsame
    rcases plan1 with ⟨node, children⟩
    simp only [LogicalOperator.children, LogicalOperator.node] at hall hc ⊢
    have hchildren : List.Forall₂ (fun child child1 => child1 = child) children children1 :=
      forall₂_imp_mem hall (by
        rintro c c1 hmem ⟨_, _, hP⟩
        exact (hP (fun n hn => hquiet n (mem_subtrees_child hmem hn))).2)
    have hflag : ok_children = false := by
      cases hok : ok_children with
      | false => rfl
      | true =>
        exfalso
        obtain ⟨c, hmem, c1, hwalk⟩ := (forEachChild_flag _ _ _ _ hc).mp hok
        obtain ⟨c2, _, cflag, hwalk2, hP⟩ := forall₂_exists_of_mem hall c hmem
        rw [hwalk] at hwalk2
        simp only [Except.ok.injEq, Prod.mk.injEq] at hwalk2
        have := (hP (fun n hn => hquiet n (mem_subtrees_child hmem hn))).1
        rw [← hwalk2.1] at this
        cases this
    rw [forall₂_eq hchildren, hflag]
    exact ⟨rfl, rfl⟩

theorem Optimize_no_match (context : ClientContext) {plan result : LogicalOperator}
    (h : Optimize context plan = .ok result) :
    ∀ node ∈ result.subtrees, ∀ node1, TryOptimize context node ≠ .ok (true, node1) := by
  unfold Optimize at h
  cases hwalk : OptimizeChildren context plan with
  | error e => simp [hwalk] at h
  | ok r =>
    obtain ⟨flag, walked⟩ := r
    simp only [hwalk] at h
    have hquiet := (OptimizeChildren_chain_facts context plan flag walked hwalk).2.2.2.2
    cases flag with
    | false =>
      simp only [Bool.false_eq_true, if_false, Except.ok.injEq] at h
      subst h
      exact hquiet
    | true =>
      simp only [if_true] at h
      exact prunedFrom_no_match context (MergeProjections_frame walked result h).1 hquiet

/-- C17. The pass is idempotent. When the pass returns a plan, the attempt matches on no
node of that plan (neither the removal of TopN nodes, nor the new index scans, nor the
placeholders make a TopN eligible); so the walker of a second run reports no rewrite and
the second run returns the same plan, `Optimize (Optimize p) = Optimize p`: every outcome
of the second run is that plan, and the second run does return it whenever no attempt on a
node of that plan raises. -/
theorem Optimize_second_run (context : ClientContext) (plan result : LogicalOperator)
    (h : Optimize context plan = .ok result) :
    (∀ node ∈ result.subtrees, ∀ node1, TryOptimize context node ≠ .ok (true, node1)) ∧
    (∀ flag again, OptimizeChildren context result = .ok (flag, again) →
      flag = false ∧ again = result) ∧
    (∀ again, Optimize context result = .ok again → again = result) ∧
    ((∀ node ∈ result.subtrees, ∀ e, TryOptimize context node ≠ .error e) →
      OptimizeChildren context result = .ok (false, result) ∧
      Optimize context result = .ok result) := by
  have hquiet := Optimize_no_match context h
  have hwalk : ∀ flag again, OptimizeChildren context result = .ok (flag, again) →
      flag = false ∧ again = result :=
    fun flag again hw => OptimizeChildren_of_no_match context result flag again hw hquiet
  refine ⟨hquiet, hwalk, ?_, ?_⟩
  · intro again hagain
    unfold Optimize at hagain
    cases hw : OptimizeChildren context result with
    | error e => simp [hw] at hagain
    | ok r =>
      obtain ⟨flag, walked⟩ := r
      obtain ⟨rfl, rfl⟩ := hwalk flag walked hw
      simp only [hw, Bool.false_eq_true, if_false, Except.ok.injEq] at hagain
      exact hagain.symm
  · intro hsafe
    have hall : ∀ node ∈ result.subtrees,
        ∃ node1, TryOptimize context node = .ok (false, node1) := by
      intro node hmem
      cases ht : TryOptimize context node with
      | error e => exact absurd ht (hsafe node hmem e)
      | ok r =>
        obtain ⟨flag, node1⟩ := r
        cases flag with
        | false => exact ⟨node1, rfl⟩
        | true => exact absurd ht (hquiet node hmem node1)
    have hw : OptimizeChildren context result = .ok (false, result) :=
      OptimizeChildrenFuel_no_match context result.height result (Nat.le_refl _) hall
    exact ⟨hw, by simp only [Optimize, hw, Bool.false_eq_true, if_false]⟩

/-- Witness for C17: the pass on the two stacked TopN nodes, run again on its
result, reports no rewrite and returns the same plan. -/
theorem Optimize_second_run_witness :
    Optimize exContext exStacked = .ok exStackedRewritten ∧
    (∀ node ∈ exStackedRewritten.subtrees, ∀ e, TryOptimize exContext node ≠ .error e) ∧
    OptimizeChildren exContext exStackedRewritten = .ok (false, exStackedRewritten) ∧
    Optimize exContext exStackedRewritten = .ok exStackedRewritten := by
  have hsafe : ∀ node ∈ exStackedRewritten.subtrees, ∀ e,
      TryOptimize exContext node ≠ .error e := by
    have hs : exStackedRewritten.subtrees
        = [exStackedRewritten,
            exTopN .ASCENDING 0 (exProjection exVector
              (.mk (.LogicalGet ⟨⟨"hnsw_index_scan"⟩,
                .HNSWIndexScan ⟨exTable, exIndex, 7, exQuery⟩, true, 7⟩) [])),
            exProjection exVector
              (.mk (.LogicalGet ⟨⟨"hnsw_index_scan"⟩,
                .HNSWIndexScan ⟨exTable, exIndex, 7, exQuery⟩, true, 7⟩) []),
            .mk (.LogicalGet ⟨⟨"hnsw_index_scan"⟩,
                .HNSWIndexScan ⟨exTable, exIndex, 7, exQuery⟩, true, 7⟩) []] := rfl
    intro node hmem e he
    rw [hs] at hmem
    simp only [List.mem_cons, List.mem_singleton, List.not_mem_nil, or_false] at hmem
    have hok : ∃ node1, TryOptimize exContext node = .ok (false, node1) := by
      rcases hmem with rfl | rfl | rfl | rfl <;> exact ⟨_, rfl⟩
    obtain ⟨node1, h1⟩ := hok
    rw [h1] at he
    cases he
  exact ⟨rfl, hsafe, (Optimize_second_run exContext exStacked exStackedRewritten rfl).2.2.2 hsafe⟩

end duckdb
